import Mathlib

/-!
Shallow embedding of the debate-orchestration core of the `agent-insurance`
repository, together with proofs settling the frozen claims C1–C10.

Conventions used throughout:
* Python dictionaries coming from `json.loads` / agent output are modelled by
  the inductive type `PyJson` below (association lists keep insertion order,
  matching CPython dicts).  JSON numbers are modelled as integers; the claims
  under verification never exercise floating-point values, and floats are not
  shallowly embeddable.
* Python strings are modelled as `List Char` in the parsing/printing layer
  (and as `String` at API boundaries); `str.find`, `str.strip`, slicing and
  `in` are given faithful models (`pyFind`, `pyStripL`, …).
* Fallible code returns `Option`/`Except` instead of raising.
-/

namespace AgentIns

/-- A JSON value, as produced by `json.loads`.  Objects are insertion-ordered
association lists, mirroring CPython dict semantics; numbers are integers
(floating-point values are outside the modelled fragment). -/
inductive PyJson where
  | null
  | bool (b : Bool)
  | num (n : Int)
  | str (s : String)
  | arr (items : List PyJson)
  | obj (members : List (String × PyJson))
deriving Repr, Inhabited

namespace PyJson

mutual
/-- Boolean equality on JSON values (used to build decidable equality, which
the `deriving` handler cannot produce for this nested inductive). -/
def beqJ : PyJson → PyJson → Bool
  | .null, .null => true
  | .bool a, .bool b => a == b
  | .num a, .num b => a == b
  | .str a, .str b => a == b
  | .arr a, .arr b => beqJL a b
  | .obj a, .obj b => beqJM a b
  | _, _ => false

def beqJL : List PyJson → List PyJson → Bool
  | [], [] => true
  | a :: as, b :: bs => beqJ a b && beqJL as bs
  | _, _ => false

def beqJM : List (String × PyJson) → List (String × PyJson) → Bool
  | [], [] => true
  | a :: as, b :: bs => (a.1 == b.1 && beqJ a.2 b.2) && beqJM as bs
  | _, _ => false
end

mutual
theorem beqJ_iff : ∀ a b : PyJson, beqJ a b = true ↔ a = b
  | .null, b => by cases b <;> simp [beqJ]
  | .bool x, b => by cases b <;> simp [beqJ]
  | .num x, b => by cases b <;> simp [beqJ]
  | .str x, b => by cases b <;> simp [beqJ]
  | .arr xs, b => by
      cases b <;> simp [beqJ]
      exact beqJL_iff xs _
  | .obj xs, b => by
      cases b <;> simp [beqJ]
      exact beqJM_iff xs _

theorem beqJL_iff : ∀ a b : List PyJson, beqJL a b = true ↔ a = b
  | [], b => by cases b <;> simp [beqJL]
  | x :: xs, b => by
      cases b with
      | nil => simp [beqJL]
      | cons y ys =>
          simp only [beqJL, Bool.and_eq_true, beqJ_iff, beqJL_iff, List.cons.injEq]

theorem beqJM_iff : ∀ a b : List (String × PyJson), beqJM a b = true ↔ a = b
  | [], b => by cases b <;> simp [beqJM]
  | x :: xs, b => by
      cases b with
      | nil => simp [beqJM]
      | cons y ys =>
          simp only [beqJM, Bool.and_eq_true, beqJ_iff, beqJM_iff, List.cons.injEq,
            beq_iff_eq]
          constructor
          · rintro ⟨⟨h1, h2⟩, h3⟩
            exact ⟨Prod.ext h1 h2, h3⟩
          · rintro ⟨h, h3⟩
            exact ⟨⟨congrArg Prod.fst h, congrArg Prod.snd h⟩, h3⟩
end

instance : DecidableEq PyJson := fun a b =>
  decidable_of_iff (beqJ a b = true) (beqJ_iff a b)

mutual
/-- Well-formedness: object keys are pairwise distinct at every level, as is
forced for any value built from actual Python dicts. -/
def wf : PyJson → Bool
  | .null | .bool _ | .num _ | .str _ => true
  | .arr items => wfL items
  | .obj members => decide ((members.map Prod.fst).Nodup) && wfM members

def wfL : List PyJson → Bool
  | [] => true
  | j :: js => wf j && wfL js

def wfM : List (String × PyJson) → Bool
  | [] => true
  | kv :: kvs => wf kv.2 && wfM kvs
end

/-- Python truthiness of a JSON value (`bool(x)`). -/
def pyTruthy : PyJson → Bool
  | .null => false
  | .bool b => b
  | .num n => n != 0
  | .str s => s != ""
  | .arr items => !items.isEmpty
  | .obj members => !members.isEmpty

/-- Dictionary lookup `d[k]` / the probe behind `d.get(k)`.  CPython dicts
cannot hold duplicate keys; on the association lists we look up the first
binding (the lists built by the model never hold duplicates). -/
def jGet : PyJson → String → Option PyJson
  | .obj members, k => (members.find? (fun kv => kv.1 == k)).map Prod.snd
  | _, _ => none

/-- Python `d.get(k, default)`. -/
def jGetD (j : PyJson) (k : String) (d : PyJson) : PyJson := (jGet j k).getD d

/-- Membership test `k in d`. -/
def jHas (j : PyJson) (k : String) : Bool := (jGet j k).isSome

/-- Iteration over a JSON list.  The orchestrator only iterates values that are
lists; iteration of non-list values (which CPython would resolve differently
or reject) is modelled as the empty iteration. -/
def jItems : PyJson → List PyJson
  | .arr items => items
  | _ => []

/-- Assignment `d[k] = v`: replaces the value in place if the key exists
(keeping its position, as CPython does), else appends the binding. -/
def jSet : PyJson → String → PyJson → PyJson
  | .obj members, k, v =>
      if members.any (fun kv => kv.1 == k) then
        .obj (members.map (fun kv => if kv.1 == k then (kv.1, v) else kv))
      else .obj (members ++ [(k, v)])
  | j, _, _ => j

/-- Python `d.setdefault(k, v)`: insert `k ↦ v` at the end when missing. -/
def jSetDefault (j : PyJson) (k : String) (v : PyJson) : PyJson :=
  if jHas j k then j else jSet j k v

end PyJson

/-! ### Python string primitives -/

/-- Whitespace for Python's `str.strip()` (ASCII part; the orchestrator never
feeds non-ASCII whitespace to `strip`). -/
def pyWs (c : Char) : Bool :=
  c = ' ' || c = '\t' || c = '\n' || c = '\r' || c = '\x0b' || c = '\x0c'

/-- Python `str.strip()` on a character list. -/
def pyStripL (cs : List Char) : List Char :=
  ((cs.dropWhile pyWs).reverse.dropWhile pyWs).reverse

/-- Least index at which `pat` occurs in `cs` (`str.find`, with `none` for
`-1`).  Only called with non-empty patterns. -/
def pyFind : List Char → List Char → Option Nat
  | cs, pat =>
      if pat.isPrefixOf cs then some 0
      else
        match cs with
        | [] => none
        | _ :: t => (pyFind t pat).map (· + 1)

/-- Occurrence of `pat` at index `i` of `cs`. -/
def OccursAt (cs pat : List Char) (i : Nat) : Prop := pat <+: cs.drop i

/-- Substring test (Python `in`). -/
def containsL (cs pat : List Char) : Bool :=
  match cs with
  | [] => pat.isPrefixOf ([] : List Char)
  | _ :: t => pat.isPrefixOf cs || containsL t pat

/-- Python `str.replace(old, new)`, left-to-right, non-overlapping,
fuel-structural (the fuel is the input length; each step consumes at least
one character when `old` is non-empty, and the modelled call sites never
pass an empty `old`). -/
def pyReplaceF : Nat → List Char → List Char → List Char → List Char
  | 0, cs, _, _ => cs
  | _ + 1, [], _, _ => []
  | fuel + 1, c :: t, old, new =>
      if old ≠ [] ∧ old.isPrefixOf (c :: t) then
        new ++ pyReplaceF fuel ((c :: t).drop old.length) old new
      else c :: pyReplaceF fuel t old new

/-- Python `str.replace(old, new)` on character lists. -/
def pyReplace (cs old new : List Char) : List Char :=
  pyReplaceF cs.length cs old new

/-- Python `str.lower()` (ASCII case folding; the status strings and phrase
lists under test are ASCII). -/
def pyLower (s : String) : String := String.mk (s.data.map Char.toLower)

/-! ### The serializer: `json.dumps(data, indent=2, ensure_ascii=False)`

This is the write path used by `ResponseFormatter.format_json_response`. -/

/-- Lowercase hexadecimal digit, as `'%04x'` produces. -/
def hexDig (n : Nat) : Char :=
  if n < 10 then Char.ofNat (48 + n) else Char.ofNat (87 + n)

/-- One character as the Python JSON encoder emits it (`ensure_ascii=False`:
only `"`, `\` and control characters below `0x20` are escaped). -/
def escChar (c : Char) : List Char :=
  if c = '"' then ['\\', '"']
  else if c = '\\' then ['\\', '\\']
  else if c = '\n' then ['\\', 'n']
  else if c = '\r' then ['\\', 'r']
  else if c = '\t' then ['\\', 't']
  else if c = '\x08' then ['\\', 'b']
  else if c = '\x0c' then ['\\', 'f']
  else if c.toNat < 0x20 then
    ['\\', 'u', hexDig (c.toNat / 4096 % 16), hexDig (c.toNat / 256 % 16),
     hexDig (c.toNat / 16 % 16), hexDig (c.toNat % 16)]
  else [c]

/-- The escaped body of a string literal. -/
def escStr (s : List Char) : List Char := s.flatMap escChar

/-- A complete JSON string literal. -/
def strLit (s : String) : List Char := '"' :: (escStr s.data ++ ['"'])

/-- Decimal digits, fuel-structural so that the kernel can evaluate it; the
fuel is the number itself and each step divides by ten, so the zero-fuel
branch is unreachable from the wrapper below. -/
def natDigsF : Nat → Nat → List Char
  | 0, n => [Char.ofNat (48 + n)]
  | fuel + 1, n =>
      if n < 10 then [Char.ofNat (48 + n)]
      else natDigsF fuel (n / 10) ++ [Char.ofNat (48 + n % 10)]

/-- Decimal digits of `n`, most significant first (the digits of `repr(n)`). -/
def natDigs (n : Nat) : List Char := natDigsF n n

theorem natDigsF_irrel : ∀ f g n : Nat, n ≤ f → n ≤ g →
    natDigsF f n = natDigsF g n := by
  intro f
  induction f with
  | zero =>
      intro g n hf hg
      interval_cases n
      cases g <;> simp [natDigsF]
  | succ f ih =>
      intro g n hf hg
      cases g with
      | zero =>
          interval_cases n
          simp [natDigsF]
      | succ g =>
          show (if n < 10 then _ else _) = (if n < 10 then _ else _)
          split
          · rfl
          · rename_i h
            rw [ih g (n / 10) (by omega) (by omega)]

/-- The recurrence the source computes. -/
theorem natDigs_eq (n : Nat) : natDigs n =
    if n < 10 then [Char.ofNat (48 + n)]
    else natDigs (n / 10) ++ [Char.ofNat (48 + n % 10)] := by
  show natDigsF n n = _
  cases n with
  | zero => simp [natDigsF]
  | succ m =>
      show (if m + 1 < 10 then _ else _) = _
      split
      · rfl
      · rename_i h
        rw [natDigsF_irrel m ((m + 1) / 10) ((m + 1) / 10) (by omega) (by omega)]
        rfl

/-- `repr` of an integer: optional sign, then decimal digits. -/
def intChars (i : Int) : List Char :=
  (if i < 0 then ['-'] else []) ++ natDigs i.natAbs

/-- The newline-plus-indent block the encoder inserts (`indent=2` gives
`'\n' + '  ' * level`, i.e. `k` spaces at nesting level `k/2`). -/
def nlInd (k : Nat) : List Char := '\n' :: List.replicate k ' '

mutual
/-- `json.dumps(j, indent=2, ensure_ascii=False)` at an ambient indent of
`ind` spaces. -/
def dumpJ (ind : Nat) : PyJson → List Char
  | .null => "null".data
  | .bool true => "true".data
  | .bool false => "false".data
  | .num n => intChars n
  | .str s => strLit s
  | .arr [] => ['[', ']']
  | .arr (x :: xs) =>
      '[' :: (nlInd (ind + 2) ++ dumpJ (ind + 2) x ++ dumpItems (ind + 2) xs
        ++ nlInd ind ++ [']'])
  | .obj [] => ['{', '}']
  | .obj (kv :: kvs) =>
      '{' :: (nlInd (ind + 2) ++ strLit kv.1 ++ ':' :: ' ' :: dumpJ (ind + 2) kv.2
        ++ dumpMembers (ind + 2) kvs ++ nlInd ind ++ ['}'])

/-- Second and later array items, each preceded by `,` and a fresh line. -/
def dumpItems (ind : Nat) : List PyJson → List Char
  | [] => []
  | x :: xs => ',' :: (nlInd ind ++ dumpJ ind x ++ dumpItems ind xs)

/-- Second and later object members. -/
def dumpMembers (ind : Nat) : List (String × PyJson) → List Char
  | [] => []
  | kv :: kvs =>
      ',' :: (nlInd ind ++ strLit kv.1 ++ ':' :: ' ' :: dumpJ ind kv.2
        ++ dumpMembers ind kvs)
end

/-- Top-level `json.dumps(j, indent=2, ensure_ascii=False)`. -/
def jsonDumpsL (j : PyJson) : List Char := dumpJ 0 j

/-! ### The parser: `json.loads` (default, strict decoder)

Deviations from CPython, all outside the inputs the claims exercise: numbers
with a fractional or exponent part (floats) fail to parse, and `\uXXXX`
escapes denoting lone surrogates fail (Lean `Char` holds scalar values only).
-/

/-- JSON decoder whitespace (`' \t\n\r'`). -/
def isJWs (c : Char) : Bool := c = ' ' || c = '\t' || c = '\n' || c = '\r'

/-- Skip decoder whitespace. -/
def skipJWs (cs : List Char) : List Char := cs.dropWhile isJWs

/-- ASCII digit test. -/
def isDig (c : Char) : Bool := 48 ≤ c.toNat && c.toNat ≤ 57

/-- Value of one hexadecimal digit. -/
def hexV (c : Char) : Option Nat :=
  if 48 ≤ c.toNat && c.toNat ≤ 57 then some (c.toNat - 48)
  else if 97 ≤ c.toNat && c.toNat ≤ 102 then some (c.toNat - 87)
  else if 65 ≤ c.toNat && c.toNat ≤ 70 then some (c.toNat - 55)
  else none

/-- Value of a 4-digit hexadecimal group. -/
def hex4 (a b c d : Char) : Option Nat := do
  let va ← hexV a; let vb ← hexV b; let vc ← hexV c; let vd ← hexV d
  pure (((va * 16 + vb) * 16 + vc) * 16 + vd)

/-- Single-character escapes accepted by the decoder (`BACKSLASH` table). -/
def decodeEsc : Char → Option Char
  | '"' => some '"'
  | '\\' => some '\\'
  | '/' => some '/'
  | 'b' => some '\x08'
  | 'f' => some '\x0c'
  | 'n' => some '\n'
  | 'r' => some '\r'
  | 't' => some '\t'
  | _ => none

/-- Decode the material following a backslash: one escape sequence, with
surrogate-pair combination for `\uXXXX` (a `\uXXXX` denoting a lone
surrogate fails: Lean `Char` holds scalar values only, and the encoder under
test never emits such escapes). -/
def escHead : List Char → Option (Char × List Char)
  | 'u' :: a :: b :: c' :: d :: r2 =>
      (match hex4 a b c' d with
       | none => none
       | some u =>
           if 0xd800 ≤ u ∧ u ≤ 0xdbff then
             (match r2 with
              | '\\' :: 'u' :: a2 :: b2 :: c2 :: d2 :: r3 =>
                  (match hex4 a2 b2 c2 d2 with
                   | some u2 =>
                       if 0xdc00 ≤ u2 ∧ u2 ≤ 0xdfff then
                         some (Char.ofNat
                           (0x10000 + (u - 0xd800) * 1024 + (u2 - 0xdc00)), r3)
                       else none
                   | none => none)
              | _ => none)
           else if 0xdc00 ≤ u ∧ u ≤ 0xdfff then none
           else some (Char.ofNat u, r2))
  | e :: r2 => (decodeEsc e).map (fun ch => (ch, r2))
  | [] => none

theorem escHead_len {r : List Char} {p : Char × List Char}
    (h : escHead r = some p) : p.2.length < r.length := by
  rw [escHead.eq_def] at h
  split at h
  · split at h
    · exact absurd h (by simp)
    · split at h
      · split at h
        · split at h
          · split at h
            · rw [Option.some.injEq] at h
              subst h
              simp only [List.length_cons]
              omega
            · exact absurd h (by simp)
          · exact absurd h (by simp)
        · exact absurd h (by simp)
      · split at h
        · exact absurd h (by simp)
        · rw [Option.some.injEq] at h
          subst h
          simp only [List.length_cons]
          omega
  · rename_i e r2 _
    rcases hd : decodeEsc e with - | ch
    · rw [hd] at h
      exact absurd h (by simp)
    · rw [hd] at h
      rw [Option.map_some', Option.some.injEq] at h
      subst h
      simp
  · exact absurd h (by simp)

/-- Body of a string literal after the opening quote, fuel-structural (the
fuel is the input length; every step consumes at least one character, so
the zero-fuel branch is unreachable from the wrapper below). -/
def parseStrBodyF : Nat → List Char → Option (List Char × List Char)
  | 0, _ => none
  | _ + 1, [] => none
  | fuel + 1, c :: r =>
      if c = '"' then some ([], r)
      else if c = '\\' then
        match escHead r with
        | some p => (parseStrBodyF fuel p.2).map (fun q => (p.1 :: q.1, q.2))
        | none => none
      else if c.toNat < 0x20 then none
      else (parseStrBodyF fuel r).map (fun q => (c :: q.1, q.2))

/-- Body of a string literal, after the opening quote, strict mode: raw
control characters below `0x20` are rejected.  Returns the decoded
characters and the input after the closing quote. -/
def parseStrBody (cs : List Char) : Option (List Char × List Char) :=
  parseStrBodyF cs.length cs

theorem parseStrBodyF_irrel : ∀ f g cs, cs.length ≤ f → cs.length ≤ g →
    parseStrBodyF f cs = parseStrBodyF g cs := by
  intro f
  induction f with
  | zero =>
      intro g n hf hg
      have hn : n = [] := List.eq_nil_of_length_eq_zero (Nat.le_zero.mp hf)
      subst hn
      cases g <;> rfl
  | succ f ih =>
      intro g cs hf hg
      cases cs with
      | nil => cases g <;> rfl
      | cons c r =>
          cases g with
          | zero => exact absurd hg (by simp)
          | succ g =>
              show (if c = '"' then _ else _) = (if c = '"' then _ else _)
              simp only [List.length_cons] at hf hg
              split
              · rfl
              · split
                · rcases he : escHead r with - | p
                  · simp only [he]
                  · have hlt := escHead_len he
                    simp only [he]
                    rw [ih g p.2 (by omega) (by omega)]
                · split
                  · rfl
                  · rw [ih g r (by omega) (by omega)]

theorem parseStrBody_quote (r : List Char) : parseStrBody ('"' :: r) = some ([], r) := rfl

theorem parseStrBody_bs (r : List Char) :
    parseStrBody ('\\' :: r) =
      (match escHead r with
       | some p => (parseStrBody p.2).map (fun q => (p.1 :: q.1, q.2))
       | none => none) := by
  show parseStrBodyF ('\\' :: r).length ('\\' :: r) = _
  rw [show ('\\' :: r).length = r.length + 1 from rfl]
  simp only [parseStrBodyF]
  rw [if_neg (by decide : ¬('\\' : Char) = '"')]
  rw [if_pos trivial]
  rcases he : escHead r with - | p
  · simp only [he]
  · have hlt := escHead_len he
    simp only [he]
    rw [parseStrBodyF_irrel r.length p.2.length p.2 (by omega) (by omega)]
    rfl

theorem parseStrBody_lit {c : Char} (r : List Char) (h1 : c ≠ '"') (h2 : c ≠ '\\')
    (h8 : ¬c.toNat < 0x20) :
    parseStrBody (c :: r) = (parseStrBody r).map (fun q => (c :: q.1, q.2)) := by
  show parseStrBodyF (c :: r).length (c :: r) = _
  rw [show (c :: r).length = r.length + 1 from rfl]
  simp only [parseStrBodyF]
  simp only [if_neg h1, if_neg h2, if_neg h8]
  rfl

/-- Longest digit run at the head of the input. -/
def spanDigs : List Char → List Char × List Char
  | [] => ([], [])
  | c :: t =>
      if isDig c then
        let p := spanDigs t
        (c :: p.1, p.2)
      else ([], c :: t)

/-- Numeric value of a digit run. -/
def digsVal (ds : List Char) : Nat :=
  ds.foldl (fun acc c => acc * 10 + (c.toNat - 48)) 0

/-- Integer part per `NUMBER_RE` (`0|[1-9]\d*`): a leading `0` is a complete
integer part on its own. -/
def parseIntPart : List Char → Option (Nat × List Char)
  | [] => none
  | c :: t =>
      if c = '0' then some (0, t)
      else if isDig c then some (digsVal (c :: (spanDigs t).1), (spanDigs t).2)
      else none

/-- Does the input continue as an exponent (`[eE][-+]?\d+` after the `e`)? -/
def expFollows : List Char → Bool
  | '+' :: d :: _ => isDig d
  | '-' :: d :: _ => isDig d
  | d :: _ => isDig d
  | [] => false

/-- Would `NUMBER_RE` extend the match with a fraction or exponent?  Such
numbers are floats, outside the modelled fragment. -/
def isFloatCont : List Char → Bool
  | '.' :: d :: _ => isDig d
  | 'e' :: r2 => expFollows r2
  | 'E' :: r2 => expFollows r2
  | _ => false

/-- Unsigned number: integer part, rejecting floats. -/
def parseNumPos (cs : List Char) : Option (Nat × List Char) :=
  match parseIntPart cs with
  | none => none
  | some (n, rest) => if isFloatCont rest then none else some (n, rest)

/-- A JSON number per `NUMBER_RE` (integer-valued). -/
def parseNum : List Char → Option (Int × List Char)
  | '-' :: r => (parseNumPos r).map (fun p => (-(p.1 : Int), p.2))
  | cs => (parseNumPos cs).map (fun p => ((p.1 : Int), p.2))

/-- Building the dict from scanned pairs (`dict(pairs)`): a later duplicate
key overwrites the value in place, keeping the first occurrence's position. -/
def objUpsert (l : List (String × PyJson)) (k : String) (v : PyJson) :
    List (String × PyJson) :=
  if l.any (fun kv => kv.1 == k) then
    l.map (fun kv => if kv.1 == k then (kv.1, v) else kv)
  else l ++ [(k, v)]

/-- `dict(pairs)` over the scanned member list. -/
def dictify (ms : List (String × PyJson)) : List (String × PyJson) :=
  ms.foldl (fun acc kv => objUpsert acc kv.1 kv.2) []

/-- The literal continuations `null` / `true` / `false` (scanner constants). -/
def litNull : List Char → Option (PyJson × List Char)
  | 'u' :: 'l' :: 'l' :: r2 => some (.null, r2)
  | _ => none

def litTrue : List Char → Option (PyJson × List Char)
  | 'r' :: 'u' :: 'e' :: r2 => some (.bool true, r2)
  | _ => none

def litFalse : List Char → Option (PyJson × List Char)
  | 'a' :: 'l' :: 's' :: 'e' :: r2 => some (.bool false, r2)
  | _ => none

mutual
/-- `scan_once`: one JSON value at the head of the (already
whitespace-skipped) input.  `NaN`/`Infinity` (floats) are outside the
modelled fragment and fail here. -/
def parseVal : Nat → List Char → Option (PyJson × List Char)
  | 0, _ => none
  | _ + 1, [] => none
  | fuel + 1, c :: r =>
      if c = '"' then (parseStrBody r).map (fun p => (.str (String.mk p.1), p.2))
      else if c = '{' then
        (if (skipJWs r).headD ' ' = '}' then some (.obj [], (skipJWs r).tail)
         else (parseMembs fuel (skipJWs r)).map (fun p => (.obj (dictify p.1), p.2)))
      else if c = '[' then
        (if (skipJWs r).headD ' ' = ']' then some (.arr [], (skipJWs r).tail)
         else (parseElems fuel (skipJWs r)).map (fun p => (.arr p.1, p.2)))
      else if c = 'n' then litNull r
      else if c = 't' then litTrue r
      else if c = 'f' then litFalse r
      else (parseNum (c :: r)).map (fun p => (.num p.1, p.2))

/-- One-or-more object members; whitespace already skipped, not `}`. -/
def parseMembs : Nat → List Char → Option (List (String × PyJson) × List Char)
  | 0, _ => none
  | _ + 1, [] => none
  | fuel + 1, c :: r =>
      if c = '"' then
        (parseStrBody r).bind (fun kp =>
          if (skipJWs kp.2).headD ' ' = ':' then
            (parseVal fuel (skipJWs (skipJWs kp.2).tail)).bind (fun vp =>
              if (skipJWs vp.2).headD ' ' = ',' then
                (parseMembs fuel (skipJWs (skipJWs vp.2).tail)).map
                  (fun p => ((String.mk kp.1, vp.1) :: p.1, p.2))
              else if (skipJWs vp.2).headD ' ' = '}' then
                some ([(String.mk kp.1, vp.1)], (skipJWs vp.2).tail)
              else none)
          else none)
      else none

/-- One-or-more array elements; whitespace already skipped, not `]`. -/
def parseElems : Nat → List Char → Option (List PyJson × List Char)
  | 0, _ => none
  | fuel + 1, cs =>
      (parseVal fuel cs).bind (fun vp =>
        if (skipJWs vp.2).headD ' ' = ',' then
          (parseElems fuel (skipJWs (skipJWs vp.2).tail)).map (fun p => (vp.1 :: p.1, p.2))
        else if (skipJWs vp.2).headD ' ' = ']' then some ([vp.1], (skipJWs vp.2).tail)
        else none)
end

/-- `json.loads` on a character list: skip leading whitespace, scan one value,
require only whitespace to remain. -/
def jsonLoadsL (cs : List Char) : Option PyJson :=
  match parseVal (cs.length + 1) (skipJWs cs) with
  | some (v, rest) => if (skipJWs rest).isEmpty then some v else none
  | none => none

/-- `json.loads` on a string. -/
def jsonLoads (s : String) : Option PyJson := jsonLoadsL s.data

/-! ### `ResponseFormatter`: write path and the four extraction methods -/

/-- `ResponseFormatter.JSON_START_DELIMITER`. -/
def jsonStartDelim : List Char := "<<<JSON_START>>>".data

/-- `ResponseFormatter.JSON_END_DELIMITER`. -/
def jsonEndDelim : List Char := "<<<JSON_END>>>".data

/-- `format_json_response` on a dict argument: `json.dumps(data, indent=2,
ensure_ascii=False)` wrapped in the two delimiter lines. -/
def formatJsonResponse (j : PyJson) : List Char :=
  jsonStartDelim ++ '\n' :: (jsonDumpsL j ++ '\n' :: jsonEndDelim)

/-- Method 1, `_extract_delimited_json`: locate both delimiters with
`str.find`, slice between them (Python slice semantics: an empty string
when the end index precedes the start), strip, parse. -/
def extractDelimited (text : List Char) : Option PyJson :=
  match pyFind text jsonStartDelim, pyFind text jsonEndDelim with
  | some s, some e =>
      jsonLoadsL (pyStripL ((text.drop (s + jsonStartDelim.length)).take
        (e - (s + jsonStartDelim.length))))
  | _, _ => none

/-- The tail of the markdown patterns: a literal newline then three
backticks. -/
def mdClose : List Char := '\n' :: "```".data

/-- The head literal of the first markdown pattern. -/
def mdLitJson : List Char := "```json".data

/-- The head literal of the second markdown pattern. -/
def mdLitPlain : List Char := "```".data

/-- One candidate for the `\s*\n` part of the markdown patterns: the
quantifier has consumed `j` whitespace characters, the next character must
be a newline, and the non-greedy group then runs to the first `\n'''`
(backticks) occurrence.  Returns the captured group. -/
def mdGroupAt (j : Nat) (body : List Char) : Option (List Char) :=
  if body.getD j ' ' = '\n' then
    match pyFind (body.drop (j + 1)) mdClose with
    | some e => some ((body.drop (j + 1)).take e)
    | none => none
  else none

/-- Backtracking of the greedy `\s*`: try the longest whitespace run first,
then shorter ones. -/
def mdTryJ : Nat → List Char → Option (List Char)
  | 0, body => mdGroupAt 0 body
  | j + 1, body =>
      match mdGroupAt (j + 1) body with
      | some g => some g
      | none => mdTryJ j body

/-- Attempt a full pattern match at the current position: the literal head,
then `\s*\n(.*?)\n` plus backticks.  `re` whitespace is modelled by the same
ASCII class as `str.strip` (the sources never reach non-ASCII whitespace
here). -/
def mdMatchHere (lit text : List Char) : Option (List Char) :=
  if lit.isPrefixOf text then
    match ((text.drop lit.length).takeWhile pyWs).length with
    | 0 => none
    | k + 1 => mdTryJ k (text.drop lit.length)
  else none

/-- `re.search`: the leftmost position with a full match wins. -/
def mdSearchA (lit : List Char) : List Char → Option (List Char)
  | [] => none
  | c :: t =>
      match mdMatchHere lit (c :: t) with
      | some g => some g
      | none => mdSearchA lit t

/-- Method 2, `_extract_markdown_json`: try pattern `'''json\s*\n(.*?)\n'''`
then `'''\s*\n(.*?)\n'''` (three backticks each); on a match whose stripped
group fails to parse, move to the next pattern. -/
def extractMarkdown (text : List Char) : Option PyJson :=
  match mdSearchA mdLitJson text with
  | some g =>
      match jsonLoadsL (pyStripL g) with
      | some v => some v
      | none =>
          match mdSearchA mdLitPlain text with
          | some g2 => jsonLoadsL (pyStripL g2)
          | none => none
  | none =>
      match mdSearchA mdLitPlain text with
      | some g2 => jsonLoadsL (pyStripL g2)
      | none => none

/-- Method 3, `_extract_raw_json`: parse the entire text. -/
def extractRaw (text : List Char) : Option PyJson := jsonLoadsL text

/-- State of the brace-counting scanner shared by
`ResponseFormatter._extract_embedded_json` and
`SupervisorOrchestrator._manual_json_extraction`: `brace_count`,
`in_string`, `escape_next`. -/
structure ScanSt where
  depth : Int
  inStr : Bool
  esc : Bool
deriving DecidableEq

/-- One scanner transition, as the Python loop body computes it. -/
def embStep (st : ScanSt) (c : Char) : ScanSt :=
  if st.esc then { st with esc := false }
  else if c = '\\' then { st with esc := true }
  else if c = '"' then { st with inStr := !st.inStr }
  else if st.inStr then st
  else if c = '{' then { st with depth := st.depth + 1 }
  else if c = '}' then { st with depth := st.depth - 1 }
  else st

/-- Does processing `c` in state `st` hit `brace_count == 0` (the loop's
exit)? -/
def embHit (st : ScanSt) (c : Char) : Bool :=
  !st.esc && !st.inStr && c == '}' && st.depth == 1

/-- Index of the character at which the scan first hits `brace_count == 0`. -/
def embFind : ScanSt → List Char → Option Nat
  | _, [] => none
  | st, c :: r => if embHit st c then some 0 else (embFind (embStep st c) r).map (· + 1)

/-- Method 4, `_extract_embedded_json`: find the first `v''` brace, scan for
its match, parse the span; on a parse failure recurse on the remainder.
Each round consumes at least one character, so fuel `length + 1` (supplied
by `extractEmbedded`) never runs out. -/
def embLoop : Nat → List Char → Option PyJson
  | 0, _ => none
  | fuel + 1, text =>
      match pyFind text ['{'] with
      | none => none
      | some s =>
          match embFind ⟨0, false, false⟩ (text.drop s) with
          | none => none
          | some k =>
              match jsonLoadsL ((text.drop s).take (k + 1)) with
              | some v => some v
              | none => embLoop fuel (text.drop (s + k + 1))

/-- Method 4 entry point. -/
def extractEmbedded (text : List Char) : Option PyJson :=
  embLoop (text.length + 1) text

/-- A parsed JSON `null` is Python `None`, indistinguishable at the call
sites (`if json_data is not None`) from a failed extraction. -/
def foundJ : Option PyJson → Option PyJson
  | some .null => none
  | r => r

/-- `ResponseFormatter.extract_json_from_response`: the emptiness guard, then
methods 1-4 in order.  The model is a total function: the Python code
catches decoder errors inside each method, so no exception escapes. -/
def extractJson (cs : List Char) : Option PyJson :=
  if cs.isEmpty || (pyStripL cs).isEmpty then none
  else
    let text := pyStripL cs
    match foundJ (extractDelimited text) with
    | some v => some v
    | none =>
        match foundJ (extractMarkdown text) with
        | some v => some v
        | none =>
            match foundJ (extractRaw text) with
            | some v => some v
            | none => foundJ (extractEmbedded text)

/-! ### `SupervisorOrchestrator` manual extraction and its cleanup pass -/

/-- `re.sub(r',(\s*[}\]])', r'\1', t)`: drop a comma that is followed by
optional whitespace and a closing brace or bracket; scanning resumes after
the replaced region. -/
def subTrailCommaF : Nat → List Char → List Char
  | 0, cs => cs
  | _ + 1, [] => []
  | fuel + 1, c :: t =>
      if c = ',' then
        match t.drop (t.takeWhile pyWs).length with
        | b :: r =>
            if b = '}' || b = ']' then
              t.takeWhile pyWs ++ b :: subTrailCommaF fuel r
            else c :: subTrailCommaF fuel t
        | [] => c :: subTrailCommaF fuel t
      else c :: subTrailCommaF fuel t

/-- Entry point; the fuel (the input length) cannot run out since every
step consumes at least one character. -/
def subTrailComma (cs : List Char) : List Char := subTrailCommaF cs.length cs

/-- The literal the source's mangled quote-fix line actually replaces: the
first `.replace` call's arguments were themselves smart-quote-corrupted
into a triple-quoted string, so the line replaces the fifteen characters
`, "'").replace(` by a single apostrophe. -/
def qArtifact : List Char :=
  [',', ' ', '"', '\'', '"', ')', '.', 'r', 'e', 'p', 'l', 'a', 'c', 'e', '(']

/-- `SupervisorOrchestrator._clean_json_text`: the trailing-comma `re.sub`,
two no-op replaces of `1"` by `1"` (the smart quotes in the source were
themselves mangled to plain quotes), and the artifact replace. -/
def cleanJsonText (cs : List Char) : List Char :=
  pyReplace (pyReplace (pyReplace (subTrailComma cs) ['"'] ['"']) ['"'] ['"'])
    qArtifact ['\'']

/-- `SupervisorOrchestrator._manual_json_extraction`: brace-count the first
embedded object, apply `_clean_json_text`, parse once (no retry). -/
def manualJsonExtraction (content : List Char) : Option PyJson :=
  match pyFind content ['{'] with
  | none => none
  | some s =>
      match embFind ⟨0, false, false⟩ (content.drop s) with
      | none => none
      | some k => jsonLoadsL (cleanJsonText ((content.drop s).take (k + 1)))

open PyJson

/-! ### `strategies.py`: selection and termination -/

/-- Mutable fields of `DebateSelectionStrategy`. -/
structure SelState where
  turnCount : Nat
  roundNumber : Nat
  turnsInRound : Nat
deriving DecidableEq

/-- The state `reset()` establishes (also the constructor's class defaults). -/
def selInit : SelState := ⟨0, 1, 0⟩

/-- `DebateSelectionStrategy.next()`: emitted role and updated state (the
trailing `turn_count`/`turns_in_round` increments are folded into each
branch). -/
def selNext (s : SelState) : String × SelState :=
  if s.roundNumber = 1 then
    if s.turnsInRound = 0 then
      ("curator", ⟨s.turnCount + 1, s.roundNumber, s.turnsInRound + 1⟩)
    else if s.turnsInRound = 1 then
      ("interpreter", ⟨s.turnCount + 1, s.roundNumber, s.turnsInRound + 1⟩)
    else if s.turnsInRound = 2 then
      ("reviewer", ⟨s.turnCount + 1, s.roundNumber, s.turnsInRound + 1⟩)
    else ("reviewer", ⟨s.turnCount + 1, 2, 1⟩)
  else
    if s.turnsInRound = 0 then
      ("curator", ⟨s.turnCount + 1, s.roundNumber, s.turnsInRound + 1⟩)
    else if s.turnsInRound = 1 then
      ("interpreter", ⟨s.turnCount + 1, s.roundNumber, s.turnsInRound + 1⟩)
    else if s.turnsInRound = 2 then
      ("reviewer", ⟨s.turnCount + 1, s.roundNumber, s.turnsInRound + 1⟩)
    else ("curator", ⟨s.turnCount + 1, s.roundNumber + 1, 1⟩)

/-- Iterated `next()` from a given state: the state after `n` calls. -/
def selIter (s : SelState) : Nat → SelState
  | 0 => s
  | n + 1 => (selNext (selIter s n)).2

/-- The role emitted by the `n`-th call (`n` counts from 1). -/
def selRole (s : SelState) (n : Nat) : String := (selNext (selIter s (n - 1))).1

/-- Mutable fields of `ConsensusTerminationStrategy`. -/
structure TermState where
  maxRounds : Nat
  currentRound : Nat
deriving DecidableEq

/-- Constructor state for a given `max_rounds`. -/
def termInit (m : Nat) : TermState := ⟨m, 1⟩

/-- The approval phrases checked (lower-cased) in the last turn text. -/
def approvalPhrases : List (List Char) :=
  ["\"approval\": true".data, "approval is granted".data, "i approve".data,
   "decision is approved".data, "no blocking objections".data]

/-- The critical-error phrases checked in the last three turn texts. -/
def errorPhrases : List (List Char) :=
  ["critical error".data, "unable to process".data, "processing failed".data,
   "fatal error".data, "cannot continue".data]

/-- Does the last text (lower-cased) contain an approval phrase?  (`texts`
must be non-empty for `history_texts[-1]` to exist; `and` short-circuits
in the source.) -/
def approvalHit (texts : List String) : Bool :=
  !texts.isEmpty && approvalPhrases.any (fun p =>
    containsL (pyLower (texts.getLastD "")).data p)

/-- Does one of the last three texts contain an error phrase?
(`history_texts[-3:]`.) -/
def errorHit (texts : List String) : Bool :=
  (texts.drop (texts.length - 3)).any (fun t =>
    errorPhrases.any (fun p => containsL (pyLower t).data p))

/-- `ConsensusTerminationStrategy.should_terminate`: increment the round
counter on a reviewer turn, then the cap check, the approval-phrase check
on the last text, and the error-phrase check on the last three texts. -/
def shouldTerminate (st : TermState) (lastRole : String) (texts : List String) :
    Bool × TermState :=
  let st := if lastRole == "reviewer" then
    { st with currentRound := st.currentRound + 1 } else st
  if st.maxRounds < st.currentRound then (true, st)
  else if lastRole == "reviewer" && approvalHit texts then (true, st)
  else if errorHit texts then (true, st)
  else (false, st)

/-- Iterated `should_terminate` over a run of reviewer turns with given
texts: the flags returned by each call. -/
def termFlags (st : TermState) : List (List String) → List Bool
  | [] => []
  | ts :: rest =>
      let (b, st') := shouldTerminate st "reviewer" ts
      b :: termFlags st' rest

/-! ### `supervisor.py`: decisions, merging, and the collaboration loop -/

/-- Python `x or v`: keep a truthy value, else the fallback. -/
def orJ (v : PyJson) (j : PyJson) : PyJson := if pyTruthy j then j else v

/-- `str()` of a JSON value where the sources expect a string; the claims
only exercise string-valued fields (on other values CPython would either
`str()` to text that the comparisons below never match, or raise before
producing a decision). -/
def asStr : PyJson → String
  | .str s => s
  | _ => ""

/-- `str(n)` for a count. -/
def natStr (n : Nat) : String := String.mk (natDigs n)

/-- `'; '.join(l)`. -/
def joinSemi (l : List String) : String := String.intercalate "; " l

/-- The status test of `_compile_decision`:
`obj.get("status", "").lower() == "blocking"`. -/
def isBlockingObj (o : PyJson) : Bool :=
  pyLower (asStr (jGetD o "status" (.str ""))) == "blocking"

/-- `_compile_decision` after its extraction calls (source lines 267-330):
outcome and rationale selection plus the final decision dictionary.  The
conversation-derived payloads (`case_id`, `format_for_display`,
`get_conversation_summary`, `_get_rounds_completed`) enter as parameters. -/
def compileFromData (caseId : PyJson) (evidenceData decisionData reviewData : PyJson)
    (turnsDisp convSummary roundsComp : PyJson) : PyJson :=
  let interp := jGetD decisionData "coverage_position" (.str "Deny")
  let approval := jGetD reviewData "approval" (.bool false)
  let objections := jGetD reviewData "objections" (.arr [])
  let blocking := (jItems objections).filter isBlockingObj
  let outcome :=
    if pyTruthy approval && blocking.isEmpty then interp
    else if !blocking.isEmpty then .str "Pending Investigation"
    else .str "Pending Review"
  let rationale :=
    if pyTruthy approval && blocking.isEmpty then
      jGetD decisionData "rationale" (.str "Unable to determine coverage")
    else if !blocking.isEmpty then
      .str ("The claim requires further investigation due to "
        ++ natStr blocking.length ++ " blocking objection(s): "
        ++ joinSemi ((blocking.map (fun o =>
            asStr (jGetD o "message" (jGetD o "type" (.str "Unknown"))))).take 3)
        ++ ". Original interpreter recommendation was '" ++ asStr interp
        ++ "', but compliance review identified issues that must be resolved "
        ++ "before final determination.")
    else
      .str ("The claim requires additional review. Original interpreter "
        ++ "recommendation was '" ++ asStr interp
        ++ "', but compliance reviewer has not provided final approval.")
  .obj [("case_id", caseId),
    ("decision", .obj [("outcome", outcome), ("rationale", rationale),
      ("sensitivity", jGetD decisionData "sensitivity" (.str "")),
      ("interpreter_recommendation", interp),
      ("interpreter_rationale", jGetD decisionData "rationale" (.str ""))]),
    ("citations", jGetD decisionData "citations" (.arr [])),
    ("objections", objections),
    ("evidence", jGetD evidenceData "evidence" (.arr [])),
    ("expense", jGetD evidenceData "expense" (.obj [])),
    ("turns", turnsDisp),
    ("metadata", .obj [("conversation_summary", convSummary),
      ("approval", approval),
      ("blocking_objections_count", .num blocking.length),
      ("rounds_completed", roundsComp),
      ("recommendations", jGetD reviewData "recommendations" (.arr []))])]

/-- `_error_decision(case_id, error_message)`. -/
def errorDecision (caseId : PyJson) (msg : String) : PyJson :=
  .obj [("case_id", caseId),
    ("decision", .obj [("outcome", .str "Deny"),
      ("rationale", .str ("Processing error: " ++ msg)),
      ("sensitivity", .str "Unable to process claim")]),
    ("citations", .arr []),
    ("objections", .arr [.obj [("type", .str "Processing Error"),
      ("status", .str "Blocking"), ("message", .str msg),
      ("evidence_reference", .null)]]),
    ("evidence", .arr []),
    ("expense", .obj []),
    ("turns", .arr []),
    ("metadata", .obj [("conversation_summary", .obj []),
      ("approval", .bool false), ("rounds_completed", .num 0),
      ("error", .str msg)])]

/-- The JSON-serialize-then-parse shallow copy `_merge_evidence` takes of
`base`.  For well-formed integer-valued data this is the identity (proved
below); the `getD` keeps the model total where CPython's decoder cannot
fail on its own encoder's output. -/
def copyJ (j : PyJson) : PyJson := (jsonLoadsL (jsonDumpsL j)).getD j

/-- `float()` of the values the expense-total branch feeds it, on the
integer fragment; `none` stands for a `ValueError`/`TypeError`. -/
def asNumO : PyJson → Option Int
  | .num n => some n
  | .bool b => some (if b then 1 else 0)
  | _ => none

/-- Replace the first list entry satisfying `p` (the entry aliased by
`images_map`; the model assumes distinct truthy `image_name` values in the
base evidence, which makes first and map-resolved entry coincide). -/
def updFirst (p : PyJson → Bool) (f : PyJson → PyJson) : List PyJson → List PyJson
  | [] => []
  | x :: xs => if p x then f x :: xs else x :: updFirst p f xs

/-- Merging one delta evidence entry into an existing aliased entry. -/
def mergeEntry (d : PyJson) (e : PyJson) : PyJson :=
  let e1 := PyJson.jSetDefault e "observations" (.arr [])
  let e2 := PyJson.jSet e1 "observations"
    (.arr (jItems (jGetD e1 "observations" (.arr []))
      ++ jItems (orJ (.arr []) (jGetD d "observations" (.arr [])))))
  let e3 := if pyTruthy (jGetD d "global_assessment" .null) then
    PyJson.jSet e2 "global_assessment" (jGetD d "global_assessment" .null) else e2
  if pyTruthy (jGetD d "chronology" .null) then
    PyJson.jSet e3 "chronology" (jGetD d "chronology" .null) else e3

/-- The evidence-entry loop of `_merge_evidence`: `names` carries the keys
of `images_map`. -/
def mergeEvLoop : PyJson → List PyJson → List PyJson → PyJson
  | base, _, [] => base
  | base, names, d :: ds =>
      let key := jGetD d "image_name" .null
      if !pyTruthy key then mergeEvLoop base names ds
      else if names.any (fun k => beqJ k key) then
        let ev' := updFirst (fun e => beqJ (jGetD e "image_name" .null) key)
          (mergeEntry d) (jItems (jGetD base "evidence" (.arr [])))
        mergeEvLoop (PyJson.jSet base "evidence" (.arr ev')) names ds
      else
        let b1 := PyJson.jSetDefault base "evidence" (.arr [])
        let b2 := PyJson.jSet b1 "evidence"
          (.arr (jItems (jGetD b1 "evidence" (.arr [])) ++ [d]))
        mergeEvLoop b2 (names ++ [key]) ds

/-- The expense block of `_merge_evidence`, applied to the current
`base_expense` dict when `delta_expense` is truthy. -/
def mergeExpense (deltaExp exp0 : PyJson) : PyJson :=
  let exp1 :=
    match jGet deltaExp "total" with
    | some dtot =>
        if dtot = .null then exp0
        else
          match asNumO (orJ (.num 0) (jGetD exp0 "total" (.num 0))),
              asNumO (orJ (.num 0) (jGetD deltaExp "total" (.num 0))) with
          | some a, some b => PyJson.jSet exp0 "total" (.num (max a b))
          | _, _ => PyJson.jSet exp0 "total" (jGetD deltaExp "total" .null)
    | none => exp0
  let exp2 := PyJson.jSetDefault exp1 "line_items" (.arr [])
  let exp3 := PyJson.jSet exp2 "line_items"
    (.arr (jItems (jGetD exp2 "line_items" (.arr []))
      ++ jItems (orJ (.arr []) (jGetD deltaExp "line_items" (.arr [])))))
  ["vendor", "invoice_number", "invoice_date", "currency", "subtotal",
    "tax"].foldl (fun e k =>
      if !PyJson.jHas e k && PyJson.jHas deltaExp k then
        PyJson.jSet e k (jGetD deltaExp k .null) else e) exp3

/-- The `base_expense` block of `_merge_evidence` (`setdefault`, then the
conditional merge). -/
def mergeExpenseStep (base delta : PyJson) : PyJson :=
  let b2 := PyJson.jSetDefault base "expense" (.obj [])
  let deltaExp := orJ (.obj []) (jGetD delta "expense" .null)
  if pyTruthy deltaExp then
    PyJson.jSet b2 "expense" (mergeExpense deltaExp (jGetD b2 "expense" (.obj [])))
  else b2

/-- The `fnol_summary` block of `_merge_evidence`. -/
def mergeFnolStep (base delta : PyJson) : PyJson :=
  if pyTruthy (jGetD delta "fnol_summary" .null) then
    PyJson.jSet base "fnol_summary" (.str (String.mk (pyStripL
      ((asStr (jGetD base "fnol_summary" (.str "")) ++ "\n\n"
        ++ asStr (jGetD delta "fnol_summary" .null)).data))))
  else base

/-- The `base_meta` block of `_merge_evidence` (`setdefault` plus the
extend loop over the three note keys). -/
def mergeMetaStep (base delta : PyJson) : PyJson :=
  let b5 := PyJson.jSetDefault base "metadata" (.obj [])
  let deltaMeta := orJ (.obj []) (jGetD delta "metadata" .null)
  let md := ["processing_notes", "plugin_errors", "image_timestamps"].foldl
    (fun m k =>
      let m1 := PyJson.jSetDefault m k (.arr [])
      PyJson.jSet m1 k (.arr (jItems (jGetD m1 k (.arr []))
        ++ jItems (orJ (.arr []) (jGetD deltaMeta k (.arr []))))))
    (jGetD b5 "metadata" (.obj []))
  PyJson.jSet b5 "metadata" md

/-- `_merge_evidence(base, delta)` (source lines 353-403). -/
def mergeEvidence (base delta0 : PyJson) : PyJson :=
  if !pyTruthy base then orJ (.obj []) delta0
  else
    let delta := orJ (.obj []) delta0
    let b0 := copyJ base
    let names := (jItems (jGetD b0 "evidence" (.arr []))).map
      (fun e => jGetD e "image_name" .null)
    let b1 := mergeEvLoop b0 names
      (jItems (orJ (.arr []) (jGetD delta "evidence" (.arr []))))
    mergeMetaStep (mergeFnolStep (mergeExpenseStep b1 delta) delta) delta

/-- The environment of a collaboration run: agent invocations (indexed by
how many calls of that kind have happened, `Except` carrying a raised
exception's text) and the prompt-building, formatting and
conversation-extraction helpers, abstracted as opaque functions of the
turn-content list since their outputs never influence the control flow
under test. -/
structure Orc where
  caseId : PyJson
  curInvoke : Nat → Except String PyJson
  curClarify : Nat → Except String String
  intInvoke : Nat → Except String PyJson
  intRevise : Nat → Except String PyJson
  revInvoke : Nat → Except String PyJson
  fmtEv : PyJson → String
  fmtDec : PyJson → String
  fmtRev : PyJson → String
  packBuild : PyJson → Option PyJson → String
  promptBuild : Option PyJson → String
  feedbackBuild : Option PyJson → String
  exEv : List String → PyJson
  exDec : List String → PyJson
  exRev : List String → PyJson
  turnsDisp : List String → PyJson
  convSummary : List String → PyJson
  roundsComp : List String → PyJson
  convExport : List String → PyJson
  claimExport : PyJson

/-- `_compile_decision()` over the current conversation. -/
def compileDecision (o : Orc) (texts : List String) : PyJson :=
  compileFromData o.caseId (o.exEv texts) (o.exDec texts) (o.exRev texts)
    (o.turnsDisp texts) (o.convSummary texts) (o.roundsComp texts)

/-- `_build_resume_state`. -/
def buildResumeState (o : Orc) (texts : List String)
    (evidence decision review : PyJson) : PyJson :=
  .obj [("case_id", o.caseId), ("conversation", o.convExport texts),
    ("evidence_result", evidence), ("decision_result", decision),
    ("review_result", review), ("claim", o.claimExport)]

/-- `str(obj.get("status", "")).lower()` as the run loop computes the
blocking count (values `str()` renders to something other than a string's
own text can never equal `"blocking"`). -/
def statusLowerRun (o : PyJson) : String :=
  pyLower (asStr (jGetD o "status" (.str "")))

/-- Mutable loop state of `run_collaboration`. -/
structure RunSt where
  sel : SelState
  term : TermState
  evidenceResult : Option PyJson
  decisionResult : Option PyJson
  reviewResult : Option PyJson
  texts : List String
  curInv : Nat
  curCla : Nat
  intInv : Nat
  intRev : Nat
  revInv : Nat

/-- `x or {}` on an optional dict-valued variable. -/
def orEmpty (x : Option PyJson) : PyJson :=
  match x with
  | some v => orJ (.obj []) v
  | none => .obj []

/-- One iteration of the `while True` body of `run_collaboration` (source
lines 101-181): `.error` is an exception leaving the loop, `.ok (.inl s)`
continues, `.ok (.inr d)` returns the decision `d` (for the pause return
inside the reviewer branch, or via `break` followed by compilation). -/
def runStep (o : Orc) (st : RunSt) : Except String (Sum RunSt PyJson) :=
  let (role, sel') := selNext st.sel
  let round := sel'.roundNumber
  if role == "curator" then
    match
      (if round = 1 then
        match o.curInvoke st.curInv with
        | .error e => .error e
        | .ok ev => .ok (o.fmtEv ev, some ev, st.curInv + 1, st.curCla, st.texts)
      else
        let pack := o.packBuild (orEmpty st.evidenceResult) st.reviewResult
        let texts1 := if pack ≠ "" then st.texts ++ [pack] else st.texts
        match o.curClarify st.curCla with
        | .error e => .error e
        | .ok resp =>
            .ok (resp, st.evidenceResult, st.curInv, st.curCla + 1, texts1) :
      Except String (String × Option PyJson × Nat × Nat × List String))
    with
    | .error e => .error e
    | .ok (resp, ev', ci', cc', texts1) =>
        let texts' := texts1 ++ [resp]
        let (stop, term') := shouldTerminate st.term role texts'
        if stop then .ok (.inr (compileDecision o texts'))
        else .ok (.inl { st with
          sel := sel'
          term := term'
          evidenceResult := ev'
          curInv := ci'
          curCla := cc'
          texts := texts' })
  else if role == "interpreter" then
    match
      (if round = 1 then
        match o.intInvoke st.intInv with
        | .error e => .error e
        | .ok dec => .ok (dec, st.intInv + 1, st.intRev)
      else
        match o.intRevise st.intRev with
        | .error e => .error e
        | .ok dec => .ok (dec, st.intInv, st.intRev + 1) :
      Except String (PyJson × Nat × Nat))
    with
    | .error e => .error e
    | .ok (dec, ii', ir') =>
        let texts' := st.texts ++ [o.fmtDec dec]
        let (stop, term') := shouldTerminate st.term role texts'
        if stop then .ok (.inr (compileDecision o texts'))
        else .ok (.inl { st with
          sel := sel'
          term := term'
          decisionResult := some dec
          intInv := ii'
          intRev := ir'
          texts := texts' })
  else
    match o.revInvoke st.revInv with
    | .error e => .error e
    | .ok rev =>
        let texts' := st.texts ++ [o.fmtRev rev]
        let approved := pyTruthy (jGetD rev "approval" (.bool false))
        let bc := ((jItems (jGetD rev "objections" (.arr []))).filter
          (fun ob => statusLowerRun ob == "blocking")).length
        if round = 1 && 0 < bc && !approved then
          let p := compileDecision o texts'
          let p1 := PyJson.jSetDefault p "metadata" (.obj [])
          let md := jGetD p1 "metadata" (.obj [])
          let md' := PyJson.jSet (PyJson.jSet md "paused_for_user" (.bool true))
            "recommendations" (jGetD rev "recommendations" (.arr []))
          let p2 := PyJson.jSet p1 "metadata" md'
          let p3 := PyJson.jSet p2 "resume_state" (buildResumeState o texts'
            (orEmpty st.evidenceResult) (orEmpty st.decisionResult)
            (orJ (.obj []) rev))
          .ok (.inr p3)
        else if approved || bc = 0 then
          .ok (.inr (compileDecision o texts'))
        else
          let (stop, term') := shouldTerminate st.term role texts'
          if stop then .ok (.inr (compileDecision o texts'))
          else .ok (.inl { st with
            sel := sel'
            term := term'
            reviewResult := some rev
            revInv := st.revInv + 1
            texts := texts' })

/-- The `while True` loop.  The fuel is an artifact of the shallow
embedding; the termination strategy's round cap bounds real runs. -/
def runLoop (o : Orc) : Nat → RunSt → Except String PyJson
  | 0, _ => .error "loop fuel exhausted"
  | fuel + 1, st =>
      match runStep o st with
      | .error e => .error e
      | .ok (.inr d) => .ok d
      | .ok (.inl st') => runLoop o fuel st'

/-- `run_collaboration`'s `try`/`except` wrapper: an exception anywhere in
the loop is converted to `_error_decision`. -/
def runCollab (o : Orc) (fuel : Nat) (st : RunSt) : PyJson :=
  match runLoop o fuel st with
  | .ok d => d
  | .error e => errorDecision o.caseId e

/-- `resume_collaboration` (source lines 405-481): no `try`/`except`
guards the agent invocations, so an exception propagates to the caller
(modelled by the `.error` branches passing through). -/
def resumeCollab (o : Orc) (prevState : PyJson) (hasSupport : Bool)
    (texts0 : List String) : Except String PyJson :=
  let ev := orJ (.obj []) (jGetD prevState "evidence_result" .null)
  let rev := orJ (.obj []) (jGetD prevState "review_result" .null)
  if hasSupport then
    match o.curInvoke 0 with
    | .error e => .error e
    | .ok newEv =>
        let texts1 := texts0 ++ [o.fmtEv newEv]
        let ev' := mergeEvidence ev newEv
        match o.intInvoke 0 with
        | .error e => .error e
        | .ok dec =>
            let texts2 := texts1 ++ [o.fmtDec dec]
            match o.revInvoke 0 with
            | .error e => .error e
            | .ok newRev =>
                let _ := ev'
                .ok (compileDecision o (texts2 ++ [o.fmtRev newRev]))
  else
    let pack := o.packBuild ev (some rev)
    let texts1 := if pack ≠ "" then texts0 ++ [pack] else texts0
    match o.curClarify 0 with
    | .error e => .error e
    | .ok resp =>
        let texts2 := texts1 ++ [resp]
        match o.intRevise 0 with
        | .error e => .error e
        | .ok dec =>
            let texts3 := texts2 ++ [o.fmtDec dec]
            match o.revInvoke 0 with
            | .error e => .error e
            | .ok newRev => .ok (compileDecision o (texts3 ++ [o.fmtRev newRev]))

/-! ### `conversation.py`: export and restore

The ledger is parametric in the timestamp type `τ` with the `isoformat`,
`fromisoformat`, `now` and subtraction operations passed in, since
`datetime` lives outside the embedded fragment. -/

/-- A raw Bedrock message. -/
structure MsgM (τ : Type) where
  role : String
  content : String
  name : Option String
  ts : τ
deriving DecidableEq

/-- An `AgentTurn`. -/
structure TurnM (τ : Type) where
  role : String
  content : String
  ts : τ
  metadata : PyJson
deriving DecidableEq

/-- `ConversationHistory` state. -/
structure ConvHist (τ : Type) where
  caseId : Option String
  turns : List (TurnM τ)
  msgs : List (MsgM τ)
deriving DecidableEq

/-- An exported turn record (timestamp rendered by `isoformat`). -/
structure TurnRec where
  role : String
  content : String
  ts : String
  metadata : PyJson
deriving DecidableEq

/-- An exported message record. -/
structure MsgRec where
  role : String
  content : String
  name : Option String
  ts : String
deriving DecidableEq

/-- `get_conversation_summary()`: note `start_time`/`end_time` hold raw
timestamp objects, not isoformat strings. -/
structure SummaryM (τ : Type) where
  caseId : Option String
  totalTurns : Nat
  curatorTurns : Nat
  interpreterTurns : Nat
  reviewerTurns : Nat
  supervisorTurns : Nat
  startTime : Option τ
  endTime : Option τ
  durationSeconds : Int
deriving DecidableEq

/-- `export_to_dict()` output. -/
structure ExportM (τ : Type) where
  caseId : Option String
  summary : SummaryM τ
  turns : List TurnRec
  messages : List MsgRec
deriving DecidableEq

/-- `get_conversation_summary`; `tdiff` stands for
`(t2 - t1).total_seconds()`. -/
def convSummaryOf {τ : Type} (tdiff : τ → τ → Int) (h : ConvHist τ) : SummaryM τ :=
  ⟨h.caseId, h.turns.length,
    (h.turns.filter (fun t => t.role == "curator")).length,
    (h.turns.filter (fun t => t.role == "interpreter")).length,
    (h.turns.filter (fun t => t.role == "reviewer")).length,
    (h.turns.filter (fun t => t.role == "supervisor")).length,
    (h.turns.head?).map (fun t => t.ts),
    (h.turns.getLast?).map (fun t => t.ts),
    match h.turns.head?, h.turns.getLast? with
    | some t0, some t1 => if 2 ≤ h.turns.length then tdiff t0.ts t1.ts else 0
    | _, _ => 0⟩

/-- `export_to_dict`. -/
def exportToDict {τ : Type} (iso : τ → String) (tdiff : τ → τ → Int)
    (h : ConvHist τ) : ExportM τ :=
  ⟨h.caseId, convSummaryOf tdiff h,
    h.turns.map (fun t => ⟨t.role, t.content, iso t.ts, t.metadata⟩),
    h.msgs.map (fun m => ⟨m.role, m.content, m.name, iso m.ts⟩)⟩

/-- `from_export`: `fromisoformat` on a truthy timestamp string, with
`datetime.now()` (the parameter `tnow`) on a falsy or unparsable one. -/
def fromExport {τ : Type} (parseTs : String → Option τ) (tnow : τ)
    (e : ExportM τ) : ConvHist τ :=
  ⟨e.caseId,
    e.turns.map (fun r =>
      ⟨r.role, r.content,
        (if r.ts ≠ "" then (parseTs r.ts).getD tnow else tnow), r.metadata⟩),
    e.messages.map (fun r =>
      ⟨r.role, r.content, r.name,
        (if r.ts ≠ "" then (parseTs r.ts).getD tnow else tnow)⟩)⟩

/-! ### Round-trip: the parser inverts the serializer -/

theorem digitChar_spec : ∀ k < 10, (Char.ofNat (48 + k)).toNat = 48 + k ∧
    isDig (Char.ofNat (48 + k)) = true ∧ (k ≠ 0 → Char.ofNat (48 + k) ≠ '0') := by decide

theorem natDigs_all_dig (n : Nat) : ∀ c ∈ natDigs n, isDig c = true := by
  induction n using Nat.strongRecOn with
  | _ n ih =>
    rw [natDigs_eq]
    split
    · intro c hc
      rw [List.mem_singleton] at hc
      subst hc
      exact (digitChar_spec n (by omega)).2.1
    · intro c hc
      rcases List.mem_append.mp hc with h | h
      · exact ih (n / 10) (by omega) c h
      · rw [List.mem_singleton] at h
        subst h
        exact (digitChar_spec (n % 10) (Nat.mod_lt _ (by omega))).2.1

theorem natDigs_ne_nil (n : Nat) : natDigs n ≠ [] := by
  rw [natDigs_eq]
  split <;> simp

theorem natDigs_zero : natDigs 0 = ['0'] := by
  rw [natDigs_eq]
  decide

theorem natDigs_head_pos (n : Nat) (hn : 0 < n) :
    ∃ c t, natDigs n = c :: t ∧ isDig c = true ∧ c ≠ '0' := by
  induction n using Nat.strongRecOn with
  | _ n ih =>
    rw [natDigs_eq]
    split
    · refine ⟨_, [], rfl, (digitChar_spec n (by omega)).2.1,
        (digitChar_spec n (by omega)).2.2 (by omega)⟩
    · rename_i h
      obtain ⟨c, t, hct, hd, h0⟩ := ih (n / 10) (by omega) (by omega)
      exact ⟨c, t ++ [Char.ofNat (48 + n % 10)], by rw [hct]; simp, hd, h0⟩

theorem digsVal_append_one (ds : List Char) (c : Char) :
    digsVal (ds ++ [c]) = digsVal ds * 10 + (c.toNat - 48) := by
  simp [digsVal, List.foldl_append]

theorem digsVal_natDigs (n : Nat) : digsVal (natDigs n) = n := by
  induction n using Nat.strongRecOn with
  | _ n ih =>
    rw [natDigs_eq]
    split
    · rename_i h
      simp only [digsVal, List.foldl_cons, List.foldl_nil]
      rw [(digitChar_spec n (by omega)).1]
      omega
    · rename_i h
      rw [digsVal_append_one, ih (n / 10) (by omega),
        (digitChar_spec (n % 10) (Nat.mod_lt _ (by omega))).1]
      omega

/-- The remainder after a serialized number is inert: empty, or headed by a
character that can extend neither the digit run nor a fraction/exponent. -/
def numDelimB : List Char → Bool
  | [] => true
  | c :: _ => !(isDig c || c = '.' || c = 'e' || c = 'E')

theorem spanDigs_stop {cs : List Char} (h : numDelimB cs = true) :
    spanDigs cs = ([], cs) := by
  cases cs with
  | nil => rfl
  | cons c t =>
      simp only [numDelimB, Bool.not_eq_true', Bool.or_eq_false_iff] at h
      simp [spanDigs, h.1.1.1]

theorem spanDigs_run (ds rest : List Char) (hds : ∀ c ∈ ds, isDig c = true)
    (hrest : spanDigs rest = ([], rest)) : spanDigs (ds ++ rest) = (ds, rest) := by
  induction ds with
  | nil => simpa using hrest
  | cons c t ih =>
      have hc : isDig c = true := hds c (by simp)
      have ht := ih (fun x hx => hds x (by simp [hx]))
      simp [spanDigs, hc, ht]

theorem isDig_facts {c : Char} (h : isDig c = true) :
    c ≠ '-' ∧ c ≠ '.' ∧ c ≠ 'e' ∧ c ≠ 'E' ∧ c ≠ '"' ∧ c ≠ '{' ∧ c ≠ '[' ∧
    c ≠ 'n' ∧ c ≠ 't' ∧ c ≠ 'f' ∧ isJWs c = false ∧ c ≠ ']' ∧ c ≠ '}' ∧ c ≠ ',' := by
  simp only [isDig, Bool.and_eq_true, decide_eq_true_eq] at h
  have hne : ∀ x : Char, ¬(48 ≤ x.toNat ∧ x.toNat ≤ 57) → c ≠ x := by
    intro x hx heq
    exact hx (heq ▸ h)
  refine ⟨hne '-' (by decide), hne '.' (by decide), hne 'e' (by decide),
    hne 'E' (by decide), hne '"' (by decide), hne '{' (by decide),
    hne '[' (by decide), hne 'n' (by decide), hne 't' (by decide),
    hne 'f' (by decide), ?_, hne ']' (by decide), hne '}' (by decide),
    hne ',' (by decide)⟩
  simp only [isJWs]
  exact Bool.or_eq_false_iff.mpr ⟨Bool.or_eq_false_iff.mpr ⟨Bool.or_eq_false_iff.mpr
    ⟨decide_eq_false (hne ' ' (by decide)), decide_eq_false (hne '\t' (by decide))⟩,
    decide_eq_false (hne '\n' (by decide))⟩, decide_eq_false (hne '\r' (by decide))⟩

theorem parseIntPart_natDigs (n : Nat) (rest : List Char)
    (hrest : numDelimB rest = true) :
    parseIntPart (natDigs n ++ rest) = some (n, rest) := by
  rcases Nat.eq_zero_or_pos n with rfl | hn
  · rw [natDigs_zero]
    simp [parseIntPart]
  · obtain ⟨c, t, hct, hd, h0⟩ := natDigs_head_pos n hn
    have hall := natDigs_all_dig n
    rw [hct] at hall
    have ht : spanDigs (t ++ rest) = (t, rest) :=
      spanDigs_run t rest (fun x hx => hall x (by simp [hx])) (spanDigs_stop hrest)
    have hv : digsVal (c :: t) = n := by rw [← hct, digsVal_natDigs]
    rw [hct]
    simp only [List.cons_append, parseIntPart, if_neg h0, hd, if_true, ht, hv]

theorem numDelimB_notFloat {rest : List Char} (hr : numDelimB rest = true) :
    isFloatCont rest = false := by
  cases rest with
  | nil => rfl
  | cons c t =>
      simp only [numDelimB, Bool.not_eq_true', Bool.or_eq_false_iff,
        decide_eq_false_iff_not] at hr
      obtain ⟨⟨⟨-, hdot⟩, he⟩, hE⟩ := hr
      rw [isFloatCont.eq_def]
      split
      · rename_i heq
        exact absurd (List.cons.inj heq).1 hdot
      · rename_i heq
        exact absurd (List.cons.inj heq).1 he
      · rename_i heq
        exact absurd (List.cons.inj heq).1 hE
      · rfl

theorem parseNumPos_natDigs (n : Nat) (rest : List Char)
    (hr : numDelimB rest = true) :
    parseNumPos (natDigs n ++ rest) = some (n, rest) := by
  rw [parseNumPos, parseIntPart_natDigs n rest hr]
  simp [numDelimB_notFloat hr]

theorem parseNum_intChars (i : Int) (rest : List Char) (hr : numDelimB rest = true) :
    parseNum (intChars i ++ rest) = some (i, rest) := by
  by_cases hneg : i < 0
  · have harg : intChars i ++ rest = '-' :: (natDigs i.natAbs ++ rest) := by
      simp [intChars, hneg]
    rw [harg, parseNum, parseNumPos_natDigs _ _ hr]
    simp only [Option.map_some', Option.some.injEq, Prod.mk.injEq, and_true]
    omega
  · have harg : intChars i ++ rest = natDigs i.natAbs ++ rest := by
      simp [intChars, hneg]
    obtain ⟨c, t, hct, hd⟩ :
        ∃ c t, natDigs i.natAbs = c :: t ∧ isDig c = true := by
      rcases Nat.eq_zero_or_pos i.natAbs with h0 | hp
      · exact ⟨'0', [], by rw [h0, natDigs_zero], by decide⟩
      · obtain ⟨c, t, h1, h2, -⟩ := natDigs_head_pos _ hp
        exact ⟨c, t, h1, h2⟩
    have hmi : c ≠ '-' := (isDig_facts hd).1
    have hpos : parseNumPos (natDigs i.natAbs ++ rest) = some (i.natAbs, rest) :=
      parseNumPos_natDigs _ _ hr
    rw [hct] at hpos
    rw [harg, hct]
    rw [parseNum.eq_def]
    split
    · rename_i r heq
      rw [List.cons_append] at heq
      exact absurd (List.cons.inj heq).1 hmi
    · rw [List.cons_append] at hpos ⊢
      rw [hpos]
      simp only [Option.map_some', Option.some.injEq, Prod.mk.injEq, and_true]
      omega

theorem hexV_hexDig : ∀ k < 16, hexV (hexDig k) = some k := by decide

theorem parseStrBody_escChar (c : Char) (x : List Char) :
    parseStrBody (escChar c ++ x) = (parseStrBody x).map (fun p => (c :: p.1, p.2)) := by
  rw [escChar]
  by_cases h1 : c = '"'
  · subst h1
    simp [parseStrBody_bs, escHead, decodeEsc]
  rw [if_neg h1]
  by_cases h2 : c = '\\'
  · subst h2
    simp [parseStrBody_bs, escHead, decodeEsc]
  rw [if_neg h2]
  by_cases h3 : c = '\n'
  · subst h3
    simp [parseStrBody_bs, escHead, decodeEsc]
  rw [if_neg h3]
  by_cases h4 : c = '\r'
  · subst h4
    simp [parseStrBody_bs, escHead, decodeEsc]
  rw [if_neg h4]
  by_cases h5 : c = '\t'
  · subst h5
    simp [parseStrBody_bs, escHead, decodeEsc]
  rw [if_neg h5]
  by_cases h6 : c = '\x08'
  · subst h6
    simp [parseStrBody_bs, escHead, decodeEsc]
  rw [if_neg h6]
  by_cases h7 : c = '\x0c'
  · subst h7
    simp [parseStrBody_bs, escHead, decodeEsc]
  rw [if_neg h7]
  by_cases h8 : c.toNat < 0x20
  · rw [if_pos h8]
    have hm : ∀ k : Nat, k % 16 < 16 := fun k => Nat.mod_lt _ (by omega)
    have e1 := hexV_hexDig (c.toNat / 4096 % 16) (hm _)
    have e2 := hexV_hexDig (c.toNat / 256 % 16) (hm _)
    have e3 := hexV_hexDig (c.toNat / 16 % 16) (hm _)
    have e4 := hexV_hexDig (c.toNat % 16) (hm _)
    have hu : ((c.toNat / 4096 % 16 * 16 + c.toNat / 256 % 16) * 16
        + c.toNat / 16 % 16) * 16 + c.toNat % 16 = c.toNat := by omega
    simp only [List.cons_append, List.nil_append, parseStrBody_bs, escHead, reduceIte,
      hex4, e1, e2, e3, e4, Option.bind_eq_bind, Option.some_bind, hu]
    rw [if_neg (by omega), if_neg (by omega), Char.ofNat_toNat]
  · rw [if_neg h8]
    simp only [List.cons_append, List.nil_append]
    rw [parseStrBody_lit x h1 h2 h8]

theorem parseStrBody_escStr (s : List Char) (x : List Char) :
    parseStrBody (escStr s ++ '"' :: x) = some (s, x) := by
  induction s with
  | nil => exact parseStrBody_quote x
  | cons c t ih =>
      rw [escStr, List.flatMap_cons, List.append_assoc]
      rw [show (t.flatMap escChar) = escStr t from rfl]
      rw [parseStrBody_escChar, ih]
      rfl

/-! Whitespace and head-character lemmas for the serializer's output. -/

theorem skipJWs_ws_prefix (l x : List Char) (h : ∀ c ∈ l, isJWs c = true) :
    skipJWs (l ++ x) = skipJWs x := by
  induction l with
  | nil => simp
  | cons c t ih =>
      simp only [List.cons_append, skipJWs, List.dropWhile_cons,
        h c (by simp), if_true]
      exact ih (fun d hd => h d (by simp [hd]))

theorem nlInd_ws (k : Nat) : ∀ c ∈ nlInd k, isJWs c = true := by
  intro c hc
  rw [nlInd] at hc
  rcases List.mem_cons.mp hc with h | h
  · subst h; decide
  · rw [List.eq_of_mem_replicate h]; decide

theorem skipJWs_nlInd (k : Nat) (x : List Char) :
    skipJWs (nlInd k ++ x) = skipJWs x :=
  skipJWs_ws_prefix _ _ (nlInd_ws k)

theorem skipJWs_cons_notWs {c : Char} {x : List Char} (h : isJWs c = false) :
    skipJWs (c :: x) = c :: x := by
  simp [skipJWs, List.dropWhile_cons, h]

/-- The serializer's output starts with a character that is not whitespace,
not a closer, and not a separator. -/
theorem dumpJ_head (ind : Nat) (j : PyJson) :
    ∃ c t, dumpJ ind j = c :: t ∧ isJWs c = false ∧ c ≠ ']' ∧ c ≠ '}' ∧ c ≠ ',' := by
  cases j with
  | null => exact ⟨'n', _, rfl, by decide, by decide, by decide, by decide⟩
  | bool b =>
      cases b with
      | true => exact ⟨'t', _, rfl, by decide, by decide, by decide, by decide⟩
      | false => exact ⟨'f', _, rfl, by decide, by decide, by decide, by decide⟩
  | str s => exact ⟨'"', _, rfl, by decide, by decide, by decide, by decide⟩
  | arr items =>
      cases items with
      | nil => exact ⟨'[', _, rfl, by decide, by decide, by decide, by decide⟩
      | cons x xs => exact ⟨'[', _, rfl, by decide, by decide, by decide, by decide⟩
  | obj members =>
      cases members with
      | nil => exact ⟨'{', _, rfl, by decide, by decide, by decide, by decide⟩
      | cons kv kvs => exact ⟨'{', _, rfl, by decide, by decide, by decide, by decide⟩
  | num n =>
      by_cases hn : n < 0
      · refine ⟨'-', natDigs n.natAbs, ?_, by decide, by decide, by decide, by decide⟩
        simp [dumpJ, intChars, hn]
      · obtain ⟨c, t, hct, hd⟩ :
            ∃ c t, natDigs n.natAbs = c :: t ∧ isDig c = true := by
          rcases Nat.eq_zero_or_pos n.natAbs with h0 | hp
          · exact ⟨'0', [], by rw [h0, natDigs_zero], by decide⟩
          · obtain ⟨c, t, ha, hb, -⟩ := natDigs_head_pos _ hp
            exact ⟨c, t, ha, hb⟩
        obtain ⟨-, -, -, -, -, -, -, -, -, -, hws, hbr, hbc, hcm⟩ := isDig_facts hd
        refine ⟨c, t, ?_, hws, hbr, hbc, hcm⟩
        simp [dumpJ, intChars, hn, hct]

/-- The head of serialized output is not a digit-run extender either
(needed when serialized output follows a number). -/
theorem numDelimB_structural (c : Char) (x : List Char)
    (h : c = ',' ∨ c = '\n' ∨ c = ']' ∨ c = '}' ∨ c = ':') :
    numDelimB (c :: x) = true := by
  rcases h with rfl | rfl | rfl | rfl | rfl <;> rfl

/-- `dict(pairs)` is the identity on duplicate-free member lists. -/
theorem dictify_self (l : List (String × PyJson)) (h : (l.map Prod.fst).Nodup) :
    dictify l = l := by
  have key : ∀ (acc t : List (String × PyJson)),
      ((acc ++ t).map Prod.fst).Nodup →
      t.foldl (fun a kv => objUpsert a kv.1 kv.2) acc = acc ++ t := by
    intro acc t
    induction t generalizing acc with
    | nil => intro _; simp
    | cons kv t2 ih =>
        intro hnd
        have hk : kv.1 ∉ acc.map Prod.fst := by
          intro hmem
          have : (acc.map Prod.fst ++ kv.1 :: t2.map Prod.fst).Nodup := by
            simpa using hnd
          rcases List.nodup_append.mp this with ⟨-, -, hdisj⟩
          exact hdisj hmem (by simp)
        have hup : objUpsert acc kv.1 kv.2 = acc ++ [kv] := by
          rw [objUpsert, if_neg]
          simp only [List.any_eq_true, beq_iff_eq, not_exists]
          rintro y ⟨hy, heq⟩
          exact absurd (heq ▸ (List.mem_map_of_mem Prod.fst hy)) hk
        simp only [List.foldl_cons, hup]
        rw [ih (acc ++ [kv]) (by simpa using hnd)]
        simp
  have := key [] l (by simpa using h)
  simpa [dictify] using this

theorem wfL_mem {items : List PyJson} (h : PyJson.wfL items = true) :
    ∀ j ∈ items, PyJson.wf j = true := by
  induction items with
  | nil => simp
  | cons x xs ih =>
      rw [PyJson.wfL, Bool.and_eq_true] at h
      intro j hj
      rcases List.mem_cons.mp hj with rfl | hj
      · exact h.1
      · exact ih h.2 j hj

theorem wfM_mem {ms : List (String × PyJson)} (h : PyJson.wfM ms = true) :
    ∀ kv ∈ ms, PyJson.wf kv.2 = true := by
  induction ms with
  | nil => simp
  | cons x xs ih =>
      rw [PyJson.wfM, Bool.and_eq_true] at h
      intro kv hkv
      rcases List.mem_cons.mp hkv with rfl | hkv
      · exact h.1
      · exact ih h.2 kv hkv

theorem strMk_data (s : String) : String.mk s.data = s := rfl

theorem parseMembs_step (f : Nat) (c : Char) (r : List Char) :
    parseMembs (f + 1) (c :: r) =
      (if c = '"' then
        (parseStrBody r).bind (fun kp =>
          if (skipJWs kp.2).headD ' ' = ':' then
            (parseVal f (skipJWs (skipJWs kp.2).tail)).bind (fun vp =>
              if (skipJWs vp.2).headD ' ' = ',' then
                (parseMembs f (skipJWs (skipJWs vp.2).tail)).map
                  (fun p => ((String.mk kp.1, vp.1) :: p.1, p.2))
              else if (skipJWs vp.2).headD ' ' = '}' then
                some ([(String.mk kp.1, vp.1)], (skipJWs vp.2).tail)
              else none)
          else none)
      else none) := rfl

theorem parseElems_step (f : Nat) (cs : List Char) :
    parseElems (f + 1) cs =
      (parseVal f cs).bind (fun vp =>
        if (skipJWs vp.2).headD ' ' = ',' then
          (parseElems f (skipJWs (skipJWs vp.2).tail)).map (fun p => (vp.1 :: p.1, p.2))
        else if (skipJWs vp.2).headD ' ' = ']' then some ([vp.1], (skipJWs vp.2).tail)
        else none) := rfl

theorem parseVal_step (f : Nat) (c : Char) (r : List Char) :
    parseVal (f + 1) (c :: r) =
      (if c = '"' then (parseStrBody r).map (fun p => (PyJson.str (String.mk p.1), p.2))
       else if c = '{' then
         (if (skipJWs r).headD ' ' = '}' then some (PyJson.obj [], (skipJWs r).tail)
          else (parseMembs f (skipJWs r)).map (fun p => (PyJson.obj (dictify p.1), p.2)))
       else if c = '[' then
         (if (skipJWs r).headD ' ' = ']' then some (PyJson.arr [], (skipJWs r).tail)
          else (parseElems f (skipJWs r)).map (fun p => (PyJson.arr p.1, p.2)))
       else if c = 'n' then litNull r
       else if c = 't' then litTrue r
       else if c = 'f' then litFalse r
       else (parseNum (c :: r)).map (fun p => (PyJson.num p.1, p.2))) := rfl

theorem parseVal_default (f : Nat) (c : Char) (t : List Char)
    (hq : c ≠ '"') (hob : c ≠ '{') (har : c ≠ '[') (hn : c ≠ 'n')
    (ht : c ≠ 't') (hf : c ≠ 'f') :
    parseVal (f + 1) (c :: t) = (parseNum (c :: t)).map (fun p => (PyJson.num p.1, p.2)) := by
  rw [parseVal_step]
  simp only [if_neg hq, if_neg hob, if_neg har, if_neg hn, if_neg ht, if_neg hf]

/-- Total printed lengths, for fuel bookkeeping. -/
theorem strLit_len (s : String) : 2 ≤ (strLit s).length := by
  simp only [strLit, List.length_cons, List.length_append]
  omega

mutual
/-- Structural weight used as the termination measure of the round-trip
proof below. -/
def jweight : PyJson → Nat
  | .null | .bool _ | .num _ | .str _ => 1
  | .arr items => 1 + lweight items
  | .obj ms => 1 + mweight ms

def lweight : List PyJson → Nat
  | [] => 1
  | x :: xs => 1 + jweight x + lweight xs

def mweight : List (String × PyJson) → Nat
  | [] => 1
  | kv :: kvs => 1 + jweight kv.2 + mweight kvs
end

mutual
/-- The decoder inverts the encoder on every well-formed value: parsing a
serialized value consumes exactly its characters. -/
theorem rtVal : ∀ (j : PyJson) (ind fuel : Nat) (rest : List Char),
    PyJson.wf j = true → (dumpJ ind j).length < fuel → numDelimB rest = true →
    parseVal fuel (dumpJ ind j ++ rest) = some (j, rest)
  | .null, ind, fuel, rest, _, hfl, _ => by
      cases fuel with
      | zero => simp [dumpJ] at hfl
      | succ f =>
          rw [show dumpJ ind PyJson.null ++ rest = 'n' :: 'u' :: 'l' :: 'l' :: rest from rfl]
          rw [parseVal_step]
          simp [litNull]
  | .bool true, ind, fuel, rest, _, hfl, _ => by
      cases fuel with
      | zero => simp [dumpJ] at hfl
      | succ f =>
          rw [show dumpJ ind (PyJson.bool true) ++ rest
            = 't' :: 'r' :: 'u' :: 'e' :: rest from rfl]
          rw [parseVal_step]
          simp [litTrue]
  | .bool false, ind, fuel, rest, _, hfl, _ => by
      cases fuel with
      | zero => simp [dumpJ] at hfl
      | succ f =>
          rw [show dumpJ ind (PyJson.bool false) ++ rest
            = 'f' :: 'a' :: 'l' :: 's' :: 'e' :: rest from rfl]
          rw [parseVal_step]
          simp [litFalse]
  | .str s, ind, fuel, rest, _, hfl, _ => by
      cases fuel with
      | zero => simp [dumpJ, strLit] at hfl
      | succ f =>
          have harg : dumpJ ind (PyJson.str s) ++ rest
              = '"' :: (escStr s.data ++ '"' :: rest) := by
            simp [dumpJ, strLit]
          rw [harg, parseVal_step]
          simp only [reduceIte, parseStrBody_escStr, Option.map_some', strMk_data]
  | .num i, ind, fuel, rest, _, hfl, hrest => by
      cases fuel with
      | zero => exact absurd hfl (by omega)
      | succ f =>
          by_cases hneg : i < 0
          · have harg : dumpJ ind (PyJson.num i) ++ rest
                = '-' :: (natDigs i.natAbs ++ rest) := by
              simp [dumpJ, intChars, hneg]
            rw [harg, parseVal_default f '-' _ (by decide) (by decide) (by decide)
              (by decide) (by decide) (by decide), ← List.cons_append,
              show '-' :: natDigs i.natAbs = intChars i from by simp [intChars, hneg],
              parseNum_intChars i rest hrest]
            rfl
          · obtain ⟨c, t, hct, hd⟩ :
                ∃ c t, natDigs i.natAbs = c :: t ∧ isDig c = true := by
              rcases Nat.eq_zero_or_pos i.natAbs with h0 | hp
              · exact ⟨'0', [], by rw [h0, natDigs_zero], by decide⟩
              · obtain ⟨c, t, ha, hb, -⟩ := natDigs_head_pos _ hp
                exact ⟨c, t, ha, hb⟩
            obtain ⟨-, -, -, -, hq, hob, har, hn, ht, hf, -, -, -, -⟩ := isDig_facts hd
            have harg : dumpJ ind (PyJson.num i) ++ rest = c :: (t ++ rest) := by
              simp [dumpJ, intChars, hneg, hct]
            have harg2 : c :: (t ++ rest) = intChars i ++ rest := by
              rw [← harg]
              simp [dumpJ]
            rw [harg, parseVal_default f c _ hq hob har hn ht hf, harg2,
              parseNum_intChars i rest hrest]
            rfl
  | .arr [], ind, fuel, rest, _, hfl, _ => by
      cases fuel with
      | zero => simp [dumpJ] at hfl
      | succ f =>
          rw [show dumpJ ind (PyJson.arr []) ++ rest = '[' :: ']' :: rest from rfl,
            parseVal_step]
          simp only [reduceIte]
          rw [skipJWs_cons_notWs (by decide : isJWs ']' = false)]
          simp
  | .arr (x :: xs), ind, fuel, rest, hwf, hfl, _ => by
      cases fuel with
      | zero => exact absurd hfl (by omega)
      | succ f =>
          have hwx : PyJson.wf x = true ∧ PyJson.wfL xs = true := by
            rw [PyJson.wf, PyJson.wfL, Bool.and_eq_true] at hwf
            exact hwf
          have harg : dumpJ ind (PyJson.arr (x :: xs)) ++ rest
              = '[' :: (nlInd (ind + 2) ++ (dumpJ (ind + 2) x ++ (dumpItems (ind + 2) xs
                  ++ (nlInd ind ++ ']' :: rest)))) := by
            simp [dumpJ, List.append_assoc]
          have hlen : (dumpJ (ind + 2) x).length + (dumpItems (ind + 2) xs).length + 1
              < f := by
            have hexp : (dumpJ ind (PyJson.arr (x :: xs))).length
                = 1 + (nlInd (ind + 2)).length + ((dumpJ (ind + 2) x).length
                  + ((dumpItems (ind + 2) xs).length + ((nlInd ind).length + 1))) := by
              simp [dumpJ, nlInd]
              omega
            rw [hexp] at hfl
            have h1 : 1 ≤ (nlInd (ind + 2)).length := by simp [nlInd]
            have h2 : 1 ≤ (nlInd ind).length := by simp [nlInd]
            omega
          obtain ⟨c, t, hct, hws, hbr, -, -⟩ := dumpJ_head (ind + 2) x
          have key := rtElems x xs (ind + 2) ind f rest hwx.1 hwx.2 hlen
          rw [harg, parseVal_step]
          simp only [reduceIte]
          rw [skipJWs_nlInd]
          have hsk : skipJWs (dumpJ (ind + 2) x ++ (dumpItems (ind + 2) xs
              ++ (nlInd ind ++ ']' :: rest)))
              = dumpJ (ind + 2) x ++ (dumpItems (ind + 2) xs
              ++ (nlInd ind ++ ']' :: rest)) := by
            rw [hct, List.cons_append, skipJWs_cons_notWs hws]
          rw [hsk, hct, List.cons_append, List.headD_cons, if_neg hbr,
            ← List.cons_append, ← hct, key]
          rfl
  | .obj [], ind, fuel, rest, _, hfl, _ => by
      cases fuel with
      | zero => simp [dumpJ] at hfl
      | succ f =>
          rw [show dumpJ ind (PyJson.obj []) ++ rest = '{' :: '}' :: rest from rfl,
            parseVal_step]
          simp only [reduceIte]
          rw [skipJWs_cons_notWs (by decide : isJWs '}' = false)]
          simp
  | .obj (kv :: kvs), ind, fuel, rest, hwf, hfl, _ => by
      cases fuel with
      | zero => exact absurd hfl (by omega)
      | succ f =>
          have hwx : ((kv :: kvs).map Prod.fst).Nodup ∧ PyJson.wf kv.2 = true
              ∧ PyJson.wfM kvs = true := by
            rw [PyJson.wf, Bool.and_eq_true, PyJson.wfM, Bool.and_eq_true,
              decide_eq_true_eq] at hwf
            exact ⟨hwf.1, hwf.2.1, hwf.2.2⟩
          have harg : dumpJ ind (PyJson.obj (kv :: kvs)) ++ rest
              = '{' :: (nlInd (ind + 2) ++ (strLit kv.1 ++ (':' :: ' ' ::
                  (dumpJ (ind + 2) kv.2 ++ (dumpMembers (ind + 2) kvs
                    ++ (nlInd ind ++ '}' :: rest)))))) := by
            simp [dumpJ, List.append_assoc]
          have hlen : (strLit kv.1).length + 2 + (dumpJ (ind + 2) kv.2).length
              + (dumpMembers (ind + 2) kvs).length + 1 < f := by
            have hexp : (dumpJ ind (PyJson.obj (kv :: kvs))).length
                = 1 + (nlInd (ind + 2)).length + ((strLit kv.1).length
                  + (2 + ((dumpJ (ind + 2) kv.2).length
                    + ((dumpMembers (ind + 2) kvs).length
                      + ((nlInd ind).length + 1))))) := by
              simp [dumpJ, nlInd, strLit]
              omega
            rw [hexp] at hfl
            have h1 : 1 ≤ (nlInd (ind + 2)).length := by simp [nlInd]
            have h2 : 1 ≤ (nlInd ind).length := by simp [nlInd]
            omega
          have key := rtMembs kv kvs (ind + 2) ind f rest hwx.2.1 hwx.2.2 hlen
          rw [harg, parseVal_step]
          simp only [reduceIte]
          rw [skipJWs_nlInd]
          have hsk : skipJWs (strLit kv.1 ++ (':' :: ' ' ::
              (dumpJ (ind + 2) kv.2 ++ (dumpMembers (ind + 2) kvs
                ++ (nlInd ind ++ '}' :: rest)))))
              = strLit kv.1 ++ (':' :: ' ' ::
              (dumpJ (ind + 2) kv.2 ++ (dumpMembers (ind + 2) kvs
                ++ (nlInd ind ++ '}' :: rest)))) := by
            rw [strLit, List.cons_append,
              skipJWs_cons_notWs (by decide : isJWs '"' = false)]
          have hhd : (strLit kv.1 ++ (':' :: ' ' ::
              (dumpJ (ind + 2) kv.2 ++ (dumpMembers (ind + 2) kvs
                ++ (nlInd ind ++ '}' :: rest))))).headD ' ' = '"' := by
            rw [strLit, List.cons_append, List.headD_cons]
          rw [hsk, hhd, if_neg (by decide : ¬('"' : Char) = '}'), key]
          rw [if_neg (by decide : ¬('{' : Char) = '"')]
          simp only [Option.map_some', Option.some.injEq, Prod.mk.injEq, and_true]
          rw [dictify_self _ hwx.1]
  termination_by j _ _ _ => jweight j
  decreasing_by
    all_goals simp_wf
    all_goals simp [jweight, lweight, mweight]
    all_goals omega

theorem rtMembs : ∀ (kv : String × PyJson) (kvs : List (String × PyJson))
    (ind cl fuel : Nat) (rest : List Char),
    PyJson.wf kv.2 = true → PyJson.wfM kvs = true →
    (strLit kv.1).length + 2 + (dumpJ ind kv.2).length
      + (dumpMembers ind kvs).length + 1 < fuel →
    parseMembs fuel (strLit kv.1 ++ (':' :: ' ' :: (dumpJ ind kv.2
        ++ (dumpMembers ind kvs ++ (nlInd cl ++ '}' :: rest)))))
      = some (kv :: kvs, rest)
  | kv, [], ind, cl, fuel, rest, hwv, hwm, hfl => by
      cases fuel with
      | zero => exact absurd hfl (by omega)
      | succ f =>
          have harg : strLit kv.1 ++ (':' :: ' ' :: (dumpJ ind kv.2
                ++ (dumpMembers ind ([] : List (String × PyJson))
                  ++ (nlInd cl ++ '}' :: rest))))
              = '"' :: (escStr kv.1.data ++ '"' :: (':' :: ' ' :: (dumpJ ind kv.2
                ++ (nlInd cl ++ '}' :: rest)))) := by
            simp [strLit, dumpMembers, List.append_assoc]
          rw [harg, parseMembs_step]
          simp only [reduceIte, parseStrBody_escStr, Option.some_bind]
          rw [skipJWs_cons_notWs (by decide : isJWs ':' = false), List.headD_cons,
            if_pos rfl, List.tail_cons]
          obtain ⟨c, t, hct, hws, -, -, -⟩ := dumpJ_head ind kv.2
          have hsk1 : skipJWs (' ' :: (dumpJ ind kv.2 ++ (nlInd cl ++ '}' :: rest)))
              = dumpJ ind kv.2 ++ (nlInd cl ++ '}' :: rest) := by
            rw [show (' ' :: (dumpJ ind kv.2 ++ (nlInd cl ++ '}' :: rest)))
              = [' '] ++ (dumpJ ind kv.2 ++ (nlInd cl ++ '}' :: rest)) from rfl]
            rw [ skipJWs_ws_prefix _ _ (by
              intro c' hc'
              simp at hc'
              subst hc'
              decide)]
            rw [hct, List.cons_append, skipJWs_cons_notWs hws]
          rw [hsk1]
          have hnd : numDelimB (nlInd cl ++ '}' :: rest) = true := by
            rw [nlInd, List.cons_append]
            rfl
          have hv := rtVal kv.2 ind f (nlInd cl ++ '}' :: rest) hwv
            (by simp [dumpMembers] at hfl; omega) hnd
          rw [hv]
          simp only [Option.some_bind]
          rw [skipJWs_nlInd, skipJWs_cons_notWs (by decide : isJWs '}' = false),
            List.headD_cons]
          rw [if_neg (by decide : ¬('}' : Char) = ','), if_pos rfl, List.tail_cons,
            strMk_data]
  | kv, kv2 :: kvs2, ind, cl, fuel, rest, hwv, hwm, hfl => by
      cases fuel with
      | zero => exact absurd hfl (by omega)
      | succ f =>
          have hwx : PyJson.wf kv2.2 = true ∧ PyJson.wfM kvs2 = true := by
            rw [PyJson.wfM, Bool.and_eq_true] at hwm
            exact hwm
          have harg : strLit kv.1 ++ (':' :: ' ' :: (dumpJ ind kv.2
                ++ (dumpMembers ind (kv2 :: kvs2) ++ (nlInd cl ++ '}' :: rest))))
              = '"' :: (escStr kv.1.data ++ '"' :: (':' :: ' ' :: (dumpJ ind kv.2
                ++ (dumpMembers ind (kv2 :: kvs2) ++ (nlInd cl ++ '}' :: rest))))) := by
            simp [strLit, List.append_assoc]
          rw [harg, parseMembs_step]
          simp only [reduceIte, parseStrBody_escStr, Option.some_bind]
          rw [skipJWs_cons_notWs (by decide : isJWs ':' = false), List.headD_cons,
            if_pos rfl, List.tail_cons]
          obtain ⟨c, t, hct, hws, -, -, -⟩ := dumpJ_head ind kv.2
          have hsk1 : skipJWs (' ' :: (dumpJ ind kv.2
              ++ (dumpMembers ind (kv2 :: kvs2) ++ (nlInd cl ++ '}' :: rest))))
              = dumpJ ind kv.2 ++ (dumpMembers ind (kv2 :: kvs2)
                ++ (nlInd cl ++ '}' :: rest)) := by
            rw [show (' ' :: (dumpJ ind kv.2 ++ (dumpMembers ind (kv2 :: kvs2)
                ++ (nlInd cl ++ '}' :: rest))))
              = [' '] ++ (dumpJ ind kv.2 ++ (dumpMembers ind (kv2 :: kvs2)
                ++ (nlInd cl ++ '}' :: rest))) from rfl]
            rw [ skipJWs_ws_prefix _ _ (by
              intro c' hc'
              simp at hc'
              subst hc'
              decide)]
            rw [hct, List.cons_append, skipJWs_cons_notWs hws]
          rw [hsk1]
          have hnd : numDelimB (dumpMembers ind (kv2 :: kvs2)
              ++ (nlInd cl ++ '}' :: rest)) = true := by
            rw [show dumpMembers ind (kv2 :: kvs2)
              = ',' :: (nlInd ind ++ strLit kv2.1 ++ ':' :: ' ' :: dumpJ ind kv2.2
                ++ dumpMembers ind kvs2) from rfl]
            rfl
          have hv := rtVal kv.2 ind f (dumpMembers ind (kv2 :: kvs2)
            ++ (nlInd cl ++ '}' :: rest)) hwv (by omega) hnd
          rw [hv]
          simp only [Option.some_bind]
          have hmemb : dumpMembers ind (kv2 :: kvs2) ++ (nlInd cl ++ '}' :: rest)
              = ',' :: (nlInd ind ++ (strLit kv2.1 ++ (':' :: ' ' ::
                  (dumpJ ind kv2.2 ++ (dumpMembers ind kvs2
                    ++ (nlInd cl ++ '}' :: rest)))))) := by
            rw [show dumpMembers ind (kv2 :: kvs2)
              = ',' :: (nlInd ind ++ strLit kv2.1 ++ ':' :: ' ' :: dumpJ ind kv2.2
                ++ dumpMembers ind kvs2) from rfl]
            simp [List.append_assoc]
          rw [hmemb, skipJWs_cons_notWs (by decide : isJWs ',' = false),
            List.headD_cons, if_pos rfl, List.tail_cons, skipJWs_nlInd]
          have hsk2 : skipJWs (strLit kv2.1 ++ (':' :: ' ' :: (dumpJ ind kv2.2
              ++ (dumpMembers ind kvs2 ++ (nlInd cl ++ '}' :: rest)))))
              = strLit kv2.1 ++ (':' :: ' ' :: (dumpJ ind kv2.2
              ++ (dumpMembers ind kvs2 ++ (nlInd cl ++ '}' :: rest)))) := by
            rw [strLit, List.cons_append,
              skipJWs_cons_notWs (by decide : isJWs '"' = false)]
          rw [hsk2]
          have hlen2 : (strLit kv2.1).length + 2 + (dumpJ ind kv2.2).length
              + (dumpMembers ind kvs2).length + 1 < f := by
            have hexp : (dumpMembers ind (kv2 :: kvs2)).length
                = 1 + (nlInd ind).length + ((strLit kv2.1).length
                  + (2 + ((dumpJ ind kv2.2).length
                    + (dumpMembers ind kvs2).length))) := by
              rw [show dumpMembers ind (kv2 :: kvs2)
                = ',' :: (nlInd ind ++ strLit kv2.1 ++ ':' :: ' ' :: dumpJ ind kv2.2
                  ++ dumpMembers ind kvs2) from rfl]
              simp
              omega
            rw [hexp] at hfl
            omega
          have key := rtMembs kv2 kvs2 ind cl f rest hwx.1 hwx.2 hlen2
          rw [key, strMk_data]
          rfl
  termination_by kv kvs _ _ _ _ => jweight kv.2 + mweight kvs + 1
  decreasing_by
    all_goals simp_wf
    all_goals simp [jweight, lweight, mweight]
    all_goals omega

theorem rtElems : ∀ (e : PyJson) (es : List PyJson) (ind cl fuel : Nat)
    (rest : List Char),
    PyJson.wf e = true → PyJson.wfL es = true →
    (dumpJ ind e).length + (dumpItems ind es).length + 1 < fuel →
    parseElems fuel (dumpJ ind e ++ (dumpItems ind es ++ (nlInd cl ++ ']' :: rest)))
      = some (e :: es, rest)
  | e, [], ind, cl, fuel, rest, hwe, hwl, hfl => by
      cases fuel with
      | zero => exact absurd hfl (by omega)
      | succ f =>
          have hnd : numDelimB (dumpItems ind ([] : List PyJson)
              ++ (nlInd cl ++ ']' :: rest)) = true := by
            rw [show dumpItems ind [] = [] from rfl, List.nil_append, nlInd,
              List.cons_append]
            rfl
          have hv := rtVal e ind f (dumpItems ind ([] : List PyJson)
            ++ (nlInd cl ++ ']' :: rest)) hwe (by omega) hnd
          rw [parseElems_step, hv]
          simp only [Option.some_bind]
          rw [show dumpItems ind ([] : List PyJson) = [] from rfl,
            List.nil_append, skipJWs_nlInd,
            skipJWs_cons_notWs (by decide : isJWs ']' = false), List.headD_cons]
          rw [if_neg (by decide : ¬(']' : Char) = ','), if_pos rfl, List.tail_cons]
  | e, x2 :: xs2, ind, cl, fuel, rest, hwe, hwl, hfl => by
      cases fuel with
      | zero => exact absurd hfl (by omega)
      | succ f =>
          have hwx : PyJson.wf x2 = true ∧ PyJson.wfL xs2 = true := by
            rw [PyJson.wfL, Bool.and_eq_true] at hwl
            exact hwl
          have hnd : numDelimB (dumpItems ind (x2 :: xs2)
              ++ (nlInd cl ++ ']' :: rest)) = true := by
            rw [show dumpItems ind (x2 :: xs2)
              = ',' :: (nlInd ind ++ dumpJ ind x2 ++ dumpItems ind xs2) from rfl]
            rfl
          have hv := rtVal e ind f (dumpItems ind (x2 :: xs2)
            ++ (nlInd cl ++ ']' :: rest)) hwe (by omega) hnd
          rw [parseElems_step, hv]
          simp only [Option.some_bind]
          have hitem : dumpItems ind (x2 :: xs2) ++ (nlInd cl ++ ']' :: rest)
              = ',' :: (nlInd ind ++ (dumpJ ind x2 ++ (dumpItems ind xs2
                  ++ (nlInd cl ++ ']' :: rest)))) := by
            rw [show dumpItems ind (x2 :: xs2)
              = ',' :: (nlInd ind ++ dumpJ ind x2 ++ dumpItems ind xs2) from rfl]
            simp [List.append_assoc]
          rw [hitem, skipJWs_cons_notWs (by decide : isJWs ',' = false),
            List.headD_cons, if_pos rfl, List.tail_cons, skipJWs_nlInd]
          obtain ⟨c, t, hct, hws, -, -, -⟩ := dumpJ_head ind x2
          have hsk : skipJWs (dumpJ ind x2 ++ (dumpItems ind xs2
              ++ (nlInd cl ++ ']' :: rest)))
              = dumpJ ind x2 ++ (dumpItems ind xs2 ++ (nlInd cl ++ ']' :: rest)) := by
            rw [hct, List.cons_append, skipJWs_cons_notWs hws]
          rw [hsk]
          have hlen2 : (dumpJ ind x2).length + (dumpItems ind xs2).length + 1
              < f := by
            have hexp : (dumpItems ind (x2 :: xs2)).length
                = 1 + (nlInd ind).length + ((dumpJ ind x2).length
                  + (dumpItems ind xs2).length) := by
              rw [show dumpItems ind (x2 :: xs2)
                = ',' :: (nlInd ind ++ dumpJ ind x2 ++ dumpItems ind xs2) from rfl]
              simp
              omega
            rw [hexp] at hfl
            omega
          have key := rtElems x2 xs2 ind cl f rest hwx.1 hwx.2 hlen2
          rw [key]
          rfl
  termination_by e es _ _ _ _ => jweight e + lweight es + 1
  decreasing_by
    all_goals simp_wf
    all_goals simp [jweight, lweight, mweight]
    all_goals omega
end

/-- Top-level round trip: `json.loads (json.dumps j) = j` for well-formed `j`
(at any indent level of the serializer). -/
theorem loads_dumps (ind : Nat) (j : PyJson) (hw : PyJson.wf j = true) :
    jsonLoadsL (dumpJ ind j) = some j := by
  obtain ⟨c, t, hct, hws, -, -, -⟩ := dumpJ_head ind j
  have hsk : skipJWs (dumpJ ind j) = dumpJ ind j := by
    rw [hct, skipJWs_cons_notWs hws]
  have hv := rtVal j ind ((dumpJ ind j).length + 1) [] hw (by omega) rfl
  rw [List.append_nil] at hv
  rw [jsonLoadsL, hsk, hv]
  rfl

/-- Top-level round trip for the string versions. -/
theorem jsonLoads_jsonDumps (j : PyJson) (hw : PyJson.wf j = true) :
    jsonLoadsL (jsonDumpsL j) = some j :=
  loads_dumps 0 j hw

/-! ### Helper lemmas for the claims -/

theorem pyReplaceF_noop : ∀ (f : Nat) (cs : List Char) (c : Char),
    cs.length ≤ f → pyReplaceF f cs [c] [c] = cs := by
  intro f
  induction f with
  | zero =>
      intro cs c h
      have : cs = [] := List.eq_nil_of_length_eq_zero (Nat.le_zero.mp h)
      subst this
      rfl
  | succ f ih =>
      intro cs c h
      cases cs with
      | nil => rfl
      | cons x t =>
          simp only [List.length_cons] at h
          show (if _ then _ else _) = _
          by_cases hp : [c].isPrefixOf (x :: t)
          · have hx : x = c := by
              simp [List.isPrefixOf] at hp
              exact hp.symm
            subst hx
            rw [if_pos ⟨by simp, hp⟩]
            show [x] ++ pyReplaceF f ((x :: t).drop 1) [x] [x] = x :: t
            rw [List.drop_one, List.tail_cons, ih t x (by omega)]
            rfl
          · rw [if_neg (by
              rintro ⟨-, hpre⟩
              exact hp hpre)]
            rw [ih t c (by omega)]

/-- The two quote "fixes" in `_clean_json_text` replace a character by
itself and change nothing. -/
theorem pyReplace_noop (cs : List Char) (c : Char) : pyReplace cs [c] [c] = cs :=
  pyReplaceF_noop cs.length cs c (le_refl _)

/-- Closed form of the selection-strategy state after `n` calls. -/
theorem selIter_closed : ∀ n : Nat, selIter selInit n =
    if n = 0 then selInit
    else if n ≤ 3 then ⟨n, 1, n⟩
    else ⟨n, (n + 2) / 3, (n - 4) % 3 + 1⟩ := by
  intro n
  induction n with
  | zero => rfl
  | succ n ih =>
      show (selNext (selIter selInit n)).2 = _
      rw [ih]
      rcases Nat.lt_or_ge n 4 with h4 | h4
      · interval_cases n <;> rfl
      · have hn0 : ¬(n = 0) := by omega
        have hn3 : ¬(n ≤ 3) := by omega
        have h0 : ¬(n + 1 = 0) := by omega
        have h3 : ¬(n + 1 ≤ 3) := by omega
        rw [if_neg hn0, if_neg hn3, if_neg h0, if_neg h3]
        have hr : ¬((n + 2) / 3 = 1) := by omega
        rcases (show (n - 4) % 3 = 0 ∨ (n - 4) % 3 = 1 ∨ (n - 4) % 3 = 2 by omega)
          with h | h | h
        · rw [h]
          have hsn : selNext ⟨n, (n + 2) / 3, 0 + 1⟩
              = ("interpreter", ⟨n + 1, (n + 2) / 3, 2⟩) := by
            show (if (n + 2) / 3 = 1 then _ else _) = _
            rw [if_neg hr]
            rfl
          rw [hsn]
          simp only [SelState.mk.injEq]
          refine ⟨by trivial, by omega, by omega⟩
        · rw [h]
          have hsn : selNext ⟨n, (n + 2) / 3, 1 + 1⟩
              = ("reviewer", ⟨n + 1, (n + 2) / 3, 3⟩) := by
            show (if (n + 2) / 3 = 1 then _ else _) = _
            rw [if_neg hr]
            rfl
          rw [hsn]
          simp only [SelState.mk.injEq]
          refine ⟨by trivial, by omega, by omega⟩
        · rw [h]
          have hsn : selNext ⟨n, (n + 2) / 3, 2 + 1⟩
              = ("curator", ⟨n + 1, (n + 2) / 3 + 1, 1⟩) := by
            show (if (n + 2) / 3 = 1 then _ else _) = _
            rw [if_neg hr]
            rfl
          rw [hsn]
          simp only [SelState.mk.injEq]
          refine ⟨by trivial, by omega, by omega⟩

/-! ### C10 -/

/-- C10: `extract_json_from_response` returns `None` for an empty or
whitespace-only input; the model is a total function, matching the
source's catch-all handling (no exception escapes). -/
theorem c10_blank_input (cs : List Char) (h : ∀ c ∈ cs, pyWs c = true) :
    extractJson cs = none := by
  have hs : pyStripL cs = [] := by
    rw [pyStripL]
    rw [List.dropWhile_eq_nil_iff.mpr (fun c hc => h c hc)]
    rfl
  rw [extractJson]
  rw [hs]
  simp

theorem c10_blank_input_witness :
    (∀ c ∈ (" \t\n ".data), pyWs c = true) ∧ extractJson " \t\n ".data = none :=
  ⟨by decide, c10_blank_input " \t\n ".data (by decide)⟩

/-! ### C3 -/

/-- C3 counterexample: from a fresh strategy the fourth emission is
`reviewer` (not `curator`), round 2 runs `[reviewer, interpreter,
reviewer]`, and the round counter increments at a reviewer-to-reviewer
boundary. -/
theorem c3_round2_order_counterexample :
    (List.range 6).map (fun n => selRole selInit (n + 1))
      = ["curator", "interpreter", "reviewer", "reviewer", "interpreter",
         "reviewer"] ∧
    selRole selInit 4 ≠ "curator" ∧
    (selIter selInit 3).roundNumber = 1 ∧ (selIter selInit 4).roundNumber = 2 := by
  refine ⟨rfl, ?_, rfl, rfl⟩
  decide

/-- C3 (amended): the emitted role sequence is `[curator, interpreter,
reviewer]` in round 1, `[reviewer, interpreter, reviewer]` in round 2 and
`[curator, interpreter, reviewer]` from round 3 on; the round counter
after `n` calls is `1` for `n ≤ 3` and `(n + 2) / 3` afterwards. -/
theorem c3_roles_closed_form (n : Nat) (h : 1 ≤ n) :
    selRole selInit n =
      (if n ≤ 3 then ["curator", "interpreter", "reviewer"].getD (n - 1) ""
       else if n = 4 then "reviewer"
       else if n % 3 = 1 then "curator"
       else if n % 3 = 2 then "interpreter"
       else "reviewer") ∧
    (selIter selInit n).roundNumber = (if n ≤ 3 then 1 else (n + 2) / 3) := by
  constructor
  · show (selNext (selIter selInit (n - 1))).1 = _
    rw [selIter_closed]
    rcases Nat.lt_or_ge n 5 with h5 | h5
    · interval_cases n <;> rfl
    · have ha : ¬(n - 1 = 0) := by omega
      have hb : ¬(n - 1 ≤ 3) := by omega
      rw [if_neg ha, if_neg hb]
      have hc : ¬(n ≤ 3) := by omega
      have hd : ¬(n = 4) := by omega
      rw [if_neg hc, if_neg hd]
      have hr : ¬((n - 1 + 2) / 3 = 1) := by omega
      rcases (show (n - 1 - 4) % 3 = 0 ∨ (n - 1 - 4) % 3 = 1 ∨ (n - 1 - 4) % 3 = 2
        by omega) with h | h | h
      · rw [h, show (selNext ⟨n - 1, (n - 1 + 2) / 3, 0 + 1⟩).1 = "interpreter" from by
          show ((if (n - 1 + 2) / 3 = 1 then _ else _ : String × SelState)).1 = _
          rw [if_neg hr]
          rfl]
        have : n % 3 = 2 := by omega
        rw [if_neg (by omega), if_pos this]
      · rw [h, show (selNext ⟨n - 1, (n - 1 + 2) / 3, 1 + 1⟩).1 = "reviewer" from by
          show ((if (n - 1 + 2) / 3 = 1 then _ else _ : String × SelState)).1 = _
          rw [if_neg hr]
          rfl]
        have : n % 3 = 0 := by omega
        rw [if_neg (by omega), if_neg (by omega)]
      · rw [h, show (selNext ⟨n - 1, (n - 1 + 2) / 3, 2 + 1⟩).1 = "curator" from by
          show ((if (n - 1 + 2) / 3 = 1 then _ else _ : String × SelState)).1 = _
          rw [if_neg hr]
          rfl]
        have : n % 3 = 1 := by omega
        rw [if_pos this]
  · rw [selIter_closed, if_neg (by omega : ¬(n = 0))]
    rcases Nat.lt_or_ge n 4 with h4 | h4
    · rw [if_pos (by omega), if_pos (by omega)]
    · rw [if_neg (by omega), if_neg (by omega)]

theorem c3_roles_closed_form_witness :
    1 ≤ 5 ∧
    ((selRole selInit 5 =
      (if 5 ≤ 3 then ["curator", "interpreter", "reviewer"].getD (5 - 1) ""
       else if 5 = 4 then "reviewer"
       else if 5 % 3 = 1 then "curator"
       else if 5 % 3 = 2 then "interpreter"
       else "reviewer")) ∧
    (selIter selInit 5).roundNumber = (if 5 ≤ 3 then 1 else (5 + 2) / 3)) :=
  ⟨by decide, c3_roles_closed_form 5 (by decide)⟩

/-! ### C4 -/

/-- C4 counterexample: with `max_rounds = 3` and phrase-free texts, the
hard cap fires on the third reviewer call, not the fourth. -/
theorem c4_third_call_counterexample :
    termFlags (termInit 3) [["x"], ["x"], ["x"], ["x"]]
      = [false, false, true, true] := by
  decide

/-- C4 (amended): with `max_rounds = 3`, `should_terminate` returns
`false` on the first two reviewer calls when their texts carry no approval
or error phrase, and `true` on the third call regardless of its text. -/
theorem c4_cap_on_third_reviewer_call (t1 t2 t3 : List String)
    (h1a : approvalHit t1 = false) (h1e : errorHit t1 = false)
    (h2a : approvalHit t2 = false) (h2e : errorHit t2 = false) :
    termFlags (termInit 3) [t1, t2, t3] = [false, false, true] := by
  simp [termFlags, shouldTerminate, termInit, h1a, h1e, h2a, h2e]

theorem c4_cap_on_third_reviewer_call_witness :
    approvalHit ["x"] = false ∧ errorHit ["x"] = false ∧
    termFlags (termInit 3) [["x"], ["x"], ["anything at all"]]
      = [false, false, true] :=
  ⟨by decide, by decide,
    c4_cap_on_third_reviewer_call ["x"] ["x"] ["anything at all"]
      (by decide) (by decide) (by decide) (by decide)⟩

/-! ### C6 -/

/-- C6 counterexample: the input deviates from the valid object
`\x7b"a": 1\x7d` only by a trailing comma (stripping it parses, second
conjunct), yet `extract_json_from_response` returns `None`: methods 3-4
parse strictly and apply no cleanup. -/
theorem c6_trailing_comma_counterexample :
    extractJson ("\x7b\"a\": 1,\x7d".data) = none ∧
    jsonLoadsL (subTrailComma ("\x7b\"a\": 1,\x7d".data)) = some (.obj [("a", .num 1)]) := by
  constructor
  · decide
  · decide

/-- C6 (amended): the forgiving cleanup lives in
`SupervisorOrchestrator._clean_json_text`, applied by
`_manual_json_extraction` before its single parse: that path recovers the
trailing-comma input which `extract_json_from_response` rejects; and the
"smart-quote" normalization is inert - the mangled source replaces a plain
quote by itself, which changes nothing on any input. -/
theorem c6_cleanup_in_manual_extraction :
    manualJsonExtraction ("\x7b\"a\": 1,\x7d".data) = some (.obj [("a", .num 1)]) ∧
    extractJson ("\x7b\"a\": 1,\x7d".data) = none ∧
    (∀ cs : List Char, pyReplace cs ['"'] ['"'] = cs) := by
  refine ⟨by decide, by decide, fun cs => pyReplace_noop cs '"'⟩

/-! ### Dictionary lemmas for the merge claim -/

theorem jGet_obj_mem {ms : List (String × PyJson)} {k : String} {v : PyJson}
    (h : jGet (.obj ms) k = some v) : (k, v) ∈ ms := by
  rw [jGet, Option.map_eq_some'] at h
  obtain ⟨p, hp, hv⟩ := h
  have hmem := List.mem_of_find?_eq_some hp
  have hk := List.find?_some hp
  have hpk : p = (k, v) := by
    cases p
    simp only [Prod.mk.injEq]
    exact ⟨by simpa using hk, hv⟩
  exact hpk ▸ hmem

theorem jGet_any {ms : List (String × PyJson)} {k : String} {v : PyJson}
    (h : jGet (.obj ms) k = some v) : ms.any (fun kv => kv.1 == k) = true := by
  rw [jGet, Option.map_eq_some'] at h
  obtain ⟨p, hp, -⟩ := h
  have hk := List.find?_some hp
  exact List.any_eq_true.mpr ⟨p, List.mem_of_find?_eq_some hp, hk⟩

theorem jSet_self : ∀ {ms : List (String × PyJson)} {k : String} {v : PyJson},
    (ms.map Prod.fst).Nodup → jGet (.obj ms) k = some v →
    PyJson.jSet (.obj ms) k v = .obj ms := by
  intro ms
  induction ms with
  | nil => intro k v _ hget; simp [jGet] at hget
  | cons kv t ih =>
      intro k v hnd hget
      rw [List.map_cons, List.nodup_cons] at hnd
      show (if (kv :: t).any (fun p => p.1 == k) then _ else _) = _
      rw [if_pos (jGet_any hget)]
      by_cases hk : kv.1 = k
      · have hkb : (kv.1 == k) = true := by simpa using hk
        have hv : v = kv.2 := by
          rw [jGet, List.find?_cons, hkb] at hget
          simpa using hget.symm
        subst hv
        subst hk
        congr 1
        rw [List.map_cons, if_pos hkb]
        have htail : t.map (fun p => if p.1 == kv.1 then (p.1, kv.2) else p) = t := by
          calc t.map (fun p => if p.1 == kv.1 then (p.1, kv.2) else p)
              = t.map id := List.map_congr_left (by
                intro p hp
                have hpne : p.1 ≠ kv.1 := by
                  intro he
                  exact hnd.1 (List.mem_map.mpr ⟨p, hp, he⟩)
                show (if (p.1 == kv.1) = true then (p.1, kv.2) else p) = id p
                rw [if_neg (by simpa using hpne)]
                rfl)
            _ = t := List.map_id t
        rw [htail]
      · have hkb : (kv.1 == k) = false := by simpa using hk
        have hget2 : jGet (.obj t) k = some v := by
          rw [jGet, List.find?_cons, hkb] at hget
          exact hget
        have ih2 := ih hnd.2 hget2
        rw [show PyJson.jSet (.obj t) k v
            = (if t.any (fun p => p.1 == k) then
                .obj (t.map fun p => if p.1 == k then (p.1, v) else p)
              else .obj (t ++ [(k, v)])) from rfl,
          if_pos (jGet_any hget2)] at ih2
        congr 1
        rw [List.map_cons, if_neg (by simp [hkb])]
        rw [show (t.map fun p => if p.1 == k then (p.1, v) else p) = t from by
          exact PyJson.obj.inj ih2]

theorem jSetDefault_present {j : PyJson} {k : String} {v : PyJson}
    (h : PyJson.jHas j k = true) : PyJson.jSetDefault j k v = j := by
  rw [PyJson.jSetDefault, if_pos h]

theorem wf_obj_parts {ms : List (String × PyJson)} (h : PyJson.wf (.obj ms) = true) :
    (ms.map Prod.fst).Nodup ∧ PyJson.wfM ms = true := by
  rw [PyJson.wf, Bool.and_eq_true] at h
  exact ⟨of_decide_eq_true h.1, h.2⟩

/-- `copyJ` (the serialize-then-parse shallow copy) is the identity on
well-formed values. -/
theorem copyJ_wf {j : PyJson} (h : PyJson.wf j = true) : copyJ j = j := by
  rw [copyJ, show jsonDumpsL j = dumpJ 0 j from rfl, loads_dumps 0 j h]
  rfl

/-! ### C8 -/

/-- C8 counterexample: merging an empty delta into the non-empty base
`\x7b"fnol_summary": "x"\x7d` adds `expense` and a fully keyed `metadata`
(the `setdefault` calls mutate the base), so the base is not returned
unchanged. -/
theorem c8_setdefault_counterexample :
    mergeEvidence (.obj [("fnol_summary", .str "x")]) (.obj [])
      = .obj [("fnol_summary", .str "x"), ("expense", .obj []),
          ("metadata", .obj [("processing_notes", .arr []),
            ("plugin_errors", .arr []), ("image_timestamps", .arr [])])] ∧
    mergeEvidence (.obj [("fnol_summary", .str "x")]) (.obj [])
      ≠ .obj [("fnol_summary", .str "x")] := by
  constructor
  · decide
  · decide

/-- C8 (amended): merging an empty delta returns the base unchanged
provided the base already carries an `expense` key and a `metadata` dict
that has all three of `processing_notes`, `plugin_errors`,
`image_timestamps` bound to lists (otherwise the `setdefault` calls extend
it). -/
theorem c8_merge_empty_delta (ms mdm : List (String × PyJson))
    (hw : PyJson.wf (.obj ms) = true)
    (hne : ms ≠ [])
    (hexp : PyJson.jHas (.obj ms) "expense" = true)
    (hmd : jGet (.obj ms) "metadata" = some (.obj mdm))
    (hk1 : ∃ l, jGet (.obj mdm) "processing_notes" = some (.arr l))
    (hk2 : ∃ l, jGet (.obj mdm) "plugin_errors" = some (.arr l))
    (hk3 : ∃ l, jGet (.obj mdm) "image_timestamps" = some (.arr l)) :
    mergeEvidence (.obj ms) (.obj []) = .obj ms := by
  obtain ⟨l1, hl1⟩ := hk1
  obtain ⟨l2, hl2⟩ := hk2
  obtain ⟨l3, hl3⟩ := hk3
  have hmdwf : PyJson.wf (.obj mdm) = true :=
    wfM_mem (wf_obj_parts hw).2 _ (jGet_obj_mem hmd)
  have hT : pyTruthy (.obj ms) = true := by
    rw [pyTruthy]
    simpa using hne
  have hndm : (mdm.map Prod.fst).Nodup := (wf_obj_parts hmdwf).1
  have hnd : (ms.map Prod.fst).Nodup := (wf_obj_parts hw).1
  have hmdhas : PyJson.jHas (.obj ms) "metadata" = true := by
    rw [PyJson.jHas, hmd]
    rfl
  have e1 : mergeExpenseStep (.obj ms) (.obj []) = .obj ms := by
    show PyJson.jSetDefault (.obj ms) "expense" (.obj []) = .obj ms
    exact jSetDefault_present hexp
  have hstepK : ∀ (k : String) (l : List PyJson),
      jGet (.obj mdm) k = some (.arr l) →
      PyJson.jSet (PyJson.jSetDefault (.obj mdm) k (.arr [])) k
        (.arr (jItems (jGetD (PyJson.jSetDefault (.obj mdm) k (.arr [])) k (.arr []))
          ++ jItems (orJ (.arr []) (jGetD (orJ (.obj [])
            (jGetD (.obj ([] : List (String × PyJson))) "metadata" .null)) k (.arr [])))))
        = .obj mdm := by
    intro k l hgl
    have hhas : PyJson.jHas (.obj mdm) k = true := by
      rw [PyJson.jHas, hgl]
      rfl
    rw [jSetDefault_present hhas]
    rw [show jGetD (.obj mdm) k (.arr []) = .arr l from by rw [jGetD, hgl]; rfl]
    show PyJson.jSet (.obj mdm) k (.arr (l ++ [])) = .obj mdm
    rw [List.append_nil]
    exact jSet_self hndm hgl
  have e3 : mergeMetaStep (.obj ms) (.obj []) = .obj ms := by
    simp only [mergeMetaStep]
    rw [jSetDefault_present hmdhas]
    rw [show jGetD (.obj ms) "metadata" (.obj []) = .obj mdm from by rw [jGetD, hmd]; rfl]
    simp only [List.foldl_cons, List.foldl_nil]
    rw [hstepK "processing_notes" l1 hl1, hstepK "plugin_errors" l2 hl2,
      hstepK "image_timestamps" l3 hl3]
    exact jSet_self hnd hmd
  rw [mergeEvidence, hT]
  simp only [Bool.not_true, Bool.false_eq_true, if_false, copyJ_wf hw]
  show mergeMetaStep (mergeFnolStep (mergeExpenseStep
    (mergeEvLoop (.obj ms) ((jItems (jGetD (.obj ms) "evidence" (.arr []))).map
      (fun e => jGetD e "image_name" .null)) []) (.obj [])) (.obj [])) (.obj []) = .obj ms
  rw [show mergeEvLoop (.obj ms) ((jItems (jGetD (.obj ms) "evidence" (.arr []))).map
      (fun e => jGetD e "image_name" .null)) [] = .obj ms from rfl]
  rw [e1]
  rw [show mergeFnolStep (.obj ms) (.obj []) = .obj ms from rfl]
  exact e3

theorem c8_merge_empty_delta_witness :
    PyJson.wf (.obj [("expense", .obj []),
      ("metadata", .obj [("processing_notes", .arr []), ("plugin_errors", .arr []),
        ("image_timestamps", .arr [])])]) = true ∧
    mergeEvidence (.obj [("expense", .obj []),
      ("metadata", .obj [("processing_notes", .arr []), ("plugin_errors", .arr []),
        ("image_timestamps", .arr [])])]) (.obj [])
      = .obj [("expense", .obj []),
        ("metadata", .obj [("processing_notes", .arr []), ("plugin_errors", .arr []),
          ("image_timestamps", .arr [])])] :=
  ⟨by decide,
    c8_merge_empty_delta
      [("expense", .obj []),
        ("metadata", .obj [("processing_notes", .arr []), ("plugin_errors", .arr []),
          ("image_timestamps", .arr [])])]
      [("processing_notes", .arr []), ("plugin_errors", .arr []),
        ("image_timestamps", .arr [])]
      (by decide) (by decide) (by decide) (by decide)
      ⟨[], by decide⟩ ⟨[], by decide⟩ ⟨[], by decide⟩⟩

/-! ### C9 -/

/-- C9: `from_export` inverts `export_to_dict` whenever the timestamp
codec round-trips (`fromisoformat (isoformat t) = t`, and `isoformat` is
never empty) - hence re-exporting the restored ledger reproduces the
export byte for byte. -/
theorem c9_export_roundtrip {τ : Type} (iso : τ → String)
    (parseTs : String → Option τ) (tnow : τ) (tdiff : τ → τ → Int)
    (h : ConvHist τ)
    (hiso : ∀ t, parseTs (iso t) = some t) (hne : ∀ t, iso t ≠ "") :
    fromExport parseTs tnow (exportToDict iso tdiff h) = h ∧
    exportToDict iso tdiff (fromExport parseTs tnow (exportToDict iso tdiff h))
      = exportToDict iso tdiff h := by
  have key : fromExport parseTs tnow (exportToDict iso tdiff h) = h := by
    cases h with
    | mk cid turns msgs =>
        simp only [fromExport, exportToDict, List.map_map]
        congr 1
        · calc turns.map _
              = turns.map id := List.map_congr_left (by
                intro t ht
                show (⟨t.role, t.content,
                  (if iso t.ts ≠ "" then (parseTs (iso t.ts)).getD tnow else tnow),
                  t.metadata⟩ : TurnM τ) = id t
                rw [if_pos (hne t.ts), hiso t.ts]
                rfl)
            _ = turns := List.map_id turns
        · calc msgs.map _
              = msgs.map id := List.map_congr_left (by
                intro m hm
                show (⟨m.role, m.content, m.name,
                  (if iso m.ts ≠ "" then (parseTs (iso m.ts)).getD tnow else tnow)⟩
                    : MsgM τ) = id m
                rw [if_pos (hne m.ts), hiso m.ts]
                rfl)
            _ = msgs := List.map_id msgs
  exact ⟨key, by rw [key]⟩

theorem c9_export_roundtrip_witness :
    (∀ t : Unit, (fun _ => some ()) ((fun _ => "t") t) = some t) ∧
    fromExport (fun _ => some ()) () (exportToDict (fun _ => "t") (fun _ _ => 0)
        (⟨some "case-1", [⟨"curator", "hello", (), .null⟩],
          [⟨"assistant", "hello", some "evidence-curator", ()⟩]⟩ : ConvHist Unit))
      = ⟨some "case-1", [⟨"curator", "hello", (), .null⟩],
          [⟨"assistant", "hello", some "evidence-curator", ()⟩]⟩ :=
  ⟨fun _ => rfl,
    (c9_export_roundtrip (fun _ => "t") (fun _ => some ()) () (fun _ _ => 0)
      ⟨some "case-1", [⟨"curator", "hello", (), .null⟩],
        [⟨"assistant", "hello", some "evidence-curator", ()⟩]⟩
      (fun _ => rfl) (fun t => by show "t" ≠ ""; decide)).1⟩

/-! ### C1 -/

/-- C1: the outcome/rationale cases of `_compile_decision`: approval with
no blocking objections passes the interpreter's coverage position
through; any blocking objection forces `"Pending Investigation"` with a
rationale carrying the count and at most three blocking messages;
otherwise `"Pending Review"`. -/
theorem c1_outcome_cases (caseId evD dD rD tD cS rC : PyJson) :
    (pyTruthy (jGetD rD "approval" (.bool false)) = true ∧
        (jItems (jGetD rD "objections" (.arr []))).filter isBlockingObj = [] →
      jGet (jGetD (compileFromData caseId evD dD rD tD cS rC) "decision" .null)
          "outcome" = some (jGetD dD "coverage_position" (.str "Deny"))) ∧
    ((jItems (jGetD rD "objections" (.arr []))).filter isBlockingObj ≠ [] →
      jGet (jGetD (compileFromData caseId evD dD rD tD cS rC) "decision" .null)
          "outcome" = some (.str "Pending Investigation") ∧
      jGet (jGetD (compileFromData caseId evD dD rD tD cS rC) "decision" .null)
          "rationale" = some (.str ("The claim requires further investigation due to "
        ++ natStr ((jItems (jGetD rD "objections" (.arr []))).filter
            isBlockingObj).length
        ++ " blocking objection(s): "
        ++ joinSemi ((((jItems (jGetD rD "objections" (.arr []))).filter
            isBlockingObj).map (fun o =>
              asStr (jGetD o "message" (jGetD o "type" (.str "Unknown"))))).take 3)
        ++ ". Original interpreter recommendation was '"
        ++ asStr (jGetD dD "coverage_position" (.str "Deny"))
        ++ "', but compliance review identified issues that must be resolved "
        ++ "before final determination."))) ∧
    (pyTruthy (jGetD rD "approval" (.bool false)) = false ∧
        (jItems (jGetD rD "objections" (.arr []))).filter isBlockingObj = [] →
      jGet (jGetD (compileFromData caseId evD dD rD tD cS rC) "decision" .null)
          "outcome" = some (.str "Pending Review")) := by
  refine ⟨?_, ?_, ?_⟩
  · rintro ⟨happ, hflt⟩
    simp only [compileFromData, hflt, happ, List.isEmpty_nil, Bool.and_self]
    rfl
  · intro hne
    have hie : ((jItems (jGetD rD "objections" (.arr []))).filter
        isBlockingObj).isEmpty = false := by
      cases hcase : (jItems (jGetD rD "objections" (.arr []))).filter isBlockingObj with
      | nil => exact absurd hcase hne
      | cons a t => rfl
    simp only [compileFromData, hie, Bool.and_false, Bool.not_false]
    exact ⟨rfl, rfl⟩
  · rintro ⟨happ, hflt⟩
    simp only [compileFromData, hflt, happ, List.isEmpty_nil, Bool.and_self,
      Bool.false_and, Bool.not_true]
    rfl

theorem c1_outcome_cases_witness :
    ((jItems (jGetD (.obj [("approval", .bool false),
        ("objections", .arr [.obj [("status", .str "Blocking"),
          ("message", .str "missing invoice")]])]) "objections" (.arr []))).filter
        isBlockingObj ≠ []) ∧
    jGet (jGetD (compileFromData .null .null
        (.obj [("coverage_position", .str "Pay")])
        (.obj [("approval", .bool false),
          ("objections", .arr [.obj [("status", .str "Blocking"),
            ("message", .str "missing invoice")]])]) .null .null .null)
        "decision" .null) "outcome" = some (.str "Pending Investigation") ∧
    jGet (jGetD (compileFromData .null .null
        (.obj [("coverage_position", .str "Pay")])
        (.obj [("approval", .bool false),
          ("objections", .arr [.obj [("status", .str "Blocking"),
            ("message", .str "missing invoice")]])]) .null .null .null)
        "decision" .null) "rationale"
      = some (.str ("The claim requires further investigation due to 1 blocking "
        ++ "objection(s): missing invoice. Original interpreter recommendation "
        ++ "was 'Pay', but compliance review identified issues that must be "
        ++ "resolved before final determination.")) := by
  have hk := (c1_outcome_cases .null .null (.obj [("coverage_position", .str "Pay")])
    (.obj [("approval", .bool false),
      ("objections", .arr [.obj [("status", .str "Blocking"),
        ("message", .str "missing invoice")]])]) .null .null .null).2.1
    (by decide)
  exact ⟨by decide, hk.1, hk.2⟩

/-! ### C5 -/

/-- A fully concrete collaboration environment whose first curator
invocation raises. -/
def cErrOrc : Orc :=
  ⟨.str "case-err", fun _ => .error "curator invocation failed",
    fun _ => .ok "", fun _ => .ok (.obj []), fun _ => .ok (.obj []),
    fun _ => .ok (.obj []), fun _ => "", fun _ => "", fun _ => "",
    fun _ _ => "", fun _ => "", fun _ => "",
    fun _ => .obj [], fun _ => .obj [], fun _ => .obj [],
    fun _ => .arr [], fun _ => .obj [], fun _ => .num 0,
    fun _ => .obj [], .obj []⟩

/-- The loop state `run_collaboration` starts from. -/
def initRunSt : RunSt :=
  ⟨selInit, termInit 3, none, none, none, [], 0, 0, 0, 0, 0⟩

/-- C5 counterexample: a resumed collaboration whose curator invocation
raises propagates the exception to the caller (`resume_collaboration` has
no `try`/`except`), instead of returning an error decision. -/
theorem c5_resume_propagates_counterexample :
    resumeCollab cErrOrc (.obj []) true [] = .error "curator invocation failed" := rfl

/-- C5 (amended): `run_collaboration`'s wrapper converts any exception
into `_error_decision` - outcome `Deny` with a single Blocking
`Processing Error` objection carrying the failure text - while
`resume_collaboration` lacks the guard (see the counterexample). -/
theorem c5_run_collab_error_decision (o : Orc) (fuel : Nat) (st : RunSt) (e : String)
    (h : runLoop o fuel st = .error e) :
    runCollab o fuel st = errorDecision o.caseId e ∧
    jGet (jGetD (errorDecision o.caseId e) "decision" .null) "outcome"
      = some (.str "Deny") ∧
    jGetD (errorDecision o.caseId e) "objections" .null
      = .arr [.obj [("type", .str "Processing Error"), ("status", .str "Blocking"),
          ("message", .str e), ("evidence_reference", .null)]] := by
  refine ⟨?_, rfl, rfl⟩
  rw [runCollab, h]

theorem c5_run_collab_error_decision_witness :
    runLoop cErrOrc 1 initRunSt = .error "curator invocation failed" ∧
    runCollab cErrOrc 1 initRunSt
      = errorDecision (.str "case-err") "curator invocation failed" :=
  ⟨rfl, (c5_run_collab_error_decision cErrOrc 1 initRunSt
    "curator invocation failed" rfl).1⟩

/-! ### C2 -/

/-- C2: one reviewer step of the collaboration loop.  If the reviewer's
result carries a blocking objection without approval in round 1, the loop
returns at once (no further role invocation) with
`metadata.paused_for_user = true` and a non-null `resume_state`; if it
shows approval or no blocking objection - in whatever round - the loop
breaks and the compiled decision has no `resume_state` key. -/
theorem c2_reviewer_step (o : Orc) (st : RunSt) (sel' : SelState) (rev : PyJson)
    (hsel : selNext st.sel = ("reviewer", sel'))
    (hrev : o.revInvoke st.revInv = .ok rev) :
    (sel'.roundNumber = 1 →
      0 < ((jItems (jGetD rev "objections" (.arr []))).filter
        (fun ob => statusLowerRun ob == "blocking")).length →
      pyTruthy (jGetD rev "approval" (.bool false)) = false →
      ∃ d, runStep o st = .ok (.inr d) ∧
        jGet (jGetD d "metadata" .null) "paused_for_user" = some (.bool true) ∧
        jGet d "resume_state" = some (buildResumeState o
          (st.texts ++ [o.fmtRev rev]) (orEmpty st.evidenceResult)
          (orEmpty st.decisionResult) (orJ (.obj []) rev)) ∧
        buildResumeState o (st.texts ++ [o.fmtRev rev])
          (orEmpty st.evidenceResult) (orEmpty st.decisionResult)
          (orJ (.obj []) rev) ≠ .null) ∧
    (pyTruthy (jGetD rev "approval" (.bool false)) = true ∨
        ((jItems (jGetD rev "objections" (.arr []))).filter
          (fun ob => statusLowerRun ob == "blocking")).length = 0 →
      runStep o st = .ok (.inr (compileDecision o (st.texts ++ [o.fmtRev rev]))) ∧
      PyJson.jHas (compileDecision o (st.texts ++ [o.fmtRev rev]))
        "resume_state" = false) := by
  constructor
  · intro h1 hbc happ
    have hrun : runStep o st = .ok (.inr (PyJson.jSet (PyJson.jSet
        (PyJson.jSetDefault (compileDecision o (st.texts ++ [o.fmtRev rev]))
          "metadata" (.obj []))
        "metadata" (PyJson.jSet (PyJson.jSet (jGetD (PyJson.jSetDefault
          (compileDecision o (st.texts ++ [o.fmtRev rev])) "metadata" (.obj []))
          "metadata" (.obj [])) "paused_for_user" (.bool true)) "recommendations"
          (jGetD rev "recommendations" (.arr []))))
        "resume_state" (buildResumeState o (st.texts ++ [o.fmtRev rev])
          (orEmpty st.evidenceResult) (orEmpty st.decisionResult)
          (orJ (.obj []) rev)))) := by
      rw [runStep, hsel]
      simp only [show (("reviewer" == "curator") = false) from rfl,
        show (("reviewer" == "interpreter") = false) from rfl,
        Bool.false_eq_true, if_false]
      rw [hrev]
      simp only [h1, decide_eq_true hbc, happ, Bool.not_false, Bool.and_self,
        if_true]
      rfl
    exact ⟨_, hrun, rfl, rfl, by simp [buildResumeState]⟩
  · intro hbr
    have hfirst : (decide (sel'.roundNumber = 1) &&
        decide (0 < ((jItems (jGetD rev "objections" (.arr []))).filter
          (fun ob => statusLowerRun ob == "blocking")).length) &&
        !pyTruthy (jGetD rev "approval" (.bool false))) = false := by
      rcases hbr with h | h
      · simp [h]
      · simp [h]
    have hcond : (pyTruthy (jGetD rev "approval" (.bool false))
        || decide (((jItems (jGetD rev "objections" (.arr []))).filter
          (fun ob => statusLowerRun ob == "blocking")).length = 0)) = true := by
      rcases hbr with h | h
      · rw [h]
        rfl
      · simp [h]
    constructor
    · rw [runStep, hsel]
      simp only [show (("reviewer" == "curator") = false) from rfl,
        show (("reviewer" == "interpreter") = false) from rfl,
        Bool.false_eq_true, if_false]
      rw [hrev]
      simp only [hfirst, Bool.false_eq_true, if_false, hcond, if_true]
    · rfl

/-- A loop state positioned just before a reviewer turn. -/
def revSt : RunSt := ⟨⟨2, 1, 2⟩, termInit 3, none, none, none, [], 1, 0, 1, 0, 0⟩

theorem c2_reviewer_step_witness :
    selNext revSt.sel = ("reviewer", ⟨3, 1, 3⟩) ∧
    cErrOrc.revInvoke revSt.revInv = .ok (.obj []) ∧
    (runStep cErrOrc revSt = .ok (.inr (compileDecision cErrOrc
        (revSt.texts ++ [cErrOrc.fmtRev (.obj [])]))) ∧
      PyJson.jHas (compileDecision cErrOrc
        (revSt.texts ++ [cErrOrc.fmtRev (.obj [])])) "resume_state" = false) :=
  ⟨rfl, rfl,
    (c2_reviewer_step cErrOrc revSt ⟨3, 1, 3⟩ (.obj []) rfl rfl).2 (Or.inr rfl)⟩

/-! ### C7 infrastructure: the string/brace scanner over serializer output -/

/-- Cumulative scanner state over a character list. -/
def runScan (st : ScanSt) (cs : List Char) : ScanSt := cs.foldl embStep st

theorem runScan_append (st : ScanSt) (xs ys : List Char) :
    runScan st (xs ++ ys) = runScan (runScan st xs) ys :=
  List.foldl_append embStep st xs ys

theorem runScan_cons (st : ScanSt) (c : Char) (t : List Char) :
    runScan st (c :: t) = runScan (embStep st c) t := rfl

/-- Characters the scanner ignores outside escapes. -/
def neutralC (c : Char) : Bool := c != '"' && c != '\\' && c != '{' && c != '}'

theorem embStep_neutral {st : ScanSt} {c : Char} (he : st.esc = false)
    (hc : neutralC c = true) : embStep st c = st := by
  simp only [neutralC, Bool.and_eq_true, bne_iff_ne] at hc
  obtain ⟨⟨⟨h1, h2⟩, h3⟩, h4⟩ := hc
  rw [embStep, he]
  simp only [Bool.false_eq_true, if_false, if_neg h2, if_neg h1]
  by_cases hin : st.inStr = true
  · rw [if_pos hin]
  · rw [if_neg hin, if_neg h3, if_neg h4]

theorem runScan_neutral {st : ScanSt} (he : st.esc = false) :
    ∀ l : List Char, (∀ c ∈ l, neutralC c = true) → runScan st l = st := by
  intro l
  induction l with
  | nil => intro _; rfl
  | cons c t ih =>
      intro h
      rw [runScan_cons, embStep_neutral he (h c (by simp))]
      exact ih (fun c' hc' => h c' (by simp [hc']))

theorem embStep_inStr_ws {st : ScanSt} {c : Char} (h : pyWs c = true) :
    (embStep st c).inStr = st.inStr := by
  have h1 : ¬(c = '"') := by rintro rfl; simp [pyWs] at h
  have h2 : ¬(c = '\\') := by rintro rfl; simp [pyWs] at h
  have h3 : ¬(c = '{') := by rintro rfl; simp [pyWs] at h
  have h4 : ¬(c = '}') := by rintro rfl; simp [pyWs] at h
  rw [embStep]
  by_cases he : st.esc = true
  · rw [if_pos he]
  · rw [if_neg he]
    simp only [if_neg h2, if_neg h1]
    by_cases hin : st.inStr = true
    · rw [if_pos hin]
    · rw [if_neg hin, if_neg h3, if_neg h4]

theorem runScan_inStr_ws {st : ScanSt} :
    ∀ l : List Char, (∀ c ∈ l, pyWs c = true) → (runScan st l).inStr = st.inStr := by
  intro l
  induction l generalizing st with
  | nil => intro _; rfl
  | cons c t ih =>
      intro h
      rw [runScan_cons]
      rw [ih (fun c' hc' => h c' (by simp [hc']))]
      exact embStep_inStr_ws (h c (by simp))

theorem hexDig_neutral : ∀ n : Nat, n < 16 → neutralC (hexDig n) = true := by decide

theorem isDig_neutral {c : Char} (h : isDig c = true) : neutralC c = true := by
  simp only [isDig, Bool.and_eq_true, decide_eq_true_eq] at h
  simp only [neutralC, Bool.and_eq_true, bne_iff_ne]
  refine ⟨⟨⟨?_, ?_⟩, ?_⟩, ?_⟩ <;>
    · rintro rfl
      exact absurd h (by decide)

theorem runScan_escChar (d : Int) (c : Char) :
    runScan ⟨d, true, false⟩ (escChar c) = ⟨d, true, false⟩ := by
  rw [escChar]
  repeat' split
  · rfl
  · rfl
  · rfl
  · rfl
  · rfl
  · rfl
  · rfl
  · show runScan _ ('\\' :: 'u' :: _) = _
    rw [runScan_cons, runScan_cons]
    show runScan ⟨d, true, false⟩ _ = _
    have hm : ∀ k : Nat, k % 16 < 16 := fun k => Nat.mod_lt _ (by omega)
    rw [runScan_cons, embStep_neutral rfl (hexDig_neutral _ (hm _))]
    rw [runScan_cons, embStep_neutral rfl (hexDig_neutral _ (hm _))]
    rw [runScan_cons, embStep_neutral rfl (hexDig_neutral _ (hm _))]
    rw [runScan_cons, embStep_neutral rfl (hexDig_neutral _ (hm _))]
    rfl
  · rename_i h1 h2 h3 h4 h5 h6 h7 h8
    show runScan _ [c] = _
    rw [runScan_cons, show embStep ⟨d, true, false⟩ c = ⟨d, true, false⟩ from by
      rw [embStep]
      show (if false = true then _
        else if c = '\\' then _ else if c = '"' then _
        else if true = true then _ else _) = _
      rw [if_neg (by simp), if_neg h2, if_neg h1, if_pos rfl]]
    rfl

theorem runScan_escStr (d : Int) (l : List Char) :
    runScan ⟨d, true, false⟩ (escStr l) = ⟨d, true, false⟩ := by
  induction l with
  | nil => rfl
  | cons c t ih =>
      rw [escStr, List.flatMap_cons, runScan_append,
        show (t.flatMap escChar) = escStr t from rfl, runScan_escChar, ih]

theorem runScan_strLit (d : Int) (s : String) :
    runScan ⟨d, false, false⟩ (strLit s) = ⟨d, false, false⟩ := by
  rw [strLit, runScan_cons,
    show embStep ⟨d, false, false⟩ '"' = ⟨d, true, false⟩ from rfl,
    runScan_append, runScan_escStr]
  rfl

theorem nlInd_all_ws (k : Nat) : ∀ c ∈ nlInd k, pyWs c = true := by
  intro c hc
  rw [nlInd] at hc
  rcases List.mem_cons.mp hc with rfl | hc
  · rfl
  · rw [List.eq_of_mem_replicate hc]
    rfl

theorem nlInd_neutral (k : Nat) : ∀ c ∈ nlInd k, neutralC c = true := by
  intro c hc
  have := nlInd_all_ws k c hc
  rw [pyWs, Bool.or_eq_true, Bool.or_eq_true, Bool.or_eq_true, Bool.or_eq_true,
    Bool.or_eq_true] at this
  simp only [decide_eq_true_eq] at this
  rcases this with ((((h | h) | h) | h) | h) | h <;> subst h <;> decide

theorem intChars_neutral (i : Int) : ∀ c ∈ intChars i, neutralC c = true := by
  intro c hc
  rw [intChars] at hc
  rcases List.mem_append.mp hc with h | h
  · split at h
    · rw [List.mem_singleton] at h
      subst h
      decide
    · simp at h
  · exact isDig_neutral (natDigs_all_dig _ c h)

theorem runScan_nlInd (d : Int) (i : Bool) (k : Nat) :
    runScan ⟨d, i, false⟩ (nlInd k) = ⟨d, i, false⟩ :=
  runScan_neutral rfl _ (nlInd_neutral k)

theorem natDigs_last (n : Nat) :
    ∃ p c, natDigs n = p ++ [c] ∧ isDig c = true := by
  have hne := natDigs_ne_nil n
  refine ⟨(natDigs n).dropLast, (natDigs n).getLast hne, ?_, ?_⟩
  · exact (List.dropLast_append_getLast hne).symm
  · exact natDigs_all_dig n _ (List.getLast_mem hne)

/-- The character classes a serialized value can end with. -/
def isValEnd (c : Char) : Bool :=
  c = '"' || c = '}' || c = ']' || c = 'e' || c = 'l' || isDig c

theorem dumpJ_last (ind : Nat) (j : PyJson) :
    ∃ p c, dumpJ ind j = p ++ [c] ∧ isValEnd c = true := by
  cases j with
  | null => exact ⟨['n', 'u', 'l'], 'l', rfl, by decide⟩
  | bool b =>
      cases b with
      | true => exact ⟨['t', 'r', 'u'], 'e', rfl, by decide⟩
      | false => exact ⟨['f', 'a', 'l', 's'], 'e', rfl, by decide⟩
  | num n =>
      obtain ⟨p, c, hpc, hd⟩ := natDigs_last n.natAbs
      refine ⟨(if n < 0 then ['-'] else []) ++ p, c, ?_, by simp [isValEnd, hd]⟩
      rw [show dumpJ ind (.num n) = intChars n from rfl, intChars, hpc,
        List.append_assoc]
  | str s =>
      exact ⟨'"' :: escStr s.data, '"', by
        rw [show dumpJ ind (.str s) = strLit s from rfl, strLit]
        rfl, by decide⟩
  | arr items =>
      cases items with
      | nil => exact ⟨['['], ']', rfl, by decide⟩
      | cons x xs =>
          refine ⟨'[' :: (nlInd (ind + 2) ++ dumpJ (ind + 2) x
            ++ dumpItems (ind + 2) xs ++ nlInd ind), ']', ?_, by decide⟩
          rw [show dumpJ ind (.arr (x :: xs)) = '[' :: (nlInd (ind + 2)
            ++ dumpJ (ind + 2) x ++ dumpItems (ind + 2) xs ++ nlInd ind
            ++ [']']) from rfl]
          simp [List.append_assoc]
  | obj ms =>
      cases ms with
      | nil => exact ⟨['{'], '}', rfl, by decide⟩
      | cons kv kvs =>
          refine ⟨'{' :: (nlInd (ind + 2) ++ strLit kv.1 ++ ':' :: ' '
            :: dumpJ (ind + 2) kv.2 ++ dumpMembers (ind + 2) kvs ++ nlInd ind),
            '}', ?_, by decide⟩
          rw [show dumpJ ind (.obj (kv :: kvs)) = '{' :: (nlInd (ind + 2)
            ++ strLit kv.1 ++ ':' :: ' ' :: dumpJ (ind + 2) kv.2
            ++ dumpMembers (ind + 2) kvs ++ nlInd ind ++ ['}']) from rfl]
          simp [List.append_assoc]

mutual
theorem runScan_dump : ∀ (j : PyJson) (ind : Nat) (d : Int),
    runScan ⟨d, false, false⟩ (dumpJ ind j) = ⟨d, false, false⟩
  | .null, ind, d => runScan_neutral rfl ['n', 'u', 'l', 'l'] (by decide)
  | .bool true, ind, d => runScan_neutral rfl ['t', 'r', 'u', 'e'] (by decide)
  | .bool false, ind, d =>
      runScan_neutral rfl ['f', 'a', 'l', 's', 'e'] (by decide)
  | .num n, ind, d => runScan_neutral rfl _ (intChars_neutral n)
  | .str s, ind, d => runScan_strLit d s
  | .arr [], ind, d => runScan_neutral rfl ['[', ']'] (by decide)
  | .arr (x :: xs), ind, d => by
      rw [show dumpJ ind (.arr (x :: xs)) = '[' :: (nlInd (ind + 2)
        ++ (dumpJ (ind + 2) x ++ (dumpItems (ind + 2) xs
          ++ (nlInd ind ++ [']'])))) from by
        rw [show dumpJ ind (.arr (x :: xs)) = '[' :: (nlInd (ind + 2)
          ++ dumpJ (ind + 2) x ++ dumpItems (ind + 2) xs ++ nlInd ind
          ++ [']']) from rfl]
        simp [List.append_assoc]]
      rw [runScan_cons, show embStep ⟨d, false, false⟩ '[' = ⟨d, false, false⟩
        from rfl, runScan_append, runScan_nlInd, runScan_append,
        runScan_dump x (ind + 2) d, runScan_append, runScan_items xs (ind + 2) d,
        runScan_append, runScan_nlInd]
      rfl
  | .obj [], ind, d => by
      rw [show dumpJ ind (.obj []) = ['{', '}'] from rfl]
      show runScan ⟨d + 1 - 1, false, false⟩ [] = _
      rw [show d + 1 - 1 = d from by omega]
      rfl
  | .obj (kv :: kvs), ind, d => by
      rw [show dumpJ ind (.obj (kv :: kvs)) = '{' :: (nlInd (ind + 2)
        ++ (strLit kv.1 ++ (':' :: ' ' :: (dumpJ (ind + 2) kv.2
          ++ (dumpMembers (ind + 2) kvs ++ (nlInd ind ++ ['}'])))))) from by
        rw [show dumpJ ind (.obj (kv :: kvs)) = '{' :: (nlInd (ind + 2)
          ++ strLit kv.1 ++ ':' :: ' ' :: dumpJ (ind + 2) kv.2
          ++ dumpMembers (ind + 2) kvs ++ nlInd ind ++ ['}']) from rfl]
        simp [List.append_assoc]]
      rw [runScan_cons, show embStep ⟨d, false, false⟩ '{' = ⟨d + 1, false, false⟩
        from rfl, runScan_append, runScan_nlInd, runScan_append,
        runScan_strLit, runScan_cons, runScan_cons]
      rw [show embStep (embStep ⟨d + 1, false, false⟩ ':') ' '
        = ⟨d + 1, false, false⟩ from rfl]
      rw [runScan_append, runScan_dump kv.2 (ind + 2) (d + 1), runScan_append,
        runScan_membs kvs (ind + 2) (d + 1), runScan_append, runScan_nlInd]
      show runScan ⟨d + 1 - 1, false, false⟩ [] = _
      rw [show d + 1 - 1 = d from by omega]
      rfl
  termination_by j _ _ => jweight j
  decreasing_by
    all_goals simp_wf
    all_goals simp [jweight, lweight, mweight]
    all_goals omega

theorem runScan_items : ∀ (xs : List PyJson) (ind : Nat) (d : Int),
    runScan ⟨d, false, false⟩ (dumpItems ind xs) = ⟨d, false, false⟩
  | [], _, _ => rfl
  | x :: xs, ind, d => by
      rw [show dumpItems ind (x :: xs) = ',' :: (nlInd ind ++ (dumpJ ind x
        ++ dumpItems ind xs)) from by
        rw [show dumpItems ind (x :: xs) = ',' :: (nlInd ind ++ dumpJ ind x
          ++ dumpItems ind xs) from rfl]
        simp [List.append_assoc]]
      rw [runScan_cons, show embStep ⟨d, false, false⟩ ',' = ⟨d, false, false⟩
        from rfl, runScan_append, runScan_nlInd, runScan_append,
        runScan_dump x ind d, runScan_items xs ind d]
  termination_by xs _ _ => lweight xs + 1
  decreasing_by
    all_goals simp_wf
    all_goals simp [jweight, lweight, mweight]
    all_goals omega

theorem runScan_membs : ∀ (kvs : List (String × PyJson)) (ind : Nat) (d : Int),
    runScan ⟨d, false, false⟩ (dumpMembers ind kvs) = ⟨d, false, false⟩
  | [], _, _ => rfl
  | kv :: kvs, ind, d => by
      rw [show dumpMembers ind (kv :: kvs) = ',' :: (nlInd ind ++ (strLit kv.1
        ++ (':' :: ' ' :: (dumpJ ind kv.2 ++ dumpMembers ind kvs)))) from by
        rw [show dumpMembers ind (kv :: kvs) = ',' :: (nlInd ind ++ strLit kv.1
          ++ ':' :: ' ' :: dumpJ ind kv.2 ++ dumpMembers ind kvs) from rfl]
        simp [List.append_assoc]]
      rw [runScan_cons, show embStep ⟨d, false, false⟩ ',' = ⟨d, false, false⟩
        from rfl, runScan_append, runScan_nlInd, runScan_append, runScan_strLit,
        runScan_cons, runScan_cons]
      rw [show embStep (embStep ⟨d, false, false⟩ ':') ' ' = ⟨d, false, false⟩
        from rfl]
      rw [runScan_append, runScan_dump kv.2 ind d, runScan_membs kvs ind d]
  termination_by kvs _ _ => mweight kvs + 1
  decreasing_by
    all_goals simp_wf
    all_goals simp [jweight, lweight, mweight]
    all_goals omega
end

theorem append_split_cases {α : Type} {seg rest p q : List α} {x : α}
    (h : seg ++ rest = p ++ x :: q) :
    (∃ qs, seg = p ++ x :: qs ∧ q = qs ++ rest) ∨
    (∃ p', p = seg ++ p' ∧ rest = p' ++ x :: q) := by
  induction seg generalizing p with
  | nil => exact Or.inr ⟨p, rfl, h⟩
  | cons c t ih =>
      cases p with
      | nil =>
          rw [List.nil_append] at h
          rw [List.cons_append] at h
          obtain ⟨hc, ht⟩ := List.cons.inj h
          exact Or.inl ⟨t, by rw [hc]; rfl, ht.symm⟩
      | cons pc pt =>
          rw [List.cons_append, List.cons_append] at h
          obtain ⟨hc, ht⟩ := List.cons.inj h
          rcases ih ht with ⟨qs, h1, h2⟩ | ⟨p', h1, h2⟩
          · exact Or.inl ⟨qs, by rw [hc, h1, List.cons_append], h2⟩
          · exact Or.inr ⟨p', by rw [hc, h1, List.cons_append], h2⟩

/-- Any proper position inside one escaped character's output is still
inside the string for the scanner. -/
theorem embStep_hexDig (d : Int) (i : Bool) (n : Nat) :
    embStep ⟨d, i, false⟩ (hexDig (n % 16)) = ⟨d, i, false⟩ :=
  embStep_neutral rfl (hexDig_neutral _ (Nat.mod_lt _ (by omega)))

/-- Any proper position inside one escaped character's output is still
inside the string for the scanner. -/
theorem escChar_prefix_inStr (c : Char) (d : Int) :
    ∀ p rest, escChar c = p ++ rest → (runScan ⟨d, true, false⟩ p).inStr = true := by
  rw [escChar]
  repeat' split
  case _ | _ | _ | _ | _ | _ | _ =>
    intro p rest h
    rcases p with - | ⟨c1, - | ⟨c2, p2⟩⟩
    · rfl
    · obtain ⟨h1, -⟩ := List.cons.inj h
      subst h1
      rfl
    · obtain ⟨h1, h2⟩ := List.cons.inj h
      obtain ⟨h3, h4⟩ := List.cons.inj h2
      have hp2 : p2 = [] := by
        have := congrArg List.length h4
        simp at this
        exact List.eq_nil_of_length_eq_zero (by omega)
      subst h1 h3 hp2
      rfl
  · intro p rest h
    rcases p with - | ⟨c1, - | ⟨c2, - | ⟨c3, - | ⟨c4, - | ⟨c5, - | ⟨c6, p6⟩⟩⟩⟩⟩⟩
    · rfl
    · obtain ⟨h1, -⟩ := List.cons.inj h
      subst h1
      rfl
    · obtain ⟨h1, h2⟩ := List.cons.inj h
      obtain ⟨h3, -⟩ := List.cons.inj h2
      subst h1 h3
      rfl
    · obtain ⟨h1, h2⟩ := List.cons.inj h
      obtain ⟨h3, h4⟩ := List.cons.inj h2
      obtain ⟨h5, -⟩ := List.cons.inj h4
      subst h1 h3 h5
      rw [runScan_cons, show embStep ⟨d, true, false⟩ '\\' = ⟨d, true, true⟩
        from rfl]
      rw [runScan_cons, show embStep ⟨d, true, true⟩ 'u' = ⟨d, true, false⟩
        from rfl]
      rw [runScan_cons, embStep_hexDig]
      rfl
    · obtain ⟨h1, h2⟩ := List.cons.inj h
      obtain ⟨h3, h4⟩ := List.cons.inj h2
      obtain ⟨h5, h6⟩ := List.cons.inj h4
      obtain ⟨h7, -⟩ := List.cons.inj h6
      subst h1 h3 h5 h7
      rw [runScan_cons, show embStep ⟨d, true, false⟩ '\\' = ⟨d, true, true⟩
        from rfl]
      rw [runScan_cons, show embStep ⟨d, true, true⟩ 'u' = ⟨d, true, false⟩
        from rfl]
      rw [runScan_cons, embStep_hexDig]
      rw [runScan_cons, embStep_hexDig]
      rfl
    · obtain ⟨h1, h2⟩ := List.cons.inj h
      obtain ⟨h3, h4⟩ := List.cons.inj h2
      obtain ⟨h5, h6⟩ := List.cons.inj h4
      obtain ⟨h7, h8⟩ := List.cons.inj h6
      obtain ⟨h9, -⟩ := List.cons.inj h8
      subst h1 h3 h5 h7 h9
      rw [runScan_cons, show embStep ⟨d, true, false⟩ '\\' = ⟨d, true, true⟩
        from rfl]
      rw [runScan_cons, show embStep ⟨d, true, true⟩ 'u' = ⟨d, true, false⟩
        from rfl]
      rw [runScan_cons, embStep_hexDig]
      rw [runScan_cons, embStep_hexDig]
      rw [runScan_cons, embStep_hexDig]
      rfl
    · obtain ⟨h1, h2⟩ := List.cons.inj h
      obtain ⟨h3, h4⟩ := List.cons.inj h2
      obtain ⟨h5, h6⟩ := List.cons.inj h4
      obtain ⟨h7, h8⟩ := List.cons.inj h6
      obtain ⟨h9, h10⟩ := List.cons.inj h8
      obtain ⟨h11, h12⟩ := List.cons.inj h10
      have hp6 : p6 = [] := by
        have := congrArg List.length h12
        simp at this
        exact List.eq_nil_of_length_eq_zero (by omega)
      subst h1 h3 h5 h7 h9 h11 hp6
      rw [runScan_cons, show embStep ⟨d, true, false⟩ '\\' = ⟨d, true, true⟩
        from rfl]
      rw [runScan_cons, show embStep ⟨d, true, true⟩ 'u' = ⟨d, true, false⟩
        from rfl]
      rw [runScan_cons, embStep_hexDig]
      rw [runScan_cons, embStep_hexDig]
      rw [runScan_cons, embStep_hexDig]
      rw [runScan_cons, embStep_hexDig]
      rfl
  · rename_i h1 h2 h3 h4 h5 h6 h7 h8
    intro p rest h
    rcases p with - | ⟨c1, p1⟩
    · rfl
    · obtain ⟨hc1, hp1⟩ := List.cons.inj h
      have hp : p1 = [] := by
        have := congrArg List.length hp1
        simp at this
        exact List.eq_nil_of_length_eq_zero (by omega)
      subst hc1 hp
      rw [runScan_cons, show embStep ⟨d, true, false⟩ c = ⟨d, true, false⟩ from by
        rw [embStep]
        show (if false = true then _
          else if c = '\\' then _ else if c = '"' then _
          else if true = true then _ else _) = _
        rw [if_neg (by simp), if_neg h2, if_neg h1, if_pos rfl]]
      rfl

/-- Any prefix of an escaped string body leaves the scanner inside the
string. -/
theorem escStr_prefix_inStr : ∀ (l : List Char) (d : Int) (p rest : List Char),
    escStr l = p ++ rest → (runScan ⟨d, true, false⟩ p).inStr = true := by
  intro l
  induction l with
  | nil =>
      intro d p rest h
      have hp : p = [] := by
        have := congrArg List.length h
        simp [escStr] at this
        exact List.eq_nil_of_length_eq_zero (by omega)
      subst hp
      rfl
  | cons c t ih =>
      intro d p rest h
      rw [escStr, List.flatMap_cons,
        show (t.flatMap escChar) = escStr t from rfl] at h
      rcases List.append_eq_append_iff.mp h.symm with ⟨a, ha1, ha2⟩ | ⟨b, hb1, hb2⟩
      · exact escChar_prefix_inStr c d p a ha1
      · subst hb1
        rw [runScan_append, runScan_escChar]
        exact ih d b rest hb2

/-- A split at a `<` inside a serialized string literal finds the scanner
inside the string. -/
theorem strLit_lt_inStr (s : String) (d : Int) :
    ∀ p q, strLit s = p ++ '<' :: q → (runScan ⟨d, false, false⟩ p).inStr = true := by
  intro p q h
  rw [strLit] at h
  cases p with
  | nil =>
      rw [List.nil_append] at h
      exact absurd (List.cons.inj h).1 (by decide)
  | cons c1 p1 =>
      rw [List.cons_append] at h
      obtain ⟨hc1, hbody⟩ := List.cons.inj h
      subst hc1
      rcases append_split_cases hbody with ⟨qs, h1, -⟩ | ⟨p', h1, h2⟩
      · rw [runScan_cons, show embStep ⟨d, false, false⟩ '"' = ⟨d, true, false⟩
          from rfl]
        exact escStr_prefix_inStr s.data d p1 ('<' :: qs) h1
      · have : p' ++ '<' :: q = ['"'] := h2.symm
        have hlen := congrArg List.length this
        simp at hlen
        have hp' : p' = [] := List.eq_nil_of_length_eq_zero (by omega)
        subst hp'
        rw [List.nil_append] at this
        exact absurd (List.cons.inj this).1 (by decide)

theorem consume_seg {seg rest p q : List Char} {st st' : ScanSt}
    (hnm : '<' ∉ seg) (hsc : runScan st seg = st')
    (h : seg ++ rest = p ++ '<' :: q) :
    ∃ p', p = seg ++ p' ∧ rest = p' ++ '<' :: q ∧
      runScan st p = runScan st' p' := by
  rcases append_split_cases h with ⟨qs, h1, -⟩ | ⟨p', h1, h2⟩
  · exact absurd (by rw [h1]; exact List.mem_append.mpr (Or.inr (by simp))) hnm
  · exact ⟨p', h1, h2, by rw [h1, runScan_append, hsc]⟩

theorem consume_char {c : Char} {rest p q : List Char}
    (hne : c ≠ '<') (h : c :: rest = p ++ '<' :: q) :
    ∃ p', p = c :: p' ∧ rest = p' ++ '<' :: q ∧
      ∀ st : ScanSt, runScan st p = runScan (embStep st c) p' := by
  cases p with
  | nil =>
      rw [List.nil_append] at h
      exact absurd (List.cons.inj h).1 hne
  | cons c1 p1 =>
      rw [List.cons_append] at h
      obtain ⟨h1, h2⟩ := List.cons.inj h
      subst h1
      exact ⟨p1, rfl, h2, fun st => rfl⟩

theorem lt_not_mem_ws {l : List Char} (h : ∀ c ∈ l, pyWs c = true) : '<' ∉ l := by
  intro hm
  have := h _ hm
  simp [pyWs] at this

theorem lt_not_mem_nlInd (k : Nat) : '<' ∉ nlInd k :=
  lt_not_mem_ws (nlInd_all_ws k)

theorem lt_not_mem_intChars (i : Int) : '<' ∉ intChars i := by
  intro hm
  rw [intChars] at hm
  rcases List.mem_append.mp hm with h | h
  · split at h
    · rw [List.mem_singleton] at h
      exact absurd h (by decide)
    · simp at h
  · have := natDigs_all_dig _ _ h
    exact absurd this (by decide)

mutual
theorem dump_lt : ∀ (j : PyJson) (ind : Nat) (d : Int) (p q : List Char),
    dumpJ ind j = p ++ '<' :: q → (runScan ⟨d, false, false⟩ p).inStr = true
  | .null, ind, d, p, q => by
      intro h
      rw [show dumpJ ind .null = ['n', 'u', 'l', 'l'] from rfl] at h
      exact absurd (by rw [h]; exact List.mem_append.mpr (Or.inr (by simp)))
        (by decide : ('<' : Char) ∉ ['n', 'u', 'l', 'l'])
  | .bool true, ind, d, p, q => by
      intro h
      rw [show dumpJ ind (.bool true) = ['t', 'r', 'u', 'e'] from rfl] at h
      exact absurd (by rw [h]; exact List.mem_append.mpr (Or.inr (by simp)))
        (by decide : ('<' : Char) ∉ ['t', 'r', 'u', 'e'])
  | .bool false, ind, d, p, q => by
      intro h
      rw [show dumpJ ind (.bool false) = ['f', 'a', 'l', 's', 'e'] from rfl] at h
      exact absurd (by rw [h]; exact List.mem_append.mpr (Or.inr (by simp)))
        (by decide : ('<' : Char) ∉ ['f', 'a', 'l', 's', 'e'])
  | .num n, ind, d, p, q => by
      intro h
      rw [show dumpJ ind (.num n) = intChars n from rfl] at h
      exact absurd (by rw [h]; exact List.mem_append.mpr (Or.inr (by simp)))
        (lt_not_mem_intChars n)
  | .str s, ind, d, p, q => strLit_lt_inStr s d p q
  | .arr [], ind, d, p, q => by
      intro h
      rw [show dumpJ ind (.arr []) = ['[', ']'] from rfl] at h
      exact absurd (by rw [h]; exact List.mem_append.mpr (Or.inr (by simp)))
        (by decide : ('<' : Char) ∉ ['[', ']'])
  | .arr (x :: xs), ind, d, p, q => by
      intro h0
      rw [show dumpJ ind (.arr (x :: xs)) = '[' :: (nlInd (ind + 2)
        ++ (dumpJ (ind + 2) x ++ (dumpItems (ind + 2) xs
          ++ (nlInd ind ++ [']'])))) from by
        rw [show dumpJ ind (.arr (x :: xs)) = '[' :: (nlInd (ind + 2)
          ++ dumpJ (ind + 2) x ++ dumpItems (ind + 2) xs ++ nlInd ind
          ++ [']']) from rfl]
        simp [List.append_assoc]] at h0
      obtain ⟨p1, hp1, h1, hs1⟩ := consume_char (by decide) h0
      subst hp1
      rw [hs1, show embStep ⟨d, false, false⟩ '[' = ⟨d, false, false⟩ from rfl]
      obtain ⟨p2, hp2, h2, hs2⟩ := consume_seg (lt_not_mem_nlInd (ind + 2))
        (runScan_nlInd d false (ind + 2)) h1
      subst hp2
      rw [hs2]
      rcases append_split_cases h2 with ⟨qs, hin, -⟩ | ⟨p3, hp3, h3⟩
      · exact dump_lt x (ind + 2) d p2 qs hin
      · subst hp3
        rw [runScan_append, runScan_dump]
        rcases append_split_cases h3 with ⟨qs, hin, -⟩ | ⟨p4, hp4, h4⟩
        · exact items_lt xs (ind + 2) d p3 qs hin
        · subst hp4
          rw [runScan_append, runScan_items]
          obtain ⟨p5, hp5, h5, hs5⟩ := consume_seg (lt_not_mem_nlInd ind)
            (runScan_nlInd d false ind) h4
          subst hp5
          rw [hs5]
          obtain ⟨p6, hp6, h6, -⟩ := consume_char (by decide : ']' ≠ '<') h5
          have hl := congrArg List.length h6
          simp only [List.length_nil, List.length_append, List.length_cons] at hl
          omega
  | .obj [], ind, d, p, q => by
      intro h
      rw [show dumpJ ind (.obj []) = ['{', '}'] from rfl] at h
      exact absurd (by rw [h]; exact List.mem_append.mpr (Or.inr (by simp)))
        (by decide : ('<' : Char) ∉ ['{', '}'])
  | .obj (kv :: kvs), ind, d, p, q => by
      intro h0
      rw [show dumpJ ind (.obj (kv :: kvs)) = '{' :: (nlInd (ind + 2)
        ++ (strLit kv.1 ++ (':' :: ' ' :: (dumpJ (ind + 2) kv.2
          ++ (dumpMembers (ind + 2) kvs ++ (nlInd ind ++ ['}'])))))) from by
        rw [show dumpJ ind (.obj (kv :: kvs)) = '{' :: (nlInd (ind + 2)
          ++ strLit kv.1 ++ ':' :: ' ' :: dumpJ (ind + 2) kv.2
          ++ dumpMembers (ind + 2) kvs ++ nlInd ind ++ ['}']) from rfl]
        simp [List.append_assoc]] at h0
      obtain ⟨p1, hp1, h1, hs1⟩ := consume_char (by decide) h0
      subst hp1
      rw [hs1, show embStep ⟨d, false, false⟩ '{' = ⟨d + 1, false, false⟩ from rfl]
      obtain ⟨p2, hp2, h2, hs2⟩ := consume_seg (lt_not_mem_nlInd (ind + 2))
        (runScan_nlInd (d + 1) false (ind + 2)) h1
      subst hp2
      rw [hs2]
      rcases append_split_cases h2 with ⟨qs, hin, -⟩ | ⟨p3, hp3, h3⟩
      · exact strLit_lt_inStr kv.1 (d + 1) p2 qs hin
      · subst hp3
        rw [runScan_append, runScan_strLit]
        obtain ⟨p4, hp4, h4, hs4⟩ := consume_char (by decide : ':' ≠ '<') h3
        subst hp4
        rw [hs4, show embStep ⟨d + 1, false, false⟩ ':' = ⟨d + 1, false, false⟩
          from rfl]
        obtain ⟨p5, hp5, h5, hs5⟩ := consume_char (by decide : ' ' ≠ '<') h4
        subst hp5
        rw [hs5, show embStep ⟨d + 1, false, false⟩ ' ' = ⟨d + 1, false, false⟩
          from rfl]
        rcases append_split_cases h5 with ⟨qs, hin, -⟩ | ⟨p6, hp6, h6⟩
        · exact dump_lt kv.2 (ind + 2) (d + 1) p5 qs hin
        · subst hp6
          rw [runScan_append, runScan_dump]
          rcases append_split_cases h6 with ⟨qs, hin, -⟩ | ⟨p7, hp7, h7⟩
          · exact membs_lt kvs (ind + 2) (d + 1) p6 qs hin
          · subst hp7
            rw [runScan_append, runScan_membs]
            obtain ⟨p8, hp8, h8, hs8⟩ := consume_seg (lt_not_mem_nlInd ind)
              (runScan_nlInd (d + 1) false ind) h7
            subst hp8
            rw [hs8]
            obtain ⟨p9, hp9, h9, -⟩ := consume_char (by decide : '}' ≠ '<') h8
            have hl := congrArg List.length h9
            simp only [List.length_nil, List.length_append, List.length_cons] at hl
            omega
  termination_by j _ _ _ _ => jweight j
  decreasing_by
    all_goals simp_wf
    all_goals simp [jweight, lweight, mweight]
    all_goals omega

theorem items_lt : ∀ (xs : List PyJson) (ind : Nat) (d : Int) (p q : List Char),
    dumpItems ind xs = p ++ '<' :: q → (runScan ⟨d, false, false⟩ p).inStr = true
  | [], ind, d, p, q => by
      intro h
      have hl := congrArg List.length h
      simp only [show dumpItems ind [] = [] from rfl, List.length_nil,
        List.length_append, List.length_cons] at hl
      omega
  | x :: xs, ind, d, p, q => by
      intro h0
      rw [show dumpItems ind (x :: xs) = ',' :: (nlInd ind ++ (dumpJ ind x
        ++ dumpItems ind xs)) from by
        rw [show dumpItems ind (x :: xs) = ',' :: (nlInd ind ++ dumpJ ind x
          ++ dumpItems ind xs) from rfl]
        simp [List.append_assoc]] at h0
      obtain ⟨p1, hp1, h1, hs1⟩ := consume_char (by decide : ',' ≠ '<') h0
      subst hp1
      rw [hs1, show embStep ⟨d, false, false⟩ ',' = ⟨d, false, false⟩ from rfl]
      obtain ⟨p2, hp2, h2, hs2⟩ := consume_seg (lt_not_mem_nlInd ind)
        (runScan_nlInd d false ind) h1
      subst hp2
      rw [hs2]
      rcases append_split_cases h2 with ⟨qs, hin, -⟩ | ⟨p3, hp3, h3⟩
      · exact dump_lt x ind d p2 qs hin
      · subst hp3
        rw [runScan_append, runScan_dump]
        exact items_lt xs ind d p3 q h3
  termination_by xs _ _ _ _ => lweight xs + 1
  decreasing_by
    all_goals simp_wf
    all_goals simp [jweight, lweight, mweight]
    all_goals omega

theorem membs_lt : ∀ (kvs : List (String × PyJson)) (ind : Nat) (d : Int)
    (p q : List Char),
    dumpMembers ind kvs = p ++ '<' :: q →
    (runScan ⟨d, false, false⟩ p).inStr = true
  | [], ind, d, p, q => by
      intro h
      have hl := congrArg List.length h
      simp only [show dumpMembers ind [] = [] from rfl, List.length_nil,
        List.length_append, List.length_cons] at hl
      omega
  | kv :: kvs, ind, d, p, q => by
      intro h0
      rw [show dumpMembers ind (kv :: kvs) = ',' :: (nlInd ind ++ (strLit kv.1
        ++ (':' :: ' ' :: (dumpJ ind kv.2 ++ dumpMembers ind kvs)))) from by
        rw [show dumpMembers ind (kv :: kvs) = ',' :: (nlInd ind ++ strLit kv.1
          ++ ':' :: ' ' :: dumpJ ind kv.2 ++ dumpMembers ind kvs) from rfl]
        simp [List.append_assoc]] at h0
      obtain ⟨p1, hp1, h1, hs1⟩ := consume_char (by decide : ',' ≠ '<') h0
      subst hp1
      rw [hs1, show embStep ⟨d, false, false⟩ ',' = ⟨d, false, false⟩ from rfl]
      obtain ⟨p2, hp2, h2, hs2⟩ := consume_seg (lt_not_mem_nlInd ind)
        (runScan_nlInd d false ind) h1
      subst hp2
      rw [hs2]
      rcases append_split_cases h2 with ⟨qs, hin, -⟩ | ⟨p3, hp3, h3⟩
      · exact strLit_lt_inStr kv.1 d p2 qs hin
      · subst hp3
        rw [runScan_append, runScan_strLit]
        obtain ⟨p4, hp4, h4, hs4⟩ := consume_char (by decide : ':' ≠ '<') h3
        subst hp4
        rw [hs4, show embStep ⟨d, false, false⟩ ':' = ⟨d, false, false⟩ from rfl]
        obtain ⟨p5, hp5, h5, hs5⟩ := consume_char (by decide : ' ' ≠ '<') h4
        subst hp5
        rw [hs5, show embStep ⟨d, false, false⟩ ' ' = ⟨d, false, false⟩ from rfl]
        rcases append_split_cases h5 with ⟨qs, hin, -⟩ | ⟨p6, hp6, h6⟩
        · exact dump_lt kv.2 ind d p5 qs hin
        · subst hp6
          rw [runScan_append, runScan_dump]
          exact membs_lt kvs ind d p6 q h6
  termination_by kvs _ _ _ _ => mweight kvs + 1
  decreasing_by
    all_goals simp_wf
    all_goals simp [jweight, lweight, mweight]
    all_goals omega
end

theorem hexV_neutral {c : Char} {v : Nat} (h : hexV c = some v) :
    neutralC c = true := by
  rw [hexV] at h
  simp only [neutralC, Bool.and_eq_true, bne_iff_ne]
  split at h
  · rename_i hb
    simp only [Bool.and_eq_true, decide_eq_true_eq] at hb
    refine ⟨⟨⟨?_, ?_⟩, ?_⟩, ?_⟩ <;> (rintro rfl; exact absurd hb (by decide))
  · split at h
    · rename_i hb
      simp only [Bool.and_eq_true, decide_eq_true_eq] at hb
      refine ⟨⟨⟨?_, ?_⟩, ?_⟩, ?_⟩ <;> (rintro rfl; exact absurd hb (by decide))
    · split at h
      · rename_i hb
        simp only [Bool.and_eq_true, decide_eq_true_eq] at hb
        refine ⟨⟨⟨?_, ?_⟩, ?_⟩, ?_⟩ <;> (rintro rfl; exact absurd hb (by decide))
      · exact absurd h (by simp)

theorem hex4_parts {a b c d : Char} {u : Nat} (h : hex4 a b c d = some u) :
    (∃ x, hexV a = some x) ∧ (∃ x, hexV b = some x) ∧ (∃ x, hexV c = some x) ∧
    (∃ x, hexV d = some x) := by
  rcases ha : hexV a with - | va <;> rw [hex4, ha] at h
  · exact absurd h (by simp)
  rcases hb : hexV b with - | vb <;> rw [hb] at h
  · exact absurd h (by simp)
  rcases hc : hexV c with - | vc <;> rw [hc] at h
  · exact absurd h (by simp)
  rcases hd : hexV d with - | vd <;> rw [hd] at h
  · exact absurd h (by simp)
  exact ⟨⟨va, rfl⟩, ⟨vb, rfl⟩, ⟨vc, rfl⟩, ⟨vd, rfl⟩⟩

theorem escHead_consumed {r : List Char} {p : Char × List Char}
    (h : escHead r = some p) :
    ∃ eaten, r = eaten ++ p.2 ∧
      ∀ d : Int, runScan ⟨d, true, true⟩ eaten = ⟨d, true, false⟩ := by
  rw [escHead.eq_def] at h
  split at h
  · rename_i a b c' dg r2
    split at h
    · exact absurd h (by simp)
    · rename_i u hx4
      obtain ⟨⟨va, ha⟩, ⟨vb, hb⟩, ⟨vc, hc⟩, ⟨vd, hd⟩⟩ := hex4_parts hx4
      split at h
      · split at h
        · rename_i a2 b2 c2 d2 r3
          split at h
          · rename_i u2 hx42
            obtain ⟨⟨va2, ha2⟩, ⟨vb2, hb2⟩, ⟨vc2, hc2⟩, ⟨vd2, hd2⟩⟩ :=
              hex4_parts hx42
            split at h
            · rw [Option.some.injEq] at h
              subst h
              refine ⟨'u' :: a :: b :: c' :: dg :: '\\' :: 'u'
                :: a2 :: b2 :: c2 :: [d2], rfl, fun d => ?_⟩
              rw [runScan_cons, show embStep ⟨d, true, true⟩ 'u'
                = ⟨d, true, false⟩ from rfl]
              rw [runScan_cons, embStep_neutral rfl (hexV_neutral ha)]
              rw [runScan_cons, embStep_neutral rfl (hexV_neutral hb)]
              rw [runScan_cons, embStep_neutral rfl (hexV_neutral hc)]
              rw [runScan_cons, embStep_neutral rfl (hexV_neutral hd)]
              rw [runScan_cons, show embStep ⟨d, true, false⟩ '\\'
                = ⟨d, true, true⟩ from rfl]
              rw [runScan_cons, show embStep ⟨d, true, true⟩ 'u'
                = ⟨d, true, false⟩ from rfl]
              rw [runScan_cons, embStep_neutral rfl (hexV_neutral ha2)]
              rw [runScan_cons, embStep_neutral rfl (hexV_neutral hb2)]
              rw [runScan_cons, embStep_neutral rfl (hexV_neutral hc2)]
              rw [runScan_cons, embStep_neutral rfl (hexV_neutral hd2)]
              rfl
            · exact absurd h (by simp)
          · exact absurd h (by simp)
        · exact absurd h (by simp)
      · split at h
        · exact absurd h (by simp)
        · rw [Option.some.injEq] at h
          subst h
          refine ⟨'u' :: a :: b :: c' :: [dg], rfl, fun d => ?_⟩
          rw [runScan_cons, show embStep ⟨d, true, true⟩ 'u'
            = ⟨d, true, false⟩ from rfl]
          rw [runScan_cons, embStep_neutral rfl (hexV_neutral ha)]
          rw [runScan_cons, embStep_neutral rfl (hexV_neutral hb)]
          rw [runScan_cons, embStep_neutral rfl (hexV_neutral hc)]
          rw [runScan_cons, embStep_neutral rfl (hexV_neutral hd)]
          rfl
  · rename_i e r2 hne
    rcases hd : decodeEsc e with - | ch <;> rw [hd] at h
    · exact absurd h (by simp)
    · rw [Option.map_some', Option.some.injEq] at h
      subst h
      refine ⟨[e], rfl, fun d => ?_⟩
      rw [runScan_cons, show embStep ⟨d, true, true⟩ e = ⟨d, true, false⟩ from by
        rw [embStep]
        rfl]
      rfl
  · exact absurd h (by simp)

/-- Consumed part of a successful string-body scan: the scanner enters at
`inStr` and leaves at the closing quote. -/
theorem parseStrBody_scan : ∀ (fuel : Nat) (cs : List Char) (s rest : List Char),
    parseStrBodyF fuel cs = some (s, rest) →
    ∃ con, cs = con ++ rest ∧
      ∀ d : Int, runScan ⟨d, true, false⟩ con = ⟨d, false, false⟩ := by
  intro fuel
  induction fuel with
  | zero => intro cs s rest h; exact absurd h (by simp [parseStrBodyF])
  | succ fuel ih =>
      intro cs s rest h
      cases cs with
      | nil => exact absurd h (by simp [parseStrBodyF])
      | cons c r =>
          rw [show parseStrBodyF (fuel + 1) (c :: r)
            = (if c = '"' then some ([], r)
              else if c = '\\' then
                match escHead r with
                | some p => (parseStrBodyF fuel p.2).map
                    (fun q => (p.1 :: q.1, q.2))
                | none => none
              else if c.toNat < 0x20 then none
              else (parseStrBodyF fuel r).map (fun q => (c :: q.1, q.2)))
            from rfl] at h
          by_cases h1 : c = '"'
          · rw [if_pos h1] at h
            rw [Option.some.injEq] at h
            obtain ⟨hs, hrest⟩ := Prod.mk.inj h
            subst h1
            subst hrest
            exact ⟨['"'], rfl, fun d => rfl⟩
          · rw [if_neg h1] at h
            by_cases h2 : c = '\\'
            · rw [if_pos h2] at h
              rcases he : escHead r with - | p <;> rw [he] at h
              · exact absurd h (by simp)
              · have h' : Option.map (fun q => (p.1 :: q.1, q.2))
                    (parseStrBodyF fuel p.2) = some (s, rest) := h
                rcases hin : parseStrBodyF fuel p.2 with - | q <;>
                  rw [hin] at h'
                · exact absurd h' (by simp)
                · rw [Option.map_some', Option.some.injEq] at h'
                  have hrest : q.2 = rest := congrArg Prod.snd h'
                  obtain ⟨con2, hcon2, hsc2⟩ := ih p.2 q.1 q.2 (by
                    rw [hin])
                  obtain ⟨eaten, heat, hsce⟩ := escHead_consumed he
                  refine ⟨'\\' :: (eaten ++ con2), by
                    rw [h2, List.cons_append, List.append_assoc, ← hrest,
                      ← hcon2, ← heat], fun d => ?_⟩
                  rw [runScan_cons, show embStep ⟨d, true, false⟩ '\\'
                    = ⟨d, true, true⟩ from rfl, runScan_append, hsce,
                    hsc2 d]
            · rw [if_neg h2] at h
              by_cases h3 : c.toNat < 0x20
              · rw [if_pos h3] at h
                exact absurd h (by simp)
              · rw [if_neg h3] at h
                rcases hin : parseStrBodyF fuel r with - | q <;> rw [hin] at h
                · exact absurd h (by simp)
                · rw [Option.map_some', Option.some.injEq] at h
                  have hrest : q.2 = rest := congrArg Prod.snd h
                  clear h
                  obtain ⟨con2, hcon2, hsc2⟩ := ih r q.1 q.2 (by rw [hin])
                  refine ⟨c :: con2, by rw [List.cons_append, ← hrest, ← hcon2],
                    fun d => ?_⟩
                  rw [runScan_cons, show embStep ⟨d, true, false⟩ c
                    = ⟨d, true, false⟩ from by
                      rw [embStep]
                      show (if false = true then _
                        else if c = '\\' then _ else if c = '"' then _
                        else if true = true then _ else _) = _
                      rw [if_neg (by simp), if_neg h2, if_neg h1, if_pos rfl],
                    hsc2 d]

theorem jws_neutral {c : Char} (h : isJWs c = true) : neutralC c = true := by
  rw [isJWs, Bool.or_eq_true, Bool.or_eq_true, Bool.or_eq_true] at h
  simp only [decide_eq_true_eq] at h
  rcases h with ((h | h) | h) | h <;> subst h <;> decide

theorem skip_decomp (r : List Char) : r = r.takeWhile isJWs ++ skipJWs r :=
  (List.takeWhile_append_dropWhile isJWs r).symm

theorem takeWhile_jws_neutral (r : List Char) :
    ∀ c ∈ r.takeWhile isJWs, neutralC c = true := fun c hc =>
  jws_neutral (List.mem_takeWhile_imp hc)

theorem runScan_take_jws (st : ScanSt) (he : st.esc = false) (r : List Char) :
    runScan st (r.takeWhile isJWs) = st :=
  runScan_neutral he _ (takeWhile_jws_neutral r)

theorem headD_decomp {l : List Char} {b : Char} (h : l.headD ' ' = b)
    (hb : b ≠ ' ') : l = b :: l.tail := by
  cases l with
  | nil => exact absurd h.symm hb
  | cons x t =>
      rw [List.headD_cons] at h
      rw [h]
      rfl

theorem spanDigs_split : ∀ t : List Char,
    t = (spanDigs t).1 ++ (spanDigs t).2 ∧ ∀ c ∈ (spanDigs t).1, isDig c = true := by
  intro t
  induction t with
  | nil => exact ⟨rfl, by simp [spanDigs]⟩
  | cons c r ih =>
      by_cases h : isDig c = true
      · rw [show spanDigs (c :: r) = (c :: (spanDigs r).1, (spanDigs r).2) from by
          rw [spanDigs, if_pos h]]
        refine ⟨by rw [List.cons_append, ← ih.1], ?_⟩
        intro x hx
        rcases List.mem_cons.mp hx with rfl | hx
        · exact h
        · exact ih.2 x hx
      · rw [show spanDigs (c :: r) = ([], c :: r) from by
          rw [spanDigs, if_neg h]]
        exact ⟨rfl, by simp⟩

theorem parseIntPart_consumed {cs : List Char} {n : Nat} {rest : List Char}
    (h : parseIntPart cs = some (n, rest)) :
    ∃ con, cs = con ++ rest ∧ ∀ c ∈ con, neutralC c = true := by
  cases cs with
  | nil => exact absurd h (by simp [parseIntPart])
  | cons c t =>
      rw [parseIntPart] at h
      by_cases h0 : c = '0'
      · rw [if_pos h0, Option.some.injEq] at h
        obtain ⟨-, hrest⟩ := Prod.mk.inj h
        refine ⟨[c], by rw [hrest]; rfl, ?_⟩
        intro x hx
        rw [List.mem_singleton] at hx
        subst hx h0
        decide
      · rw [if_neg h0] at h
        by_cases hd : isDig c = true
        · rw [if_pos hd, Option.some.injEq] at h
          obtain ⟨-, hrest⟩ := Prod.mk.inj h
          refine ⟨c :: (spanDigs t).1, by
            rw [List.cons_append, ← hrest, ← (spanDigs_split t).1], ?_⟩
          intro x hx
          rcases List.mem_cons.mp hx with rfl | hx
          · exact isDig_neutral hd
          · exact isDig_neutral ((spanDigs_split t).2 x hx)
        · rw [if_neg hd] at h
          exact absurd h (by simp)

theorem parseNumPos_consumed {cs : List Char} {n : Nat} {rest : List Char}
    (h : parseNumPos cs = some (n, rest)) :
    ∃ con, cs = con ++ rest ∧ ∀ c ∈ con, neutralC c = true := by
  rw [parseNumPos] at h
  split at h
  · exact absurd h (by simp)
  · rename_i n0 rest0 heq
    split at h
    · exact absurd h (by simp)
    · rw [Option.some.injEq] at h
      obtain ⟨hn, hr⟩ := Prod.mk.inj h
      subst hn hr
      exact parseIntPart_consumed heq

theorem parseNum_consumed {cs : List Char} {n : Int} {rest : List Char}
    (h : parseNum cs = some (n, rest)) :
    ∃ con, cs = con ++ rest ∧ ∀ c ∈ con, neutralC c = true := by
  rw [parseNum.eq_def] at h
  split at h
  · rename_i t
    rcases hp : parseNumPos t with - | p <;> rw [hp] at h
    · exact absurd h (by simp)
    · rw [Option.map_some', Option.some.injEq] at h
      have hrest : p.2 = rest := congrArg Prod.snd h
      obtain ⟨con, hcon, hneu⟩ := parseNumPos_consumed (show parseNumPos t = some (p.1, p.2) by rw [hp])
      refine ⟨'-' :: con, by rw [List.cons_append, ← hrest, ← hcon], ?_⟩
      intro x hx
      rcases List.mem_cons.mp hx with rfl | hx
      · decide
      · exact hneu x hx
  · rcases hp : parseNumPos cs with - | p <;> rw [hp] at h
    · exact absurd h (by simp)
    · rw [Option.map_some', Option.some.injEq] at h
      have hrest : p.2 = rest := congrArg Prod.snd h
      obtain ⟨con, hcon, hneu⟩ := parseNumPos_consumed (show parseNumPos cs = some (p.1, p.2) by rw [hp])
      rw [hrest] at hcon
      exact ⟨con, hcon, hneu⟩

theorem litNull_consumed {r : List Char} {v : PyJson} {rest : List Char}
    (h : litNull r = some (v, rest)) :
    r = ['u', 'l', 'l'] ++ rest := by
  rw [litNull.eq_def] at h
  split at h
  · rw [Option.some.injEq] at h
    have := congrArg Prod.snd h
    simp only at this
    rw [this]
    rfl
  · exact absurd h (by simp)

theorem litTrue_consumed {r : List Char} {v : PyJson} {rest : List Char}
    (h : litTrue r = some (v, rest)) :
    r = ['r', 'u', 'e'] ++ rest := by
  rw [litTrue.eq_def] at h
  split at h
  · rw [Option.some.injEq] at h
    have := congrArg Prod.snd h
    simp only at this
    rw [this]
    rfl
  · exact absurd h (by simp)

theorem litFalse_consumed {r : List Char} {v : PyJson} {rest : List Char}
    (h : litFalse r = some (v, rest)) :
    r = ['a', 'l', 's', 'e'] ++ rest := by
  rw [litFalse.eq_def] at h
  split at h
  · rw [Option.some.injEq] at h
    have := congrArg Prod.snd h
    simp only at this
    rw [this]
    rfl
  · exact absurd h (by simp)

/-- Scanner effect of the consumed prefix of each parser production: a
value leaves the depth unchanged and ends outside any string, a member run
consumes the closing brace and lowers depth by one, an element run
consumes the closing bracket (scanner-neutral) and keeps the depth. -/
theorem parse_scan_triple : ∀ fuel : Nat,
    (∀ cs v rest, parseVal fuel cs = some (v, rest) →
      ∃ con, cs = con ++ rest ∧
        ∀ d : Int, runScan ⟨d, false, false⟩ con = ⟨d, false, false⟩) ∧
    (∀ cs ms rest, parseMembs fuel cs = some (ms, rest) →
      ∃ con, cs = con ++ rest ∧
        ∀ d : Int, runScan ⟨d, false, false⟩ con = ⟨d - 1, false, false⟩) ∧
    (∀ cs es rest, parseElems fuel cs = some (es, rest) →
      ∃ con, cs = con ++ rest ∧
        ∀ d : Int, runScan ⟨d, false, false⟩ con = ⟨d, false, false⟩) := by
  intro fuel
  induction fuel with
  | zero =>
      refine ⟨fun cs v rest h => ?_, fun cs ms rest h => ?_, fun cs es rest h => ?_⟩
      · rw [show parseVal 0 cs = none from rfl] at h
        exact absurd h (by simp)
      · rw [show parseMembs 0 cs = none from rfl] at h
        exact absurd h (by simp)
      · rw [show parseElems 0 cs = none from rfl] at h
        exact absurd h (by simp)
  | succ f ih =>
      obtain ⟨ihV, ihM, ihE⟩ := ih
      refine ⟨fun cs v rest h => ?_, fun cs ms rest h => ?_, fun cs es rest h => ?_⟩
      · cases cs with
        | nil =>
            rw [show parseVal (f + 1) [] = none from rfl] at h
            exact absurd h (by simp)
        | cons c r =>
            rw [parseVal_step] at h
            by_cases h1 : c = '"'
            · rw [if_pos h1] at h
              rcases hp : parseStrBody r with - | p <;> rw [hp] at h
              · exact absurd h (by simp)
              · rw [Option.map_some', Option.some.injEq] at h
                have hrest : p.2 = rest := congrArg Prod.snd h
                obtain ⟨con, hcon, hsc⟩ := parseStrBody_scan r.length r p.1 p.2 hp
                refine ⟨'"' :: con, ?_, fun d => ?_⟩
                · rw [h1, List.cons_append, ← hrest, ← hcon]
                · rw [runScan_cons, show embStep ⟨d, false, false⟩ '"'
                    = ⟨d, true, false⟩ from rfl]
                  exact hsc d
            · rw [if_neg h1] at h
              by_cases h2 : c = '{'
              · rw [if_pos h2] at h
                by_cases h3 : (skipJWs r).headD ' ' = '}'
                · rw [if_pos h3, Option.some.injEq] at h
                  have hrest : (skipJWs r).tail = rest := congrArg Prod.snd h
                  have hsk : skipJWs r = '}' :: (skipJWs r).tail :=
                    headD_decomp h3 (by decide)
                  refine ⟨'{' :: (r.takeWhile isJWs ++ ['}']), ?_, fun d => ?_⟩
                  · rw [h2, List.cons_append, List.append_assoc, ← hrest]
                    conv_lhs => rw [skip_decomp r, hsk]
                    simp only [List.cons_append, List.nil_append]
                  · rw [runScan_cons, show embStep ⟨d, false, false⟩ '{'
                      = ⟨d + 1, false, false⟩ from rfl, runScan_append,
                      runScan_take_jws ⟨d + 1, false, false⟩ rfl r,
                      show runScan ⟨d + 1, false, false⟩ ['}']
                        = ⟨d + 1 - 1, false, false⟩ from rfl, Int.add_sub_cancel]
                · rw [if_neg h3] at h
                  rcases hm : parseMembs f (skipJWs r) with - | p <;> rw [hm] at h
                  · exact absurd h (by simp)
                  · rw [Option.map_some', Option.some.injEq] at h
                    have hrest : p.2 = rest := congrArg Prod.snd h
                    obtain ⟨conM, hconM, hscM⟩ := ihM (skipJWs r) p.1 p.2 (by rw [hm])
                    refine ⟨'{' :: (r.takeWhile isJWs ++ conM), ?_, fun d => ?_⟩
                    · rw [h2, List.cons_append, List.append_assoc, ← hrest, ← hconM]
                      conv_lhs => rw [skip_decomp r]
                    · rw [runScan_cons, show embStep ⟨d, false, false⟩ '{'
                        = ⟨d + 1, false, false⟩ from rfl, runScan_append,
                        runScan_take_jws ⟨d + 1, false, false⟩ rfl r, hscM (d + 1),
                        Int.add_sub_cancel]
              · rw [if_neg h2] at h
                by_cases h4 : c = '['
                · rw [if_pos h4] at h
                  by_cases h5 : (skipJWs r).headD ' ' = ']'
                  · rw [if_pos h5, Option.some.injEq] at h
                    have hrest : (skipJWs r).tail = rest := congrArg Prod.snd h
                    have hsk : skipJWs r = ']' :: (skipJWs r).tail :=
                      headD_decomp h5 (by decide)
                    refine ⟨'[' :: (r.takeWhile isJWs ++ [']']), ?_, fun d => ?_⟩
                    · rw [h4, List.cons_append, List.append_assoc, ← hrest]
                      conv_lhs => rw [skip_decomp r, hsk]
                      simp only [List.cons_append, List.nil_append]
                    · rw [runScan_cons, show embStep ⟨d, false, false⟩ '['
                        = ⟨d, false, false⟩ from rfl, runScan_append,
                        runScan_take_jws ⟨d, false, false⟩ rfl r]
                      rfl
                  · rw [if_neg h5] at h
                    rcases he : parseElems f (skipJWs r) with - | p <;> rw [he] at h
                    · exact absurd h (by simp)
                    · rw [Option.map_some', Option.some.injEq] at h
                      have hrest : p.2 = rest := congrArg Prod.snd h
                      obtain ⟨conE, hconE, hscE⟩ := ihE (skipJWs r) p.1 p.2 (by rw [he])
                      refine ⟨'[' :: (r.takeWhile isJWs ++ conE), ?_, fun d => ?_⟩
                      · rw [h4, List.cons_append, List.append_assoc, ← hrest, ← hconE]
                        conv_lhs => rw [skip_decomp r]
                      · rw [runScan_cons, show embStep ⟨d, false, false⟩ '['
                          = ⟨d, false, false⟩ from rfl, runScan_append,
                          runScan_take_jws ⟨d, false, false⟩ rfl r]
                        exact hscE d
                · rw [if_neg h4] at h
                  by_cases h5 : c = 'n'
                  · rw [if_pos h5] at h
                    have hr := litNull_consumed h
                    refine ⟨['n', 'u', 'l', 'l'], ?_, fun d => ?_⟩
                    · rw [h5, hr]
                      rfl
                    · exact runScan_neutral rfl _ (by decide)
                  · rw [if_neg h5] at h
                    by_cases h6 : c = 't'
                    · rw [if_pos h6] at h
                      have hr := litTrue_consumed h
                      refine ⟨['t', 'r', 'u', 'e'], ?_, fun d => ?_⟩
                      · rw [h6, hr]
                        rfl
                      · exact runScan_neutral rfl _ (by decide)
                    · rw [if_neg h6] at h
                      by_cases h7 : c = 'f'
                      · rw [if_pos h7] at h
                        have hr := litFalse_consumed h
                        refine ⟨['f', 'a', 'l', 's', 'e'], ?_, fun d => ?_⟩
                        · rw [h7, hr]
                          rfl
                        · exact runScan_neutral rfl _ (by decide)
                      · rw [if_neg h7] at h
                        rcases hn : parseNum (c :: r) with - | p <;> rw [hn] at h
                        · exact absurd h (by simp)
                        · rw [Option.map_some', Option.some.injEq] at h
                          have hrest : p.2 = rest := congrArg Prod.snd h
                          obtain ⟨con, hcon, hneu⟩ := parseNum_consumed
                            (show parseNum (c :: r) = some (p.1, p.2) from by rw [hn])
                          refine ⟨con, by rw [← hrest]; exact hcon, fun d => ?_⟩
                          exact runScan_neutral rfl con hneu
      · cases cs with
        | nil =>
            rw [show parseMembs (f + 1) [] = none from rfl] at h
            exact absurd h (by simp)
        | cons c r =>
            rw [parseMembs_step] at h
            by_cases h1 : c = '"'
            · rw [if_pos h1] at h
              rcases hk : parseStrBody r with - | kp <;> rw [hk] at h
              · exact absurd h (by simp)
              · simp only [Option.some_bind] at h
                by_cases h2 : (skipJWs kp.2).headD ' ' = ':'
                · rw [if_pos h2] at h
                  rcases hv : parseVal f (skipJWs (skipJWs kp.2).tail) with - | vp <;>
                    rw [hv] at h
                  · exact absurd h (by simp)
                  · simp only [Option.some_bind] at h
                    by_cases h3 : (skipJWs vp.2).headD ' ' = ','
                    · rw [if_pos h3] at h
                      rcases hm : parseMembs f (skipJWs (skipJWs vp.2).tail)
                        with - | p <;> rw [hm] at h
                      · exact absurd h (by simp)
                      · rw [Option.map_some', Option.some.injEq] at h
                        have hrest : p.2 = rest := congrArg Prod.snd h
                        obtain ⟨conK, hconK, hscK⟩ :=
                          parseStrBody_scan r.length r kp.1 kp.2 hk
                        have e2 : skipJWs kp.2 = ':' :: (skipJWs kp.2).tail :=
                          headD_decomp h2 (by decide)
                        obtain ⟨conV, hconV, hscV⟩ := ihV _ vp.1 vp.2 (by rw [hv])
                        have e3 : skipJWs vp.2 = ',' :: (skipJWs vp.2).tail :=
                          headD_decomp h3 (by decide)
                        obtain ⟨conM, hconM, hscM⟩ := ihM _ p.1 p.2 (by rw [hm])
                        refine ⟨'"' :: (conK ++ (kp.2.takeWhile isJWs ++ ':' ::
                          ((skipJWs kp.2).tail.takeWhile isJWs ++ (conV ++
                          (vp.2.takeWhile isJWs ++ ',' ::
                          ((skipJWs vp.2).tail.takeWhile isJWs ++ conM)))))), ?_,
                          fun d => ?_⟩
                        · rw [h1, ← hrest]
                          conv_lhs => rw [hconK, skip_decomp kp.2, e2,
                            skip_decomp (skipJWs kp.2).tail, hconV,
                            skip_decomp vp.2, e3,
                            skip_decomp (skipJWs vp.2).tail, hconM]
                          simp only [List.cons_append, List.append_assoc,
                            List.nil_append]
                        · rw [runScan_cons, show embStep ⟨d, false, false⟩ '"'
                            = ⟨d, true, false⟩ from rfl,
                            runScan_append, hscK d,
                            runScan_append,
                            runScan_take_jws ⟨d, false, false⟩ rfl kp.2,
                            runScan_cons, show embStep ⟨d, false, false⟩ ':'
                            = ⟨d, false, false⟩ from rfl,
                            runScan_append,
                            runScan_take_jws ⟨d, false, false⟩ rfl
                              (skipJWs kp.2).tail,
                            runScan_append, hscV d,
                            runScan_append,
                            runScan_take_jws ⟨d, false, false⟩ rfl vp.2,
                            runScan_cons, show embStep ⟨d, false, false⟩ ','
                            = ⟨d, false, false⟩ from rfl,
                            runScan_append,
                            runScan_take_jws ⟨d, false, false⟩ rfl
                              (skipJWs vp.2).tail]
                          exact hscM d
                    · rw [if_neg h3] at h
                      by_cases h4 : (skipJWs vp.2).headD ' ' = '}'
                      · rw [if_pos h4, Option.some.injEq] at h
                        have hrest : (skipJWs vp.2).tail = rest :=
                          congrArg Prod.snd h
                        obtain ⟨conK, hconK, hscK⟩ :=
                          parseStrBody_scan r.length r kp.1 kp.2 hk
                        have e2 : skipJWs kp.2 = ':' :: (skipJWs kp.2).tail :=
                          headD_decomp h2 (by decide)
                        obtain ⟨conV, hconV, hscV⟩ := ihV _ vp.1 vp.2 (by rw [hv])
                        have e3 : skipJWs vp.2 = '}' :: (skipJWs vp.2).tail :=
                          headD_decomp h4 (by decide)
                        refine ⟨'"' :: (conK ++ (kp.2.takeWhile isJWs ++ ':' ::
                          ((skipJWs kp.2).tail.takeWhile isJWs ++ (conV ++
                          (vp.2.takeWhile isJWs ++ ['}']))))), ?_, fun d => ?_⟩
                        · rw [h1, ← hrest]
                          conv_lhs => rw [hconK, skip_decomp kp.2, e2,
                            skip_decomp (skipJWs kp.2).tail, hconV,
                            skip_decomp vp.2, e3]
                          simp only [List.cons_append, List.append_assoc,
                            List.nil_append]
                        · rw [runScan_cons, show embStep ⟨d, false, false⟩ '"'
                            = ⟨d, true, false⟩ from rfl,
                            runScan_append, hscK d,
                            runScan_append,
                            runScan_take_jws ⟨d, false, false⟩ rfl kp.2,
                            runScan_cons, show embStep ⟨d, false, false⟩ ':'
                            = ⟨d, false, false⟩ from rfl,
                            runScan_append,
                            runScan_take_jws ⟨d, false, false⟩ rfl
                              (skipJWs kp.2).tail,
                            runScan_append, hscV d,
                            runScan_append,
                            runScan_take_jws ⟨d, false, false⟩ rfl vp.2]
                          rfl
                      · rw [if_neg h4] at h
                        exact absurd h (by simp)
                · rw [if_neg h2] at h
                  exact absurd h (by simp)
            · rw [if_neg h1] at h
              exact absurd h (by simp)
      · rw [parseElems_step] at h
        rcases hv : parseVal f cs with - | vp <;> rw [hv] at h
        · exact absurd h (by simp)
        · simp only [Option.some_bind] at h
          obtain ⟨conV, hconV, hscV⟩ := ihV cs vp.1 vp.2 (by rw [hv])
          by_cases h1 : (skipJWs vp.2).headD ' ' = ','
          · rw [if_pos h1] at h
            rcases he2 : parseElems f (skipJWs (skipJWs vp.2).tail)
              with - | p <;> rw [he2] at h
            · exact absurd h (by simp)
            · rw [Option.map_some', Option.some.injEq] at h
              have hrest : p.2 = rest := congrArg Prod.snd h
              have e1 : skipJWs vp.2 = ',' :: (skipJWs vp.2).tail :=
                headD_decomp h1 (by decide)
              obtain ⟨conE, hconE, hscE⟩ := ihE _ p.1 p.2 (by rw [he2])
              refine ⟨conV ++ (vp.2.takeWhile isJWs ++ ',' ::
                ((skipJWs vp.2).tail.takeWhile isJWs ++ conE)), ?_, fun d => ?_⟩
              · rw [← hrest]
                conv_lhs => rw [hconV, skip_decomp vp.2, e1,
                  skip_decomp (skipJWs vp.2).tail, hconE]
                simp only [List.cons_append, List.append_assoc, List.nil_append]
              · rw [runScan_append, hscV d,
                  runScan_append, runScan_take_jws ⟨d, false, false⟩ rfl vp.2,
                  runScan_cons, show embStep ⟨d, false, false⟩ ','
                  = ⟨d, false, false⟩ from rfl,
                  runScan_append,
                  runScan_take_jws ⟨d, false, false⟩ rfl (skipJWs vp.2).tail]
                exact hscE d
          · rw [if_neg h1] at h
            by_cases h2 : (skipJWs vp.2).headD ' ' = ']'
            · rw [if_pos h2, Option.some.injEq] at h
              have hrest : (skipJWs vp.2).tail = rest := congrArg Prod.snd h
              have e1 : skipJWs vp.2 = ']' :: (skipJWs vp.2).tail :=
                headD_decomp h2 (by decide)
              refine ⟨conV ++ (vp.2.takeWhile isJWs ++ [']']), ?_, fun d => ?_⟩
              · rw [← hrest]
                conv_lhs => rw [hconV, skip_decomp vp.2, e1]
                simp only [List.cons_append, List.append_assoc, List.nil_append]
              · rw [runScan_append, hscV d,
                  runScan_append, runScan_take_jws ⟨d, false, false⟩ rfl vp.2]
                rfl
            · rw [if_neg h2] at h
              exact absurd h (by simp)

/-- A successful `json.loads` leaves the brace scanner in its initial state:
everything consumed balances and no string stays open. -/
theorem jsonLoadsL_scan {cs : List Char} {v : PyJson}
    (h : jsonLoadsL cs = some v) :
    runScan ⟨0, false, false⟩ cs = ⟨0, false, false⟩ := by
  rw [jsonLoadsL] at h
  split at h
  · rename_i v2 rest heq
    split at h
    · rename_i hws
      obtain ⟨con, hcon, hsc⟩ := (parse_scan_triple (cs.length + 1)).1 _ v2 rest heq
      have hrest : ∀ c ∈ rest, isJWs c = true :=
        List.dropWhile_eq_nil_iff.mp (List.isEmpty_iff.mp hws)
      conv_lhs => rw [skip_decomp cs, hcon]
      rw [runScan_append, runScan_take_jws ⟨0, false, false⟩ rfl cs,
        runScan_append, hsc 0]
      exact runScan_neutral rfl rest (fun c hc => jws_neutral (hrest c hc))
    · exact absurd h (by simp)
  · exact absurd h (by simp)

theorem pyWs_neutral {c : Char} (h : pyWs c = true) : neutralC c = true := by
  rw [pyWs, Bool.or_eq_true, Bool.or_eq_true, Bool.or_eq_true, Bool.or_eq_true,
    Bool.or_eq_true] at h
  simp only [decide_eq_true_eq] at h
  rcases h with ((((h | h) | h) | h) | h) | h <;> subst h <;> decide

/-- `str.strip` removes an all-whitespace prefix and suffix. -/
theorem pyStrip_decomp (l : List Char) :
    ∃ pre suf, l = pre ++ (pyStripL l ++ suf) ∧
      (∀ c ∈ pre, pyWs c = true) ∧ (∀ c ∈ suf, pyWs c = true) := by
  refine ⟨l.takeWhile pyWs, ((l.dropWhile pyWs).reverse.takeWhile pyWs).reverse,
    ?_, fun c hc => List.mem_takeWhile_imp hc,
    fun c hc => List.mem_takeWhile_imp (List.mem_reverse.mp hc)⟩
  have key : l.dropWhile pyWs = pyStripL l
      ++ ((l.dropWhile pyWs).reverse.takeWhile pyWs).reverse := by
    rw [pyStripL]
    conv_lhs => rw [← List.reverse_reverse (l.dropWhile pyWs)]
    rw [show ((l.dropWhile pyWs).reverse).reverse
      = ((l.dropWhile pyWs).reverse.takeWhile pyWs
        ++ (l.dropWhile pyWs).reverse.dropWhile pyWs).reverse from by
        rw [List.takeWhile_append_dropWhile]]
    rw [List.reverse_append]
  conv_lhs => rw [← List.takeWhile_append_dropWhile pyWs l, key]

/-- Stripping does not change whether the scanner ends inside a string. -/
theorem runScan_inStr_strip (l : List Char) :
    (runScan ⟨0, false, false⟩ (pyStripL l)).inStr
      = (runScan ⟨0, false, false⟩ l).inStr := by
  obtain ⟨pre, suf, hdec, hpre, hsuf⟩ := pyStrip_decomp l
  conv_rhs => rw [hdec]
  rw [runScan_append, runScan_append,
    runScan_neutral rfl pre (fun c hc => pyWs_neutral (hpre c hc)),
    runScan_inStr_ws suf hsuf]

/-- A text whose scan ends inside a string literal cannot parse, even after
stripping and with the method-1 leading newline. -/
theorem loads_strip_prefix_lt {P : List Char}
    (hin : (runScan ⟨0, false, false⟩ P).inStr = true) :
    jsonLoadsL (pyStripL ('\n' :: P)) = none := by
  rcases hload : jsonLoadsL (pyStripL ('\n' :: P)) with - | v
  · rfl
  · exfalso
    have h1 := jsonLoadsL_scan hload
    have h2 := runScan_inStr_strip ('\n' :: P)
    rw [h1, runScan_cons,
      show embStep ⟨0, false, false⟩ '\n' = ⟨0, false, false⟩ from rfl,
      hin] at h2
    exact absurd h2 (by decide)

/-- `json.loads` rejects input whose first significant character is `<`. -/
theorem jsonLoadsL_lt_head (rest : List Char) :
    jsonLoadsL ('<' :: rest) = none := by
  have hv : parseVal (('<' :: rest).length + 1) ('<' :: rest) = none := by
    rw [show ('<' :: rest).length + 1 = (rest.length + 1) + 1 from by simp,
      parseVal_default (rest.length + 1) '<' rest (by decide) (by decide)
        (by decide) (by decide) (by decide) (by decide),
      show parseNum ('<' :: rest) = (parseNumPos ('<' :: rest)).map
        (fun p => ((p.1 : Int), p.2)) from by
          rw [parseNum.eq_def]
          split
          · rename_i heq
            exact absurd (List.cons.inj heq).1 (by decide)
          · rfl,
      show parseNumPos ('<' :: rest) = none from by
        rw [parseNumPos, show parseIntPart ('<' :: rest) = none from by
          rw [parseIntPart, if_neg (by decide), if_neg (by decide)]]]
    rfl
  rw [jsonLoadsL, show skipJWs ('<' :: rest) = '<' :: rest from
    skipJWs_cons_notWs (by decide), hv]

/-- A character acceptable immediately before a newline for the markdown
patterns never to fire: not whitespace (kills the `\s*` continuation), not
the final letter of a backtick fence literal. -/
def okNlB (a : Char) : Bool := !pyWs a && a != 'n' && a != '`'

/-- Every newline in the list, except possibly one at the very front, is
immediately preceded by an `okNlB` character. -/
def NlPredIn (l : List Char) : Prop :=
  ∀ p q, l = p ++ '\n' :: q → p = [] ∨ ∃ p2 a, p = p2 ++ [a] ∧ okNlB a = true

theorem nlPredIn_no_nl {l : List Char} (h : '\n' ∉ l) : NlPredIn l := by
  intro p q hl
  exact absurd (by rw [hl]; exact List.mem_append.mpr (Or.inr (by simp))) h

theorem nlPredIn_append {X Y : List Char} (hX : NlPredIn X) (hY : NlPredIn Y)
    (hbd : (∃ q2, Y = '\n' :: q2) → ∃ X2 a, X = X2 ++ [a] ∧ okNlB a = true) :
    NlPredIn (X ++ Y) := by
  intro p q h
  rcases append_split_cases h with ⟨qs, h1, -⟩ | ⟨p2, h1, h2⟩
  · exact hX p qs h1
  · cases p2 with
    | nil =>
        obtain ⟨X2, a, hXa, hok⟩ := hbd ⟨q, h2⟩
        right
        exact ⟨X2, a, by rw [h1, List.append_nil, hXa], hok⟩
    | cons c p3 =>
        rcases hY (c :: p3) q h2 with hnil | ⟨p4, a, hP, hok⟩
        · exact absurd hnil (by simp)
        · right
          exact ⟨X ++ p4, a, by rw [h1, hP, List.append_assoc], hok⟩

theorem nlPredIn_cons {c : Char} {l : List Char} (hY : NlPredIn l)
    (hbd : (∃ q2, l = '\n' :: q2) → okNlB c = true) :
    NlPredIn (c :: l) := by
  intro p q h
  cases p with
  | nil => exact Or.inl rfl
  | cons c2 p2 =>
      rw [List.cons_append] at h
      obtain ⟨hc, hl⟩ := List.cons.inj h
      subst hc
      rcases hY p2 q hl with rfl | ⟨p3, a, hP, hok⟩
      · right
        exact ⟨[], c, rfl, hbd ⟨q, hl⟩⟩
      · right
        exact ⟨c :: p3, a, by rw [hP]; rfl, hok⟩

theorem cons_not_nl {c : Char} {t : List Char} {C : Prop} (hc : c ≠ '\n') :
    (∃ q2, c :: t = '\n' :: q2) → C := by
  rintro ⟨q2, hq⟩
  exact absurd (List.cons.inj hq).1 hc

theorem head_not_nl {X R : List Char} {c : Char} {t : List Char} {C : Prop}
    (hX : X = c :: t) (hc : c ≠ '\n') :
    (∃ q2, X ++ R = '\n' :: q2) → C := by
  rintro ⟨q2, hq⟩
  rw [hX, List.cons_append] at hq
  exact absurd (List.cons.inj hq).1 hc

theorem dump_not_nl {ind : Nat} {j : PyJson} {R : List Char} {C : Prop} :
    (∃ q2, dumpJ ind j ++ R = '\n' :: q2) → C := by
  rintro ⟨q2, hq⟩
  obtain ⟨c, t, hct, hws, -, -, -⟩ := dumpJ_head ind j
  rw [hct, List.cons_append] at hq
  have hc := (List.cons.inj hq).1
  subst hc
  exact absurd hws (by decide)

theorem nlPredIn_nlInd (k : Nat) : NlPredIn (nlInd k) := by
  rw [nlInd]
  refine nlPredIn_cons (nlPredIn_no_nl ?_) ?_
  · intro hm
    exact absurd (List.eq_of_mem_replicate hm) (by decide)
  · rintro ⟨q2, hq⟩
    have : '\n' ∈ List.replicate k ' ' := by rw [hq]; simp
    exact absurd (List.eq_of_mem_replicate this) (by decide)

theorem hexDig_ne_nl : ∀ n : Nat, n < 16 → hexDig n ≠ '\n' := by decide

theorem nl_not_mem_escChar (c : Char) : '\n' ∉ escChar c := by
  rw [escChar]
  repeat' split
  case _ | _ | _ | _ | _ | _ | _ => decide
  · intro hm
    have hlt : ∀ k : Nat, k % 16 < 16 := fun k => Nat.mod_lt _ (by omega)
    simp only [List.mem_cons, List.not_mem_nil, or_false] at hm
    rcases hm with h | h | h | h | h | h
    · exact absurd h (by decide)
    · exact absurd h (by decide)
    · exact hexDig_ne_nl _ (hlt _) h.symm
    · exact hexDig_ne_nl _ (hlt _) h.symm
    · exact hexDig_ne_nl _ (hlt _) h.symm
    · exact hexDig_ne_nl _ (hlt _) h.symm
  · intro hm
    rename_i h1 h2 h3 h4 h5 h6 h7 h8
    rw [List.mem_singleton] at hm
    subst hm
    exact h8 (by decide)

theorem nl_not_mem_strLit (s : String) : '\n' ∉ strLit s := by
  rw [strLit]
  intro hm
  rcases List.mem_cons.mp hm with h | h
  · exact absurd h (by decide)
  rcases List.mem_append.mp h with h | h
  · rw [escStr] at h
    obtain ⟨c, -, hc⟩ := List.mem_flatMap.mp h
    exact nl_not_mem_escChar c hc
  · rw [List.mem_singleton] at h
    exact absurd h (by decide)

theorem nl_not_mem_intChars (i : Int) : '\n' ∉ intChars i := by
  intro hm
  rw [intChars] at hm
  rcases List.mem_append.mp hm with h | h
  · split at h
    · rw [List.mem_singleton] at h
      exact absurd h (by decide)
    · simp at h
  · exact absurd (natDigs_all_dig _ _ h) (by decide)

theorem okNl_of_dig {c : Char} (h : isDig c = true) : okNlB c = true := by
  simp only [isDig, Bool.and_eq_true, decide_eq_true_eq] at h
  have hne : ∀ x : Char, ¬(48 ≤ x.toNat ∧ x.toNat ≤ 57) → c ≠ x :=
    fun x hx heq => hx (heq ▸ h)
  rw [okNlB]
  simp only [Bool.and_eq_true, bne_iff_ne, Bool.not_eq_true']
  refine ⟨⟨?_, hne 'n' (by decide)⟩, hne '`' (by decide)⟩
  rw [pyWs]
  simp only [Bool.or_eq_false_iff, decide_eq_false_iff_not]
  exact ⟨⟨⟨⟨⟨hne ' ' (by decide), hne '\t' (by decide)⟩, hne '\n' (by decide)⟩,
    hne '\r' (by decide)⟩, hne '\x0b' (by decide)⟩, hne '\x0c' (by decide)⟩

theorem okNl_of_valEnd {c : Char} (h : isValEnd c = true) : okNlB c = true := by
  rw [isValEnd] at h
  simp only [Bool.or_eq_true, decide_eq_true_eq] at h
  rcases h with ((((h | h) | h) | h) | h) | h
  · subst h; decide
  · subst h; decide
  · subst h; decide
  · subst h; decide
  · subst h; decide
  · exact okNl_of_dig h

mutual
/-- In serializer output every newline is preceded by a non-whitespace
character that is not a fence-literal terminator. -/
theorem nlPredIn_dump : ∀ (j : PyJson) (ind : Nat), NlPredIn (dumpJ ind j)
  | .null, ind => nlPredIn_no_nl
      (show '\n' ∉ (['n', 'u', 'l', 'l'] : List Char) by decide)
  | .bool true, ind => nlPredIn_no_nl
      (show '\n' ∉ (['t', 'r', 'u', 'e'] : List Char) by decide)
  | .bool false, ind => nlPredIn_no_nl
      (show '\n' ∉ (['f', 'a', 'l', 's', 'e'] : List Char) by decide)
  | .num n, ind => nlPredIn_no_nl (nl_not_mem_intChars n)
  | .str s, ind => nlPredIn_no_nl (nl_not_mem_strLit s)
  | .arr [], ind => nlPredIn_no_nl
      (show '\n' ∉ (['[', ']'] : List Char) by decide)
  | .arr (x :: xs), ind => by
      rw [show dumpJ ind (.arr (x :: xs)) = '[' :: (nlInd (ind + 2)
        ++ (dumpJ (ind + 2) x ++ (dumpItems (ind + 2) xs
        ++ (nlInd ind ++ [']'])))) from by
        rw [show dumpJ ind (.arr (x :: xs)) = '[' :: (nlInd (ind + 2)
          ++ dumpJ (ind + 2) x ++ dumpItems (ind + 2) xs ++ nlInd ind
          ++ [']']) from rfl]
        simp [List.append_assoc]]
      refine nlPredIn_cons ?_ (fun _ => by decide)
      refine nlPredIn_append (nlPredIn_nlInd (ind + 2)) ?_ dump_not_nl
      refine nlPredIn_append (nlPredIn_dump x (ind + 2))
        (nlPredIn_items xs (ind + 2) (nlInd ind ++ [']']) ?_) (fun _ => ?_)
      · exact nlPredIn_append (nlPredIn_nlInd ind) (nlPredIn_no_nl (by decide))
          (cons_not_nl (by decide))
      · obtain ⟨p, c, hx, hv⟩ := dumpJ_last (ind + 2) x
        exact ⟨p, c, hx, okNl_of_valEnd hv⟩
  | .obj [], ind => nlPredIn_no_nl
      (show '\n' ∉ (['\x7b', '\x7d'] : List Char) by decide)
  | .obj (kv :: kvs), ind => by
      rw [show dumpJ ind (.obj (kv :: kvs)) = '{' :: (nlInd (ind + 2)
        ++ (strLit kv.1 ++ (':' :: ' ' :: (dumpJ (ind + 2) kv.2
        ++ (dumpMembers (ind + 2) kvs ++ (nlInd ind ++ ['}'])))))) from by
        rw [show dumpJ ind (.obj (kv :: kvs)) = '{' :: (nlInd (ind + 2)
          ++ strLit kv.1 ++ ':' :: ' ' :: dumpJ (ind + 2) kv.2
          ++ dumpMembers (ind + 2) kvs ++ nlInd ind ++ ['}']) from rfl]
        simp [List.append_assoc]]
      refine nlPredIn_cons ?_ (fun _ => by decide)
      refine nlPredIn_append (nlPredIn_nlInd (ind + 2)) ?_
        (head_not_nl rfl (by decide))
      refine nlPredIn_append (nlPredIn_no_nl (nl_not_mem_strLit kv.1)) ?_
        (cons_not_nl (by decide))
      refine nlPredIn_cons ?_ (cons_not_nl (by decide))
      refine nlPredIn_cons ?_ dump_not_nl
      refine nlPredIn_append (nlPredIn_dump kv.2 (ind + 2))
        (nlPredIn_membs kvs (ind + 2) (nlInd ind ++ ['}']) ?_) (fun _ => ?_)
      · exact nlPredIn_append (nlPredIn_nlInd ind) (nlPredIn_no_nl (by decide))
          (cons_not_nl (by decide))
      · obtain ⟨p, c, hx, hv⟩ := dumpJ_last (ind + 2) kv.2
        exact ⟨p, c, hx, okNl_of_valEnd hv⟩
  termination_by j _ => jweight j
  decreasing_by
    all_goals simp_wf
    all_goals simp [jweight, lweight, mweight]
    all_goals omega

theorem nlPredIn_items : ∀ (xs : List PyJson) (ind : Nat) (R : List Char),
    NlPredIn R → NlPredIn (dumpItems ind xs ++ R)
  | [], ind, R => fun hR => by
      rw [show dumpItems ind ([] : List PyJson) = [] from rfl, List.nil_append]
      exact hR
  | x :: xs, ind, R => fun hR => by
      rw [show dumpItems ind (x :: xs) ++ R = ',' :: (nlInd ind ++ (dumpJ ind x
        ++ (dumpItems ind xs ++ R))) from by
        rw [show dumpItems ind (x :: xs) = ',' :: (nlInd ind ++ dumpJ ind x
          ++ dumpItems ind xs) from rfl]
        simp [List.append_assoc]]
      refine nlPredIn_cons ?_ (fun _ => by decide)
      refine nlPredIn_append (nlPredIn_nlInd ind) ?_ dump_not_nl
      refine nlPredIn_append (nlPredIn_dump x ind) (nlPredIn_items xs ind R hR)
        (fun _ => ?_)
      obtain ⟨p, c, hx, hv⟩ := dumpJ_last ind x
      exact ⟨p, c, hx, okNl_of_valEnd hv⟩
  termination_by xs _ _ => lweight xs + 1
  decreasing_by
    all_goals simp_wf
    all_goals simp [jweight, lweight, mweight]
    all_goals omega

theorem nlPredIn_membs : ∀ (kvs : List (String × PyJson)) (ind : Nat)
    (R : List Char), NlPredIn R → NlPredIn (dumpMembers ind kvs ++ R)
  | [], ind, R => fun hR => by
      rw [show dumpMembers ind ([] : List (String × PyJson)) = [] from rfl,
        List.nil_append]
      exact hR
  | kv :: kvs, ind, R => fun hR => by
      rw [show dumpMembers ind (kv :: kvs) ++ R = ',' :: (nlInd ind
        ++ (strLit kv.1 ++ (':' :: ' ' :: (dumpJ ind kv.2
        ++ (dumpMembers ind kvs ++ R))))) from by
        rw [show dumpMembers ind (kv :: kvs) = ',' :: (nlInd ind ++ strLit kv.1
          ++ ':' :: ' ' :: dumpJ ind kv.2 ++ dumpMembers ind kvs) from rfl]
        simp [List.append_assoc]]
      refine nlPredIn_cons ?_ (fun _ => by decide)
      refine nlPredIn_append (nlPredIn_nlInd ind) ?_
        (head_not_nl rfl (by decide))
      refine nlPredIn_append (nlPredIn_no_nl (nl_not_mem_strLit kv.1)) ?_
        (cons_not_nl (by decide))
      refine nlPredIn_cons ?_ (cons_not_nl (by decide))
      refine nlPredIn_cons ?_ dump_not_nl
      refine nlPredIn_append (nlPredIn_dump kv.2 ind)
        (nlPredIn_membs kvs ind R hR) (fun _ => ?_)
      obtain ⟨p, c, hx, hv⟩ := dumpJ_last ind kv.2
      exact ⟨p, c, hx, okNl_of_valEnd hv⟩
  termination_by kvs _ _ => mweight kvs + 1
  decreasing_by
    all_goals simp_wf
    all_goals simp [jweight, lweight, mweight]
    all_goals omega
end

theorem take_succ_getElem {B : List Char} {j : Nat} (h : j < B.length) :
    B.take (j + 1) = B.take j ++ [B[j]] := by
  rw [List.take_succ]
  congr 1
  rw [List.getElem?_eq_getElem h]
  rfl

theorem mdTryJ_none (body : List Char) : ∀ k : Nat,
    (∀ j, j ≤ k → mdGroupAt j body = none) → mdTryJ k body = none := by
  intro k
  induction k with
  | zero =>
      intro h
      exact h 0 (Nat.le_refl 0)
  | succ k ih =>
      intro h
      show (match mdGroupAt (k + 1) body with
        | some g => some g
        | none => mdTryJ k body) = none
      rw [h (k + 1) (Nat.le_refl _)]
      exact ih (fun j hj => h j (Nat.le_succ_of_le hj))

/-- Neither markdown pattern can match anywhere in a text whose newlines all
follow an `okNlB` character: the mandatory `\s*\n` after the fence literal
would need a newline preceded by whitespace or by the final literal
character. -/
theorem mdMatchHere_none {lit T s u : List Char}
    (hT : ∀ p q, T = p ++ '\n' :: q → ∃ p2 a, p = p2 ++ [a] ∧ okNlB a = true)
    (hTs : T = u ++ s)
    (hlit : ∃ l0 lc, lit = l0 ++ [lc] ∧ (lc = 'n' ∨ lc = '`')) :
    mdMatchHere lit s = none := by
  rw [mdMatchHere]
  by_cases hpf : lit.isPrefixOf s
  case neg => rw [if_neg hpf]
  rw [if_pos hpf]
  obtain ⟨t, ht⟩ := List.isPrefixOf_iff_prefix.mp hpf
  set B := s.drop lit.length with hB
  have hsB : s = lit ++ B := by
    rw [hB, ← ht, List.drop_left]
  split
  · rfl
  · rename_i k hrun
    refine mdTryJ_none B k (fun j hj => ?_)
    rw [mdGroupAt]
    by_cases hg : B.getD j ' ' = '\n'
    case neg => rw [if_neg hg]
    exfalso
    have hjlen : j < B.length := by
      by_contra hge
      rw [List.getD_eq_default B ' ' (Nat.le_of_not_lt hge)] at hg
      exact absurd hg (by decide)
    have hBj : B[j] = '\n' := by
      rw [← List.getD_eq_getElem B ' ' hjlen]
      exact hg
    have hBsplit : B = B.take j ++ '\n' :: B.drop (j + 1) := by
      conv_lhs => rw [← List.take_append_drop j B]
      rw [List.drop_eq_getElem_cons hjlen, hBj]
    have hTsplit : T = (u ++ (lit ++ B.take j)) ++ '\n' :: B.drop (j + 1) := by
      rw [hTs, hsB]
      conv_lhs => rw [hBsplit]
      simp [List.append_assoc]
    obtain ⟨p2, a, hpa, hok⟩ := hT _ _ hTsplit
    have h1 := congrArg List.getLast? hpa
    rw [List.getLast?_concat] at h1
    obtain ⟨l0, lc, hl1, hl2⟩ := hlit
    have hWne : lit ++ B.take j ≠ [] := by
      rw [hl1]
      simp
    rw [List.getLast?_append_of_ne_nil u hWne] at h1
    cases j with
    | zero =>
        rw [List.take_zero, List.append_nil, hl1, List.getLast?_concat] at h1
        have ha : lc = a := Option.some.inj h1
        rcases hl2 with rfl | rfl
        · rw [← ha] at hok
          exact absurd hok (by decide)
        · rw [← ha] at hok
          exact absurd hok (by decide)
    | succ j2 =>
        have hj2len : j2 < B.length := Nat.lt_of_succ_lt hjlen
        have htne : B.take (j2 + 1) ≠ [] := by
          apply List.ne_nil_of_length_pos
          rw [List.length_take]
          omega
        rw [List.getLast?_append_of_ne_nil lit htne, take_succ_getElem hj2len,
          List.getLast?_concat] at h1
        have ha : B[j2] = a := Option.some.inj h1
        have hj2run : j2 < (B.takeWhile pyWs).length := by
          rw [hrun]
          omega
        have hpw : pyWs B[j2] = true := by
          rw [show B[j2] = (B.takeWhile pyWs)[j2] from
            (List.IsPrefix.getElem ( List.takeWhile_prefix pyWs) hj2run).symm]
          exact List.mem_takeWhile_imp (List.getElem_mem hj2run)
        rw [ha] at hpw
        rw [okNlB, hpw] at hok
        simp at hok

theorem mdSearchA_none {lit T : List Char}
    (hT : ∀ p q, T = p ++ '\n' :: q → ∃ p2 a, p = p2 ++ [a] ∧ okNlB a = true)
    (hlit : ∃ l0 lc, lit = l0 ++ [lc] ∧ (lc = 'n' ∨ lc = '`')) :
    ∀ s u, T = u ++ s → mdSearchA lit s = none := by
  intro s
  induction s with
  | nil =>
      intro u hu
      rfl
  | cons c t ih =>
      intro u hu
      show (match mdMatchHere lit (c :: t) with
        | some g => some g
        | none => mdSearchA lit t) = none
      rw [mdMatchHere_none hT hu hlit]
      exact ih (u ++ [c]) (by rw [hu, List.append_assoc, List.singleton_append])

/-- Method 2 finds nothing in serializer-shaped text. -/
theorem extractMarkdown_none {T : List Char}
    (hT : ∀ p q, T = p ++ '\n' :: q → ∃ p2 a, p = p2 ++ [a] ∧ okNlB a = true) :
    extractMarkdown T = none := by
  have h1 : mdSearchA mdLitJson T = none :=
    mdSearchA_none hT ⟨"```jso".data, 'n', by decide, Or.inl rfl⟩ T []
      (List.nil_append T).symm
  have h2 : mdSearchA mdLitPlain T = none :=
    mdSearchA_none hT ⟨"``".data, '`', by decide, Or.inr rfl⟩ T []
      (List.nil_append T).symm
  rw [extractMarkdown, h1, h2]

theorem embFind_cons (st : ScanSt) (c : Char) (r : List Char) :
    embFind st (c :: r) = if embHit st c then some 0
      else (embFind (embStep st c) r).map (· + 1) := rfl

theorem embFind_cons_none {st : ScanSt} {c : Char} {r : List Char}
    (h1 : embHit st c = false) (h2 : embFind (embStep st c) r = none) :
    embFind st (c :: r) = none := by
  rw [embFind_cons, if_neg (by simp [h1]), h2]
  rfl

theorem embFind_cons_some {st : ScanSt} {c : Char} {r : List Char} {i : Nat}
    (h1 : embHit st c = false) (h2 : embFind (embStep st c) r = some i) :
    embFind st (c :: r) = some (i + 1) := by
  rw [embFind_cons, if_neg (by simp [h1]), h2]
  rfl

theorem embFind_append_none {xs : List Char} : ∀ {st : ScanSt} {ys : List Char},
    embFind st xs = none → embFind (runScan st xs) ys = none →
    embFind st (xs ++ ys) = none := by
  induction xs with
  | nil =>
      intro st ys h1 h2
      exact h2
  | cons c t ih =>
      intro st ys h1 h2
      rw [embFind_cons] at h1
      cases hhit : embHit st c with
      | true =>
          rw [if_pos hhit] at h1
          exact absurd h1 (by simp)
      | false =>
          rw [if_neg (by simp [hhit])] at h1
          have h1b : embFind (embStep st c) t = none := by
            rcases hf : embFind (embStep st c) t with - | i
            · rfl
            · rw [hf] at h1
              exact absurd h1 (by simp)
          rw [runScan_cons] at h2
          rw [List.cons_append]
          exact embFind_cons_none hhit (ih h1b h2)

theorem embFind_append_some {xs : List Char} : ∀ {st : ScanSt} {ys : List Char}
    {i : Nat}, embFind st xs = some i → embFind st (xs ++ ys) = some i := by
  induction xs with
  | nil =>
      intro st ys i h
      exact absurd h (by simp [embFind])
  | cons c t ih =>
      intro st ys i h
      rw [embFind_cons] at h
      cases hhit : embHit st c with
      | true =>
          rw [if_pos hhit] at h
          rw [List.cons_append, embFind_cons, if_pos hhit]
          exact h
      | false =>
          rw [if_neg (by simp [hhit])] at h
          rcases hf : embFind (embStep st c) t with - | i2
          · rw [hf] at h
            exact absurd h (by simp)
          · rw [hf, Option.map_some'] at h
            rw [List.cons_append, embFind_cons, if_neg (by simp [hhit]), ih hf,
              Option.map_some']
            exact h

theorem embFind_append_pos {xs : List Char} : ∀ {st : ScanSt} {ys : List Char}
    {i : Nat}, embFind st xs = none → embFind (runScan st xs) ys = some i →
    embFind st (xs ++ ys) = some (xs.length + i) := by
  induction xs with
  | nil =>
      intro st ys i h1 h2
      simpa using h2
  | cons c t ih =>
      intro st ys i h1 h2
      rw [embFind_cons] at h1
      cases hhit : embHit st c with
      | true =>
          rw [if_pos hhit] at h1
          exact absurd h1 (by simp)
      | false =>
          rw [if_neg (by simp [hhit])] at h1
          have h1b : embFind (embStep st c) t = none := by
            rcases hf : embFind (embStep st c) t with - | i2
            · rfl
            · rw [hf] at h1
              exact absurd h1 (by simp)
          rw [runScan_cons] at h2
          rw [List.cons_append, embFind_cons_some hhit (ih h1b h2),
            Option.some.injEq, List.length_cons]
          omega

theorem embFind_no_brace {xs : List Char} (h : '\x7d' ∉ xs) :
    ∀ st, embFind st xs = none := by
  induction xs with
  | nil =>
      intro st
      rfl
  | cons c t ih =>
      intro st
      have hc : (c == '\x7d') = false :=
        beq_eq_false_iff_ne.mpr (fun hc => h (by rw [hc]; simp))
      exact embFind_cons_none (by simp [embHit, hc])
        (ih (fun hm => h (by simp [hm])) _)

theorem embFind_hexTail (d : Int) (a b c2 e : Nat) :
    embFind ⟨d, true, false⟩ (hexDig (a % 16) :: hexDig (b % 16)
      :: hexDig (c2 % 16) :: [hexDig (e % 16)]) = none := by
  refine embFind_cons_none rfl ?_
  rw [embStep_hexDig]
  refine embFind_cons_none rfl ?_
  rw [embStep_hexDig]
  refine embFind_cons_none rfl ?_
  rw [embStep_hexDig]
  exact embFind_cons_none rfl rfl

theorem embFind_escChar (d : Int) (c : Char) :
    embFind ⟨d, true, false⟩ (escChar c) = none := by
  rw [escChar]
  repeat' split
  case _ | _ | _ | _ | _ | _ | _ => rfl
  · refine embFind_cons_none rfl ?_
    refine embFind_cons_none rfl ?_
    exact embFind_hexTail d _ _ _ _
  · exact embFind_cons_none rfl rfl

theorem embFind_escStr (d : Int) (l : List Char) :
    embFind ⟨d, true, false⟩ (escStr l) = none := by
  induction l with
  | nil => rfl
  | cons c t ih =>
      rw [escStr, List.flatMap_cons]
      refine embFind_append_none (embFind_escChar d c) ?_
      rw [runScan_escChar]
      exact ih

theorem embFind_strLit (d : Int) (s : String) :
    embFind ⟨d, false, false⟩ (strLit s) = none := by
  rw [strLit]
  refine embFind_cons_none rfl ?_
  refine embFind_append_none (embFind_escStr d s.data) ?_
  show embFind (runScan ⟨d, true, false⟩ (escStr s.data)) ['"'] = none
  rw [runScan_escStr]
  exact embFind_cons_none rfl rfl

theorem brace_not_mem_nlInd (k : Nat) : '\x7d' ∉ nlInd k := by
  intro hm
  have := nlInd_all_ws k _ hm
  simp [pyWs] at this

theorem brace_not_mem_intChars (i : Int) : '\x7d' ∉ intChars i := by
  intro hm
  rw [intChars] at hm
  rcases List.mem_append.mp hm with h | h
  · split at h
    · rw [List.mem_singleton] at h
      exact absurd h (by decide)
    · simp at h
  · exact absurd (natDigs_all_dig _ _ h) (by decide)

mutual
/-- The brace scanner never reaches `brace_count == 0` while inside a
serialized value scanned at positive ambient depth. -/
theorem embFind_dump : ∀ (j : PyJson) (ind : Nat) (d : Int), 1 ≤ d →
    embFind ⟨d, false, false⟩ (dumpJ ind j) = none
  | .null, ind, d, hd => embFind_no_brace
      (show '\x7d' ∉ (['n', 'u', 'l', 'l'] : List Char) by decide) _
  | .bool true, ind, d, hd => embFind_no_brace
      (show '\x7d' ∉ (['t', 'r', 'u', 'e'] : List Char) by decide) _
  | .bool false, ind, d, hd => embFind_no_brace
      (show '\x7d' ∉ (['f', 'a', 'l', 's', 'e'] : List Char) by decide) _
  | .num n, ind, d, hd => embFind_no_brace (brace_not_mem_intChars n) _
  | .str s, ind, d, hd => embFind_strLit d s
  | .arr [], ind, d, hd => embFind_no_brace
      (show '\x7d' ∉ (['[', ']'] : List Char) by decide) _
  | .arr (x :: xs), ind, d, hd => by
      rw [show dumpJ ind (.arr (x :: xs)) = '[' :: (nlInd (ind + 2)
        ++ (dumpJ (ind + 2) x ++ (dumpItems (ind + 2) xs
          ++ (nlInd ind ++ [']'])))) from by
        rw [show dumpJ ind (.arr (x :: xs)) = '[' :: (nlInd (ind + 2)
          ++ dumpJ (ind + 2) x ++ dumpItems (ind + 2) xs ++ nlInd ind
          ++ [']']) from rfl]
        simp [List.append_assoc]]
      refine embFind_cons_none rfl ?_
      show embFind ⟨d, false, false⟩ _ = none
      refine embFind_append_none
        (embFind_no_brace (brace_not_mem_nlInd (ind + 2)) _) ?_
      rw [runScan_nlInd]
      refine embFind_append_none (embFind_dump x (ind + 2) d hd) ?_
      rw [runScan_dump]
      refine embFind_append_none (embFind_items xs (ind + 2) d hd) ?_
      rw [runScan_items]
      refine embFind_append_none
        (embFind_no_brace (brace_not_mem_nlInd ind) _) ?_
      rw [runScan_nlInd]
      exact embFind_cons_none rfl rfl
  | .obj [], ind, d, hd => by
      rw [show dumpJ ind (.obj []) = ['\x7b', '\x7d'] from rfl]
      refine embFind_cons_none rfl ?_
      refine embFind_cons_none ?_ rfl
      show embHit ⟨d + 1, false, false⟩ '\x7d' = false
      have hne : (d + 1 == 1) = false := by
        rw [beq_eq_false_iff_ne]
        omega
      simp [embHit, hne]
  | .obj (kv :: kvs), ind, d, hd => by
      rw [show dumpJ ind (.obj (kv :: kvs)) = '\x7b' :: (nlInd (ind + 2)
        ++ (strLit kv.1 ++ (':' :: ' ' :: (dumpJ (ind + 2) kv.2
          ++ (dumpMembers (ind + 2) kvs ++ (nlInd ind ++ ['\x7d'])))))) from by
        rw [show dumpJ ind (.obj (kv :: kvs)) = '\x7b' :: (nlInd (ind + 2)
          ++ strLit kv.1 ++ ':' :: ' ' :: dumpJ (ind + 2) kv.2
          ++ dumpMembers (ind + 2) kvs ++ nlInd ind ++ ['\x7d']) from rfl]
        simp [List.append_assoc]]
      refine embFind_cons_none rfl ?_
      show embFind ⟨d + 1, false, false⟩ _ = none
      refine embFind_append_none
        (embFind_no_brace (brace_not_mem_nlInd (ind + 2)) _) ?_
      rw [runScan_nlInd]
      refine embFind_append_none (embFind_strLit (d + 1) kv.1) ?_
      rw [runScan_strLit]
      refine embFind_cons_none rfl ?_
      refine embFind_cons_none rfl ?_
      show embFind ⟨d + 1, false, false⟩ _ = none
      refine embFind_append_none
        (embFind_dump kv.2 (ind + 2) (d + 1) (by omega)) ?_
      rw [runScan_dump]
      refine embFind_append_none
        (embFind_membs kvs (ind + 2) (d + 1) (by omega)) ?_
      rw [runScan_membs]
      refine embFind_append_none
        (embFind_no_brace (brace_not_mem_nlInd ind) _) ?_
      rw [runScan_nlInd]
      refine embFind_cons_none ?_ rfl
      have hne : (d + 1 == 1) = false := by
        rw [beq_eq_false_iff_ne]
        omega
      simp [embHit, hne]
  termination_by j _ _ _ => jweight j
  decreasing_by
    all_goals simp_wf
    all_goals simp [jweight, lweight, mweight]
    all_goals omega

theorem embFind_items : ∀ (xs : List PyJson) (ind : Nat) (d : Int), 1 ≤ d →
    embFind ⟨d, false, false⟩ (dumpItems ind xs) = none
  | [], _, _, _ => rfl
  | x :: xs, ind, d, hd => by
      rw [show dumpItems ind (x :: xs) = ',' :: (nlInd ind ++ (dumpJ ind x
        ++ dumpItems ind xs)) from by
        rw [show dumpItems ind (x :: xs) = ',' :: (nlInd ind ++ dumpJ ind x
          ++ dumpItems ind xs) from rfl]
        simp [List.append_assoc]]
      refine embFind_cons_none rfl ?_
      show embFind ⟨d, false, false⟩ _ = none
      refine embFind_append_none
        (embFind_no_brace (brace_not_mem_nlInd ind) _) ?_
      rw [runScan_nlInd]
      refine embFind_append_none (embFind_dump x ind d hd) ?_
      rw [runScan_dump]
      exact embFind_items xs ind d hd
  termination_by xs _ _ _ => lweight xs + 1
  decreasing_by
    all_goals simp_wf
    all_goals simp [jweight, lweight, mweight]
    all_goals omega

theorem embFind_membs : ∀ (kvs : List (String × PyJson)) (ind : Nat) (d : Int),
    1 ≤ d → embFind ⟨d, false, false⟩ (dumpMembers ind kvs) = none
  | [], _, _, _ => rfl
  | kv :: kvs, ind, d, hd => by
      rw [show dumpMembers ind (kv :: kvs) = ',' :: (nlInd ind ++ (strLit kv.1
        ++ (':' :: ' ' :: (dumpJ ind kv.2 ++ dumpMembers ind kvs)))) from by
        rw [show dumpMembers ind (kv :: kvs) = ',' :: (nlInd ind ++ strLit kv.1
          ++ ':' :: ' ' :: dumpJ ind kv.2 ++ dumpMembers ind kvs) from rfl]
        simp [List.append_assoc]]
      refine embFind_cons_none rfl ?_
      show embFind ⟨d, false, false⟩ _ = none
      refine embFind_append_none
        (embFind_no_brace (brace_not_mem_nlInd ind) _) ?_
      rw [runScan_nlInd]
      refine embFind_append_none (embFind_strLit d kv.1) ?_
      rw [runScan_strLit]
      refine embFind_cons_none rfl ?_
      refine embFind_cons_none rfl ?_
      show embFind ⟨d, false, false⟩ _ = none
      refine embFind_append_none (embFind_dump kv.2 ind d hd) ?_
      rw [runScan_dump]
      exact embFind_membs kvs ind d hd
  termination_by kvs _ _ _ => mweight kvs + 1
  decreasing_by
    all_goals simp_wf
    all_goals simp [jweight, lweight, mweight]
    all_goals omega
end

/-- The brace scan of serialized object output hits zero exactly at the
final closing brace. -/
theorem embFind_obj_top (ms : List (String × PyJson)) (ind : Nat) :
    embFind ⟨0, false, false⟩ (dumpJ ind (.obj ms))
      = some ((dumpJ ind (.obj ms)).length - 1) := by
  cases ms with
  | nil =>
      rw [show dumpJ ind (.obj []) = ['\x7b', '\x7d'] from rfl]
      decide
  | cons kv kvs =>
      rw [show dumpJ ind (.obj (kv :: kvs)) = '\x7b' :: ((nlInd (ind + 2)
        ++ (strLit kv.1 ++ (':' :: ' ' :: (dumpJ (ind + 2) kv.2
          ++ (dumpMembers (ind + 2) kvs ++ nlInd ind))))) ++ ['\x7d']) from by
        rw [show dumpJ ind (.obj (kv :: kvs)) = '\x7b' :: (nlInd (ind + 2)
          ++ strLit kv.1 ++ ':' :: ' ' :: dumpJ (ind + 2) kv.2
          ++ dumpMembers (ind + 2) kvs ++ nlInd ind ++ ['\x7d']) from rfl]
        simp [List.append_assoc]]
      set B := nlInd (ind + 2) ++ (strLit kv.1 ++ (':' :: ' '
        :: (dumpJ (ind + 2) kv.2 ++ (dumpMembers (ind + 2) kvs ++ nlInd ind))))
        with hB
      have hB1 : embFind ⟨1, false, false⟩ B = none := by
        rw [hB]
        refine embFind_append_none
          (embFind_no_brace (brace_not_mem_nlInd (ind + 2)) _) ?_
        rw [runScan_nlInd]
        refine embFind_append_none (embFind_strLit 1 kv.1) ?_
        rw [runScan_strLit]
        refine embFind_cons_none rfl ?_
        refine embFind_cons_none rfl ?_
        show embFind ⟨1, false, false⟩ _ = none
        refine embFind_append_none
          (embFind_dump kv.2 (ind + 2) 1 (by omega)) ?_
        rw [runScan_dump]
        refine embFind_append_none
          (embFind_membs kvs (ind + 2) 1 (by omega)) ?_
        rw [runScan_membs]
        exact embFind_no_brace (brace_not_mem_nlInd ind) _
      have hB2 : runScan ⟨1, false, false⟩ B = ⟨1, false, false⟩ := by
        rw [hB, runScan_append, runScan_nlInd, runScan_append, runScan_strLit,
          runScan_cons, runScan_cons,
          show embStep (embStep ⟨1, false, false⟩ ':') ' '
            = ⟨1, false, false⟩ from rfl,
          runScan_append, runScan_dump, runScan_append, runScan_membs,
          runScan_nlInd]
      have hfin : embFind (runScan ⟨1, false, false⟩ B) ['\x7d'] = some 0 := by
        rw [hB2]
        decide
      have h1 := embFind_append_pos hB1 hfin
      have h2 := embFind_cons_some (show embHit ⟨0, false, false⟩ '\x7b' = false
        from rfl) h1
      rw [h2, Option.some.injEq, List.length_cons, List.length_append]
      rw [hB]
      simp only [List.length_append, List.length_cons, List.length_nil]
      omega

theorem pyFind_eq (cs pat : List Char) :
    pyFind cs pat = if pat.isPrefixOf cs then some 0
      else match cs with
        | [] => none
        | _ :: t => (pyFind t pat).map (fun n => n + 1) := by
  rw [pyFind.eq_def]

theorem pyFind_prefix {cs pat : List Char} (h : pat.isPrefixOf cs = true) :
    pyFind cs pat = some 0 := by
  rw [pyFind_eq, if_pos h]

theorem pyFind_occurs : ∀ (cs : List Char) {pat : List Char} {e : Nat},
    pyFind cs pat = some e → OccursAt cs pat e := by
  intro cs
  induction cs with
  | nil =>
      intro pat e h
      rw [pyFind_eq] at h
      by_cases hpf : pat.isPrefixOf ([] : List Char) = true
      · rw [if_pos hpf, Option.some.injEq] at h
        subst h
        rw [OccursAt, List.drop_zero]
        exact List.isPrefixOf_iff_prefix.mp hpf
      · rw [if_neg hpf] at h
        exact Option.noConfusion h
  | cons c t ih =>
      intro pat e h
      rw [pyFind_eq] at h
      by_cases hpf : pat.isPrefixOf (c :: t) = true
      · rw [if_pos hpf, Option.some.injEq] at h
        subst h
        rw [OccursAt, List.drop_zero]
        exact List.isPrefixOf_iff_prefix.mp hpf
      · rw [if_neg hpf] at h
        have h2 : (pyFind t pat).map (fun n => n + 1) = some e := h
        rcases hf : pyFind t pat with - | e2 <;> rw [hf] at h2
        · exact absurd h2 (by simp)
        · rw [Option.map_some', Option.some.injEq] at h2
          subst h2
          rw [OccursAt, List.drop_succ_cons]
          exact ih hf

theorem pyFind_le : ∀ (cs : List Char) {pat : List Char} {i : Nat},
    OccursAt cs pat i → ∃ e, pyFind cs pat = some e ∧ e ≤ i := by
  intro cs
  induction cs with
  | nil =>
      intro pat i hocc
      rw [OccursAt, List.drop_nil] at hocc
      have hpf : pat.isPrefixOf ([] : List Char) = true :=
        List.isPrefixOf_iff_prefix.mpr hocc
      exact ⟨0, by rw [pyFind_eq, if_pos hpf], Nat.zero_le i⟩
  | cons c t ih =>
      intro pat i hocc
      by_cases hpf : pat.isPrefixOf (c :: t) = true
      · exact ⟨0, by rw [pyFind_eq, if_pos hpf], Nat.zero_le i⟩
      · cases i with
        | zero =>
            rw [OccursAt, List.drop_zero] at hocc
            exact absurd (List.isPrefixOf_iff_prefix.mpr hocc) hpf
        | succ i2 =>
            rw [OccursAt, List.drop_succ_cons] at hocc
            obtain ⟨e2, he2, hle⟩ := ih hocc
            refine ⟨e2 + 1, ?_, Nat.succ_le_succ hle⟩
            rw [pyFind_eq, if_neg hpf]
            show (pyFind t pat).map (fun n => n + 1) = some (e2 + 1)
            rw [he2, Option.map_some']

theorem pyFind_min {cs pat : List Char} {e i : Nat} (h : pyFind cs pat = some e)
    (hocc : OccursAt cs pat i) : e ≤ i := by
  obtain ⟨e2, he2, hle⟩ := pyFind_le cs hocc
  rw [h] at he2
  have := Option.some.inj he2
  omega

theorem pyFind_char : ∀ (u : List Char) {p : Char} {w : List Char}, p ∉ u →
    pyFind (u ++ p :: w) [p] = some u.length := by
  intro u
  induction u with
  | nil =>
      intro p w h
      rw [List.nil_append]
      apply pyFind_prefix
      show ([p].isPrefixOf (p :: w)) = true
      simp [List.isPrefixOf]
  | cons c t ih =>
      intro p w h
      rw [List.cons_append]
      by_cases hpf : ([p].isPrefixOf (c :: (t ++ p :: w))) = true
      · exfalso
        obtain ⟨t2, ht2⟩ := List.isPrefixOf_iff_prefix.mp hpf
        rw [List.singleton_append] at ht2
        exact h (by rw [(List.cons.inj ht2).1]; simp)
      · rw [pyFind_eq, if_neg hpf]
        show (pyFind (t ++ p :: w) [p]).map (fun n => n + 1)
          = some (c :: t).length
        rw [ih (fun hm => h (by simp [hm])), Option.map_some', List.length_cons]

theorem prefix_take_left {p u v : List Char} (h : p <+: u ++ v) :
    p.take u.length <+: u := by
  obtain ⟨t2, ht2⟩ := h
  have hkey := congrArg (List.take u.length) ht2
  rw [List.take_left] at hkey
  have h2 := (List.prefix_append p t2).take u.length
  rw [hkey] at h2
  exact h2

/-- The end delimiter cannot occur inside the 17 leading characters the
write path emits. -/
theorem endDelim_not_early (e : Nat) (he : e ≤ 16) (rest : List Char) :
    ¬ OccursAt ((jsonStartDelim ++ ['\n']) ++ rest) jsonEndDelim e := by
  intro hocc
  rw [OccursAt, List.drop_append_of_le_length (by
    rw [show (jsonStartDelim ++ ['\n']).length = 17 from by decide]
    omega)] at hocc
  have hp := prefix_take_left hocc
  interval_cases e <;> exact absurd hp (by decide)

theorem dumpJ_obj_head (ind : Nat) (ms : List (String × PyJson)) :
    ∃ t, dumpJ ind (.obj ms) = '\x7b' :: t := by
  cases ms with
  | nil => exact ⟨['\x7d'], rfl⟩
  | cons kv kvs => exact ⟨_, rfl⟩

theorem dumpJ_obj_last (ind : Nat) (ms : List (String × PyJson)) :
    ∃ p, dumpJ ind (.obj ms) = p ++ ['\x7d'] := by
  cases ms with
  | nil => exact ⟨['\x7b'], rfl⟩
  | cons kv kvs =>
      refine ⟨'\x7b' :: (nlInd (ind + 2) ++ strLit kv.1 ++ ':' :: ' '
        :: dumpJ (ind + 2) kv.2 ++ dumpMembers (ind + 2) kvs ++ nlInd ind), ?_⟩
      rw [show dumpJ ind (.obj (kv :: kvs)) = '\x7b' :: (nlInd (ind + 2)
        ++ strLit kv.1 ++ ':' :: ' ' :: dumpJ (ind + 2) kv.2
        ++ dumpMembers (ind + 2) kvs ++ nlInd ind ++ ['\x7d']) from rfl]
      simp [List.append_assoc]

/-- `strip` is the identity on text with non-whitespace first and last
characters. -/
theorem pyStripL_sandwich {a b : Char} (m : List Char) (ha : pyWs a = false)
    (hb : pyWs b = false) : pyStripL (a :: (m ++ [b])) = a :: (m ++ [b]) := by
  rw [pyStripL]
  rw [show (a :: (m ++ [b])).dropWhile pyWs = a :: (m ++ [b]) from by
    rw [List.dropWhile_cons, if_neg (by simp [ha])]]
  rw [show (a :: (m ++ [b])).reverse = b :: (m.reverse ++ [a]) from by simp]
  rw [show (b :: (m.reverse ++ [a])).dropWhile pyWs = b :: (m.reverse ++ [a])
    from by rw [List.dropWhile_cons, if_neg (by simp [hb])]]
  simp

/-- Stripping the method-1 slice of well-delimited output recovers the
serialized object exactly. -/
theorem pyStripL_wrap {D : List Char} {c b : Char} {t p : List Char}
    (hD1 : D = c :: t) (hD2 : D = p ++ [b]) (hc : pyWs c = false)
    (hb : pyWs b = false) :
    pyStripL ('\n' :: (D ++ ['\n'])) = D := by
  rw [pyStripL]
  have h1 : ('\n' :: (D ++ ['\n'])).dropWhile pyWs = D ++ ['\n'] := by
    rw [List.dropWhile_cons, if_pos (show pyWs '\n' = true from rfl), hD1,
      List.cons_append, List.dropWhile_cons, if_neg (by simp [hc])]
  have h2 : (D ++ ['\n']).reverse = '\n' :: D.reverse := by
    rw [List.reverse_append]
    rfl
  have h3 : ('\n' :: D.reverse).dropWhile pyWs = D.reverse := by
    rw [List.dropWhile_cons, if_pos (show pyWs '\n' = true from rfl), hD2,
      List.reverse_append, List.reverse_singleton, List.singleton_append,
      List.dropWhile_cons, if_neg (by simp [hb])]
  rw [h1, h2, h3, List.reverse_reverse]

theorem foundJ_none : foundJ none = none := rfl

theorem foundJ_obj (ms : List (String × PyJson)) :
    foundJ (some (.obj ms)) = some (.obj ms) := rfl

/-- Every newline in write-path output has an `okNlB` predecessor. -/
theorem format_nl (ms : List (String × PyJson)) :
    ∀ p q, formatJsonResponse (.obj ms) = p ++ '\n' :: q →
      ∃ p2 a, p = p2 ++ [a] ∧ okNlB a = true := by
  have hin : NlPredIn (formatJsonResponse (.obj ms)) := by
    rw [formatJsonResponse]
    refine nlPredIn_append (nlPredIn_no_nl (by decide)) ?_ ?_
    · refine nlPredIn_cons ?_ ?_
      · refine nlPredIn_append (nlPredIn_dump (.obj ms) 0) ?_ ?_
        · refine nlPredIn_cons (nlPredIn_no_nl (by decide)) ?_
          rintro ⟨q2, hq⟩
          rw [show jsonEndDelim = '<' :: "<<JSON_END>>>".data from by decide]
            at hq
          exact absurd (List.cons.inj hq).1 (by decide)
        · intro h2
          obtain ⟨p, c, hx, hv⟩ := dumpJ_last 0 (.obj ms)
          exact ⟨p, c, hx, okNl_of_valEnd hv⟩
      · exact dump_not_nl
    · intro h2
      exact ⟨"<<<JSON_START>>".data, '>', by decide, by decide⟩
  intro p q hpq
  rcases hin p q hpq with rfl | hgood
  · rw [List.nil_append] at hpq
    rw [show formatJsonResponse (.obj ms) = '<' :: ("<<JSON_START>>>".data
      ++ '\n' :: (jsonDumpsL (.obj ms) ++ '\n' :: jsonEndDelim)) from rfl]
      at hpq
    exact absurd (List.cons.inj hpq).1 (by decide)
  · exact hgood

/-- Stripping the write-path output changes nothing: it starts at `<` and
ends at `>`. -/
theorem format_strip_id (ms : List (String × PyJson)) :
    pyStripL (formatJsonResponse (.obj ms)) = formatJsonResponse (.obj ms) := by
  have h : formatJsonResponse (.obj ms) = '<' :: (("<<JSON_START>>>".data
      ++ '\n' :: (jsonDumpsL (.obj ms) ++ '\n' :: "<<<JSON_END>>".data))
      ++ ['>']) := by
    rw [formatJsonResponse,
      show jsonStartDelim = '<' :: "<<JSON_START>>>".data from by decide,
      show jsonEndDelim = "<<<JSON_END>>".data ++ ['>'] from by decide]
    simp [List.append_assoc]
  rw [h]
  exact pyStripL_sandwich _ (by decide) (by decide)

/-- `extract_json_from_response` on non-empty pre-stripped text is the
four-method cascade. -/
theorem extractJson_eq (cs : List Char) (h1 : cs.isEmpty = false)
    (h2 : pyStripL cs = cs) :
    extractJson cs = match foundJ (extractDelimited cs) with
      | some v => some v
      | none => match foundJ (extractMarkdown cs) with
        | some v => some v
        | none => match foundJ (extractRaw cs) with
          | some v => some v
          | none => foundJ (extractEmbedded cs) := by
  rw [extractJson, h2, if_neg (by simp [h1])]

/-- C7: the extraction round-trip holds for the write path: for every
well-formed key-value object `O`, running `extract_json_from_response` on
`format_json_response(O)` returns exactly `O`.  When the serialized text
contains no early end-delimiter occurrence, method 1 (delimited slice)
already recovers `O`; when a string value smuggles in an early
`<<<JSON_END>>>`, the truncated slice ends inside a string literal and
fails to parse, methods 2 and 3 find nothing, and method 4's brace scan
isolates exactly the serialized object, which parses back to `O`. -/
theorem c7_extract_format_roundtrip (ms : List (String × PyJson))
    (hw : PyJson.wf (.obj ms) = true) :
    extractJson (formatJsonResponse (.obj ms)) = some (.obj ms) := by
  set T := formatJsonResponse (.obj ms) with hT
  set D := jsonDumpsL (.obj ms) with hD
  have hD2 : D = dumpJ 0 (.obj ms) := hD
  obtain ⟨Dt, hDhead0⟩ := dumpJ_obj_head 0 ms
  have hDhead : D = '\x7b' :: Dt := by
    rw [hD2]
    exact hDhead0
  have hTfull : T = jsonStartDelim ++ '\n' :: (D ++ '\n' :: jsonEndDelim) := by
    rw [hT, formatJsonResponse, hD]
  have hThead : T = '<' :: ("<<JSON_START>>>".data
      ++ '\n' :: (D ++ '\n' :: jsonEndDelim)) := by
    rw [hTfull, show jsonStartDelim = '<' :: "<<JSON_START>>>".data from by
      decide, List.cons_append]
  have hemp : T.isEmpty = false := by
    rw [hThead]
    rfl
  have hstrip : pyStripL T = T := by
    rw [hT]
    exact format_strip_id ms
  have hfind_start : pyFind T jsonStartDelim = some 0 :=
    pyFind_prefix (List.isPrefixOf_iff_prefix.mpr
      ⟨'\n' :: (D ++ '\n' :: jsonEndDelim), by rw [hTfull]⟩)
  have hdrop16 : T.drop 16 = '\n' :: (D ++ '\n' :: jsonEndDelim) := by
    rw [hTfull, List.drop_left' (by decide)]
  have hm2 : extractMarkdown T = none := by
    rw [hT]
    exact extractMarkdown_none (format_nl ms)
  have hm3 : extractRaw T = none := by
    rw [extractRaw, hThead]
    exact jsonLoadsL_lt_head _
  have hDlast : ∃ p, D = p ++ ['\x7d'] := by
    obtain ⟨p, hp⟩ := dumpJ_obj_last 0 ms
    exact ⟨p, by rw [hD2]; exact hp⟩
  have hloads : jsonLoadsL D = some (.obj ms) := by
    rw [hD2]
    exact loads_dumps 0 (.obj ms) hw
  have hDlen : 1 ≤ D.length := by
    rw [hDhead]
    simp
  have hstep : ∀ (f : Nat) (text : List Char), embLoop (f + 1) text
      = match pyFind text ['\x7b'] with
        | none => none
        | some s => match embFind ⟨0, false, false⟩ (text.drop s) with
          | none => none
          | some k => match jsonLoadsL ((text.drop s).take (k + 1)) with
            | some v => some v
            | none => embLoop f (text.drop (s + k + 1)) := fun f text => rfl
  have hsplitT : T = (jsonStartDelim ++ ['\n']) ++ '\x7b'
      :: (Dt ++ '\n' :: jsonEndDelim) := by
    rw [hTfull, hDhead]
    simp [List.append_assoc]
  have hfindb : pyFind T ['\x7b'] = some 17 := by
    rw [hsplitT, pyFind_char _ (show '\x7b' ∉ jsonStartDelim ++ ['\n'] by
      decide), show (jsonStartDelim ++ ['\n']).length = 17 from by decide]
  have hdrop17 : T.drop 17 = D ++ '\n' :: jsonEndDelim := by
    rw [hTfull, show jsonStartDelim ++ '\n' :: (D ++ '\n' :: jsonEndDelim)
      = (jsonStartDelim ++ ['\n']) ++ (D ++ '\n' :: jsonEndDelim) from by
        simp [List.append_assoc],
      List.drop_left' (by decide)]
  have hembf : embFind ⟨0, false, false⟩ (T.drop 17) = some (D.length - 1) := by
    rw [hdrop17, hD2]
    exact embFind_append_some (embFind_obj_top ms 0)
  have htake : (T.drop 17).take (D.length - 1 + 1) = D := by
    rw [hdrop17, show D.length - 1 + 1 = D.length from by omega,
      List.take_append_of_le_length (Nat.le_refl _), List.take_length]
  have hm4 : extractEmbedded T = some (.obj ms) := by
    rw [extractEmbedded, hstep T.length T, hfindb]
    show (match embFind ⟨0, false, false⟩ (T.drop 17) with
      | none => none
      | some k => match jsonLoadsL ((T.drop 17).take (k + 1)) with
        | some v => some v
        | none => embLoop T.length (T.drop (17 + k + 1))) = some (.obj ms)
    rw [hembf]
    show (match jsonLoadsL ((T.drop 17).take (D.length - 1 + 1)) with
      | some v => some v
      | none => embLoop T.length (T.drop (17 + (D.length - 1) + 1)))
      = some (.obj ms)
    rw [htake, hloads]
  have hoccg : OccursAt T jsonEndDelim (18 + D.length) := by
    rw [OccursAt, hTfull,
      show jsonStartDelim ++ '\n' :: (D ++ '\n' :: jsonEndDelim)
        = ((jsonStartDelim ++ ['\n']) ++ (D ++ ['\n'])) ++ jsonEndDelim from by
        simp [List.append_assoc],
      List.drop_left' (by
        simp only [List.length_append, List.length_cons, List.length_nil,
          show jsonStartDelim.length = 16 from by decide]
        omega)]
  obtain ⟨e, hfinde, hele⟩ := pyFind_le T hoccg
  have hocce := pyFind_occurs T hfinde
  have he17 : 17 ≤ e := by
    by_contra hlt2
    have hocc2 : OccursAt ((jsonStartDelim ++ ['\n'])
        ++ (D ++ '\n' :: jsonEndDelim)) jsonEndDelim e := by
      rw [show (jsonStartDelim ++ ['\n']) ++ (D ++ '\n' :: jsonEndDelim) = T
        from by rw [hTfull]; simp [List.append_assoc]]
      exact hocce
    exact endDelim_not_early e (by omega) _ hocc2
  rcases Nat.lt_or_ge e (18 + D.length) with hlt | hge
  · set k := e - 17 with hk
    have hdropk : T.drop e = (D ++ '\n' :: jsonEndDelim).drop k := by
      rw [show e = 17 + k from by omega, hTfull,
        show jsonStartDelim ++ '\n' :: (D ++ '\n' :: jsonEndDelim)
          = (jsonStartDelim ++ ['\n']) ++ (D ++ '\n' :: jsonEndDelim) from by
          simp [List.append_assoc],
        show (17 : Nat) + k = (jsonStartDelim ++ ['\n']).length + k from by
          rw [show (jsonStartDelim ++ ['\n']).length = 17 from by decide]]
      exact List.drop_append k
    have hhead2 : ∃ w, T.drop e = '<' :: w := by
      obtain ⟨t2, ht2⟩ := hocce
      exact ⟨"<<JSON_END>>>".data ++ t2, by
        rw [← ht2, show jsonEndDelim = '<' :: "<<JSON_END>>>".data from by
          decide, List.cons_append]⟩
    rcases Nat.lt_or_ge k D.length with hkind | hkge
    · obtain ⟨w, hw⟩ := hhead2
      rw [hdropk, List.drop_append_of_le_length (by omega),
        List.drop_eq_getElem_cons hkind, List.cons_append] at hw
      have hDklt : D[k] = '<' := (List.cons.inj hw).1
      have hsplitD : D = D.take k ++ '<' :: D.drop (k + 1) := by
        conv_lhs => rw [← List.take_append_drop k D]
        rw [List.drop_eq_getElem_cons hkind, hDklt]
      have hsplitD2 : dumpJ 0 (.obj ms)
          = D.take k ++ '<' :: D.drop (k + 1) := by
        rw [← hD2]
        exact hsplitD
      have hinstr : (runScan ⟨0, false, false⟩ (D.take k)).inStr = true :=
        dump_lt (.obj ms) 0 0 _ _ hsplitD2
      have hm1 : extractDelimited T = none := by
        rw [extractDelimited, hfind_start, hfinde]
        show jsonLoadsL (pyStripL ((T.drop (0 + jsonStartDelim.length)).take
          (e - (0 + jsonStartDelim.length)))) = none
        rw [show 0 + jsonStartDelim.length = 16 from by decide, hdrop16,
          show e - 16 = k + 1 from by omega, List.take_succ_cons,
          List.take_append_of_le_length (by omega)]
        exact loads_strip_prefix_lt hinstr
      rw [extractJson_eq T hemp hstrip, hm1, hm2, hm3, hm4, foundJ_none,
        foundJ_obj]
    · have hkeq : k = D.length := by omega
      obtain ⟨w, hw⟩ := hhead2
      rw [hdropk, hkeq, List.drop_left' rfl] at hw
      exact absurd (List.cons.inj hw).1 (by decide)
  · have hm1 : extractDelimited T = some (.obj ms) := by
      rw [extractDelimited, hfind_start, hfinde]
      show jsonLoadsL (pyStripL ((T.drop (0 + jsonStartDelim.length)).take
        (e - (0 + jsonStartDelim.length)))) = some (.obj ms)
      rw [show 0 + jsonStartDelim.length = 16 from by decide, hdrop16,
        show e - 16 = D.length + 1 + 1 from by omega, List.take_succ_cons,
        show D ++ '\n' :: jsonEndDelim = (D ++ ['\n']) ++ jsonEndDelim from by
          simp [List.append_assoc],
        List.take_left' (by simp)]
      rw [show pyStripL ('\n' :: (D ++ ['\n'])) = D from by
        obtain ⟨p0, hplast⟩ := hDlast
        exact pyStripL_wrap hDhead hplast (by decide) (by decide)]
      exact hloads
    rw [extractJson_eq T hemp hstrip, hm1, foundJ_obj]

/-- Witness for C7 at a concrete two-key object. -/
theorem c7_extract_format_roundtrip_witness :
    PyJson.wf (.obj [("status", .str "ok"), ("n", .num 3)]) = true ∧
    extractJson (formatJsonResponse
        (.obj [("status", .str "ok"), ("n", .num 3)]))
      = some (.obj [("status", .str "ok"), ("n", .num 3)]) :=
  ⟨by decide, c7_extract_format_roundtrip _ (by decide)⟩

end AgentIns
